import Mathlib

/-!
Verification development for the hypermarket-clob matching engine.

This file gives a shallow embedding, in Lean 4, of the deterministic core of
the engine: the order book (src/src/matching/orderbook.rs), the batch auction
(src/src/matching/batch.rs), the write-ahead-log framing (src/src/persistence/wal.rs),
the risk engine (src/src/risk/mod.rs) and the shard event loop
(src/src/engine/shard.rs).  Machine integers (u64/i64/i128) are modelled as
Nat/Int with explicit wrapping or saturation where the Rust code can overflow
(release-profile semantics: unchecked `+`, `-`, `*` wrap; `saturating_*`
saturate; `as` casts truncate).  The intrusive doubly-linked FIFO of each
price level is modelled as the list of slab keys from head to tail; the slab
arena is the ascending-key association list `orders` together with the
vacant-slot stack `free` and the capacity `cap`, mirroring `slab::Slab`'s
free-list behaviour (insert pops the stack or appends at `cap`; remove pushes
the freed key).  `BTreeMap` is modelled as an association list kept in
ascending key order, so that iteration from either end matches the source.
-/

namespace HypermarketClob

/-- Side of an order (src/src/models/mod.rs, `enum Side`). -/
inductive Side where
  | Buy
  | Sell
deriving DecidableEq, Repr

/-- Order type (src/src/models/mod.rs, `enum OrderType`). -/
inductive OrderType where
  | Limit
  | Market
  | PostOnly
  | Ioc
  | Fok
deriving DecidableEq, Repr

/-- Time in force (src/src/models/mod.rs, `enum TimeInForce`). -/
inductive TimeInForce where
  | Gtc
  | Ioc
  | Fok
deriving DecidableEq, Repr

/-- The modulus of 64-bit unsigned arithmetic. -/
def U64MOD : Nat := 18446744073709551616

/-- The largest u64 value, also the sentinel `u64::MAX` used by the batch auction. -/
def U64MAX : Nat := 18446744073709551615

/-- Wrapping 64-bit unsigned addition (release-profile `+` on `u64`). -/
def uadd64 (a b : Nat) : Nat := (a + b) % U64MOD

/-- Wrapping 64-bit unsigned subtraction (release-profile `-` on `u64`). -/
def usub64 (a b : Nat) : Nat := (a + (U64MOD - b % U64MOD)) % U64MOD

/-- Saturating u64 addition (`u64::saturating_add`). -/
def satAdd64 (a b : Nat) : Nat := min (a + b) U64MAX

/-- Saturating u64 multiplication (`u64::saturating_mul`). -/
def satMul64 (a b : Nat) : Nat := min (a * b) U64MAX

/-- An incoming order, the matching input (src/src/matching/orderbook.rs, `IncomingOrder`). -/
structure IncomingOrder where
  order_id : Nat
  subaccount_id : Nat
  side : Side
  order_type : OrderType
  tif : TimeInForce
  price_ticks : Nat
  qty : Nat
  reduce_only : Bool
  ingress_seq : Nat
deriving DecidableEq, Repr

/-- A fill record (src/src/models/mod.rs, `struct Fill`). -/
structure Fill where
  market_id : Nat
  maker_order_id : Nat
  taker_order_id : Nat
  price_ticks : Nat
  qty : Nat
  maker_fee : Int
  taker_fee : Int
  engine_seq : Nat
  ts : Nat
deriving DecidableEq, Repr

/-- A resting order node (src/src/matching/orderbook.rs, `OrderNode`).  The
`next`/`prev` sibling indices are not stored here: the chain they encode is
modelled as the order of the enclosing level's `queue` list of slab keys. -/
structure OrderNode where
  order_id : Nat
  subaccount_id : Nat
  side : Side
  price_ticks : Nat
  remaining : Nat
  ingress_seq : Nat
deriving DecidableEq, Repr

/-- A price level (src/src/matching/orderbook.rs, `Level`): the `queue` lists
the slab keys of the level's nodes from `head` to `tail`, and `total_qty` is
the stored aggregate quantity. -/
structure Level where
  queue : List Nat
  total_qty : Nat
deriving DecidableEq, Repr

/-- The order book (src/src/matching/orderbook.rs, `OrderBook`).  `bids` and
`asks` are the two `BTreeMap<PriceTicks, Level>` maps as ascending-key
association lists; `orders`, `free` and `cap` model the `slab::Slab<OrderNode>`
arena (occupied slots ascending by key, the vacant-slot stack, and the slab
length); `order_index` models the `HashMap<OrderId, usize>`. -/
structure OrderBook where
  bids : List (Nat × Level)
  asks : List (Nat × Level)
  orders : List (Nat × OrderNode)
  free : List Nat
  cap : Nat
  order_index : List (Nat × Nat)
deriving DecidableEq, Repr

/-- The empty order book (`OrderBook::new`). -/
def OrderBook.empty : OrderBook := ⟨[], [], [], [], 0, []⟩

/-- First-match lookup in an association list; models `get` on the book's maps. -/
def lookupKey {α : Type} : List (Nat × α) → Nat → Option α
  | [], _ => none
  | (k, v) :: rest, key => if k = key then some v else lookupKey rest key

/-- Replace the value stored at a key (first match only); models mutation
through `get_mut` or indexing. -/
def setKey {α : Type} : List (Nat × α) → Nat → α → List (Nat × α)
  | [], _, _ => []
  | (k, v) :: rest, key, nv =>
    if k = key then (k, nv) :: rest else (k, v) :: setKey rest key nv

/-- Remove the entry stored at a key (first match only); models map `remove`. -/
def eraseKey {α : Type} : List (Nat × α) → Nat → List (Nat × α)
  | [], _ => []
  | (k, v) :: rest, key => if k = key then rest else (k, v) :: eraseKey rest key

/-- Insert keeping ascending key order; models `BTreeMap` insertion and the
slab filling a vacant slot. -/
def insertSortedKey {α : Type} : List (Nat × α) → Nat → α → List (Nat × α)
  | [], key, nv => [(key, nv)]
  | (k, v) :: rest, key, nv =>
    if key < k then (key, nv) :: (k, v) :: rest
    else if key = k then (key, nv) :: rest
    else (k, v) :: insertSortedKey rest key nv

/-- Crossing rule (`OrderBook::crosses`): `Market` crosses any price; otherwise
a Buy crosses when `limit_price >= best_price`, a Sell when
`limit_price <= best_price`. -/
def crosses (side : Side) (order_type : OrderType) (limit_price best_price : Nat) : Bool :=
  match order_type with
  | OrderType.Market => true
  | _ =>
    match side with
    | Side.Buy => best_price ≤ limit_price
    | Side.Sell => limit_price ≤ best_price

/-- Walk of crossing levels accumulating `total_qty` with `saturating_add`,
stopping at the first non-crossing price (the loop body of
`OrderBook::available_qty`). -/
def availLoop (incoming : IncomingOrder) : List (Nat × Level) → Nat → Nat
  | [], acc => acc
  | (price, level) :: rest, acc =>
    if crosses incoming.side incoming.order_type incoming.price_ticks price then
      availLoop incoming rest (satAdd64 acc level.total_qty)
    else acc

/-- `OrderBook::available_qty`: a Buy walks the asks ascending, a Sell walks
the bids descending (`iter().rev()`). -/
def available_qty (b : OrderBook) (incoming : IncomingOrder) : Nat :=
  match incoming.side with
  | Side.Buy => availLoop incoming b.asks 0
  | Side.Sell => availLoop incoming b.bids.reverse 0

/-- `OrderBook::would_cross`: compares against the best opposite price if any. -/
def would_cross (b : OrderBook) (side : Side) (price_ticks : Nat) : Bool :=
  match side with
  | Side.Buy =>
    match b.asks.head? with
    | some (best, _) => best ≤ price_ticks
    | none => false
  | Side.Sell =>
    match b.bids.getLast? with
    | some (best, _) => price_ticks ≤ best
    | none => false

/-- `OrderBook::has_order`: membership in the order index. -/
def has_order (b : OrderBook) (order_id : Nat) : Bool :=
  (lookupKey b.order_index order_id).isSome

/-- The best level on the side a taker matches against: a Buy taker reads the
first (lowest) ask entry, a Sell taker the last (highest) bid entry. -/
def bestOpposite (b : OrderBook) (side : Side) : Option (Nat × Level) :=
  match side with
  | Side.Buy => b.asks.head?
  | Side.Sell => b.bids.getLast?

/-- `OrderBook::remove_level_if_empty`: note that the side argument selects
`bids` for `Buy` and `asks` for `Sell`, exactly as in the source — the
matching loop passes the TAKER's side here, so a fully consumed opposite-side
level is in fact never removed by this call. -/
def remove_level_if_empty (b : OrderBook) (side : Side) (price : Nat) : OrderBook :=
  match side with
  | Side.Buy =>
    match lookupKey b.bids price with
    | some level =>
      if level.total_qty = 0 then { b with bids := eraseKey b.bids price } else b
    | none => b
  | Side.Sell =>
    match lookupKey b.asks price with
    | some level =>
      if level.total_qty = 0 then { b with asks := eraseKey b.asks price } else b
    | none => b

/-- Helper setting the level at a price on the side a taker of the given side
matches against (the in-place mutations of `level` in `place_order`). -/
def setOpposite (b : OrderBook) (side : Side) (price : Nat) (level : Level) : OrderBook :=
  match side with
  | Side.Buy => { b with asks := setKey b.asks price level }
  | Side.Sell => { b with bids := setKey b.bids price level }

/-- A fill as constructed inside `OrderBook::place_order` (market, fees,
sequence and timestamp all left zero, stamped later by the shard). -/
def mkBookFill (maker_order_id taker_order_id price_ticks qty : Nat) : Fill :=
  { market_id := 0, maker_order_id := maker_order_id, taker_order_id := taker_order_id,
    price_ticks := price_ticks, qty := qty, maker_fee := 0, taker_fee := 0,
    engine_seq := 0, ts := 0 }

/-- Loop state of the matching loop in `OrderBook::place_order`. -/
structure MatchSt where
  book : OrderBook
  remaining : Nat
  matched : Nat
  fills : List Fill
deriving DecidableEq, Repr

/-- The `while remaining > 0` matching loop of `OrderBook::place_order`,
translated step for step.  `fuel` bounds the number of iterations; `none`
means the fuel ran out, which models the source's non-termination: the
`level.head == None` branch removes a level on the WRONG side (the taker's own
side) and `continue`s, so when the best opposite level is empty and crossed
the loop never progresses.  In the branch where the maker is fully consumed,
the source calls `detach_from_level` (which pops the maker — with `remaining`
already zero — from the level it rests on, i.e. this very level) and then
re-points `level.head`; the net effect on this level is dropping the head key,
which is what the update below performs. -/
def matchLoop (incoming : IncomingOrder) (max_matches : Nat) :
    Nat → MatchSt → Option MatchSt
  | 0, _ => none
  | fuel + 1, st =>
    if st.remaining = 0 then some st
    else if max_matches ≤ st.matched then some st
    else
      match bestOpposite st.book incoming.side with
      | none => some st
      | some (best_price, level) =>
        if crosses incoming.side incoming.order_type incoming.price_ticks best_price then
          match level.queue with
          | [] =>
            matchLoop incoming max_matches fuel
              { st with book := remove_level_if_empty st.book incoming.side best_price }
          | head_idx :: queue_rest =>
            match lookupKey st.book.orders head_idx with
            | none => some st
            | some maker =>
              let trade_qty := min st.remaining maker.remaining
              let new_total := usub64 level.total_qty trade_qty
              let book1 :=
                if maker.remaining - trade_qty = 0 then
                  let b1 := setOpposite st.book incoming.side best_price
                    ({ queue := queue_rest, total_qty := new_total })
                  { b1 with
                    orders := eraseKey b1.orders head_idx,
                    free := head_idx :: b1.free,
                    order_index := eraseKey b1.order_index maker.order_id }
                else
                  let maker2 : OrderNode := { maker with remaining := maker.remaining - trade_qty }
                  let b1 := setOpposite st.book incoming.side best_price
                    ({ queue := head_idx :: queue_rest, total_qty := new_total })
                  { b1 with orders := setKey b1.orders head_idx maker2 }
              let book2 :=
                if new_total = 0 then remove_level_if_empty book1 incoming.side best_price
                else book1
              matchLoop incoming max_matches fuel
                { book := book2,
                  remaining := st.remaining - trade_qty,
                  matched := st.matched + 1,
                  fills := st.fills ++
                    [mkBookFill maker.order_id incoming.order_id best_price trade_qty] }
        else some st

/-- Append a fresh node's slab key to the level at a price, creating the level
if absent (`entry(..).or_default()` followed by the link-in and
`total_qty += remaining` of `OrderBook::add_resting`). -/
def bumpLevel (levels : List (Nat × Level)) (price idx remaining : Nat) :
    List (Nat × Level) :=
  match lookupKey levels price with
  | some level =>
    let level2 : Level :=
      { queue := level.queue ++ [idx], total_qty := uadd64 level.total_qty remaining }
    setKey levels price level2
  | none => insertSortedKey levels price ({ queue := [idx], total_qty := uadd64 0 remaining })

/-- `OrderBook::add_resting`: insert the node into the slab (popping the
vacant-slot stack, else appending at `cap`), append its key to its side's
level, bump `total_qty`, and insert into the order index (HashMap insert
replaces any previous entry for the same id). -/
def add_resting (b : OrderBook) (incoming : IncomingOrder) (remaining : Nat) : OrderBook :=
  let node : OrderNode :=
    { order_id := incoming.order_id, subaccount_id := incoming.subaccount_id,
      side := incoming.side, price_ticks := incoming.price_ticks,
      remaining := remaining, ingress_seq := incoming.ingress_seq }
  let step :=
    match b.free with
    | [] => (b.cap, { b with orders := b.orders ++ [(b.cap, node)], cap := b.cap + 1 })
    | k :: rest => (k, { b with orders := insertSortedKey b.orders k node, free := rest })
  let idx := step.1
  let b1 := step.2
  let b2 :=
    match incoming.side with
    | Side.Buy => { b1 with bids := bumpLevel b1.bids incoming.price_ticks idx remaining }
    | Side.Sell => { b1 with asks := bumpLevel b1.asks incoming.price_ticks idx remaining }
  { b2 with order_index := (incoming.order_id, idx) :: eraseKey b2.order_index incoming.order_id }

/-- `OrderBook::detach_from_level`: unlink a node from the level it rests on
(found through the node's own side and price) and subtract its remaining
quantity from `total_qty` with `saturating_sub` (Nat subtraction). -/
def detach_from_level (b : OrderBook) (idx : Nat) (node : OrderNode) : OrderBook :=
  match node.side with
  | Side.Buy =>
    match lookupKey b.bids node.price_ticks with
    | some level =>
      let level2 : Level :=
        { queue := level.queue.erase idx, total_qty := level.total_qty - node.remaining }
      { b with bids := setKey b.bids node.price_ticks level2 }
    | none => b
  | Side.Sell =>
    match lookupKey b.asks node.price_ticks with
    | some level =>
      let level2 : Level :=
        { queue := level.queue.erase idx, total_qty := level.total_qty - node.remaining }
      { b with asks := setKey b.asks node.price_ticks level2 }
    | none => b

/-- `OrderBook::cancel`: look the order up in the index and the slab, detach
it from its level, remove it from the slab (freeing its slot) and the index.
Note that `cancel` never erases an emptied level from its map. -/
def cancel (b : OrderBook) (order_id : Nat) : Bool × OrderBook :=
  match lookupKey b.order_index order_id with
  | none => (false, b)
  | some idx =>
    match lookupKey b.orders idx with
    | none => (false, b)
    | some node =>
      let b1 := detach_from_level b idx node
      (true,
        { b1 with
          orders := eraseKey b1.orders idx,
          free := idx :: b1.free,
          order_index := eraseKey b1.order_index order_id })

/-- `OrderBook::place_order`.  The Fok availability check runs before any
state change; afterwards the matching loop runs, and any unfilled remainder is
discarded (`Ioc`/`Fok`), discarded for a partially filled `PostOnly`, or
rested (`Gtc`).  `fuel` is threaded to the matching loop; `none` models
non-termination of the source loop. -/
def place_order (b : OrderBook) (incoming : IncomingOrder) (max_matches fuel : Nat) :
    Option (List Fill × Option Nat × OrderBook) :=
  if incoming.tif = TimeInForce.Fok ∧ available_qty b incoming < incoming.qty then
    some ([], none, b)
  else
    match matchLoop incoming max_matches fuel ⟨b, incoming.qty, 0, []⟩ with
    | none => none
    | some st =>
      if st.remaining = 0 then some (st.fills, none, st.book)
      else
        match incoming.tif with
        | TimeInForce.Ioc => some (st.fills, none, st.book)
        | TimeInForce.Fok => some (st.fills, none, st.book)
        | TimeInForce.Gtc =>
          if incoming.order_type = OrderType.PostOnly ∧ st.fills ≠ [] then
            some (st.fills, none, st.book)
          else
            some (st.fills, some incoming.order_id, add_resting st.book incoming st.remaining)

/-- `OrderBook::snapshot`: best `depth` levels per side with their stored
`total_qty` (bids from the highest price downwards, asks from the lowest). -/
def book_snapshot (b : OrderBook) (depth : Nat) : List (Nat × Nat) × List (Nat × Nat) :=
  ((b.bids.reverse.take depth).map (fun pl => (pl.1, pl.2.total_qty)),
   (b.asks.take depth).map (fun pl => (pl.1, pl.2.total_qty)))

/-- A flattened view of a resting order (src/src/matching/orderbook.rs,
`OrderView`; also `OrderSnapshot` in src/src/engine/shard.rs). -/
structure OrderView where
  order_id : Nat
  subaccount_id : Nat
  side : Side
  price_ticks : Nat
  remaining : Nat
  ingress_seq : Nat
deriving DecidableEq, Repr

/-- `OrderBook::order_views`: iterate the slab in ascending slot order. -/
def order_views (b : OrderBook) : List OrderView :=
  b.orders.map (fun kn =>
    { order_id := kn.2.order_id, subaccount_id := kn.2.subaccount_id,
      side := kn.2.side, price_ticks := kn.2.price_ticks,
      remaining := kn.2.remaining, ingress_seq := kn.2.ingress_seq })

/-- Result of a batch clearing (src/src/matching/batch.rs, `ClearingResult`). -/
structure ClearingResult where
  price : Nat
  volume : Nat
deriving DecidableEq, Repr

/-- Rust `Vec::dedup`: collapse runs of consecutive equal elements, keeping
the first of each run. -/
def rustDedup : List Nat → List Nat
  | [] => []
  | [a] => [a]
  | a :: b :: rest => if a = b then rustDedup (a :: rest) else a :: rustDedup (b :: rest)
termination_by l => l.length

/-- src/src/matching/batch.rs `demand_supply`: total buy and sell quantity
willing to trade at a price.  A Buy counts when `Market` or `price_ticks >=
price`, a Sell when `Market` or `price_ticks <= price`; accumulation is
release-profile wrapping u64 `+=`. -/
def demand_supply (orders : List IncomingOrder) (price : Nat) : Nat × Nat :=
  orders.foldl
    (fun acc o =>
      match o.side with
      | Side.Buy =>
        if o.order_type = OrderType.Market ∨ price ≤ o.price_ticks then
          (uadd64 acc.1 o.qty, acc.2)
        else acc
      | Side.Sell =>
        if o.order_type = OrderType.Market ∨ o.price_ticks ≤ price then
          (acc.1, uadd64 acc.2 o.qty)
        else acc)
    (0, 0)

/-- Candidate clearing prices: the limit prices of all non-`Market` pending
orders plus the mark price, sorted (`sort_unstable`) and deduplicated
(`dedup` on the sorted vector). -/
def candidatePrices (orders : List IncomingOrder) (mark_price : Nat) : List Nat :=
  rustDedup
    ((((orders.filter (fun o => o.order_type ≠ OrderType.Market)).map
      IncomingOrder.price_ticks) ++ [mark_price]).mergeSort (fun a b => a ≤ b))

/-- State of the clearing-price scan: the running best result together with
the incumbent's `best_imbalance` and `best_distance`. -/
structure SelectSt where
  best : ClearingResult
  best_imbalance : Nat
  best_distance : Nat
deriving DecidableEq, Repr

/-- The candidate scan of `BatchAuction::clear`: for each candidate price
compute volume, imbalance and distance from the mark, and replace the
incumbent exactly when the source's `better` disjunction holds. -/
def selectLoop (orders : List IncomingOrder) (mark_price : Nat) :
    List Nat → SelectSt → SelectSt
  | [], st => st
  | price :: rest, st =>
    let ds := demand_supply orders price
    let volume := min ds.1 ds.2
    let imbalance := max ds.1 ds.2 - volume
    let distance := if mark_price < price then price - mark_price else mark_price - price
    if st.best.volume < volume ∨
        (volume = st.best.volume ∧ imbalance < st.best_imbalance) ∨
        (volume = st.best.volume ∧ imbalance = st.best_imbalance ∧
          distance < st.best_distance) ∨
        (volume = st.best.volume ∧ imbalance = st.best_imbalance ∧
          distance = st.best_distance ∧ price < st.best.price) then
      selectLoop orders mark_price rest ⟨⟨price, volume⟩, imbalance, distance⟩
    else
      selectLoop orders mark_price rest st

/-- The inner allocation loop of `BatchAuction::clear` (`for sell in &mut
sell_orders`): trade the current buyer against the sellers in order, mutating
their `qty` in place and emitting one fill per pair.  `tradable` is an
immutable binding in the source — the loop never decrements it, so each
seller trades up to the full `tradable` again.  Returns the updated seller
list, the remaining `remaining_sells`, and the fills in emission order. -/
def allocSells (buy_order_id price : Nat) :
    List IncomingOrder → Nat → Nat → List IncomingOrder × Nat × List Fill
  | [], _, remaining_sells => ([], remaining_sells, [])
  | sell :: rest, tradable, remaining_sells =>
    if remaining_sells = 0 then (sell :: rest, remaining_sells, [])
    else if tradable = 0 then (sell :: rest, remaining_sells, [])
    else
      let trade_qty := min (min tradable remaining_sells) sell.qty
      if trade_qty = 0 then
        let r := allocSells buy_order_id price rest tradable remaining_sells
        (sell :: r.1, r.2.1, r.2.2)
      else
        let sell2 : IncomingOrder := { sell with qty := sell.qty - trade_qty }
        let r := allocSells buy_order_id price rest tradable
          (remaining_sells - trade_qty)
        (sell2 :: r.1, r.2.1,
          mkBookFill sell.order_id buy_order_id price trade_qty :: r.2.2)

/-- The outer allocation loop of `BatchAuction::clear` (`for buy in &mut
buy_orders`): compute each buyer's `tradable = min(buy.qty, remaining_buys)`,
subtract it from `remaining_buys`, and run the seller loop, threading the
mutated seller list. -/
def allocBuys (price : Nat) :
    List IncomingOrder → List IncomingOrder → Nat → Nat → List Fill
  | [], _, _, _ => []
  | buy :: buys, sells, remaining_buys, remaining_sells =>
    if remaining_buys = 0 then []
    else
      let tradable := min buy.qty remaining_buys
      let r := allocSells buy.order_id price sells tradable remaining_sells
      r.2.2 ++ allocBuys price buys r.1 (remaining_buys - tradable) r.2.1

/-- `BatchAuction::clear`: empty pending short-circuits; otherwise scan the
candidate prices for the best clearing result, allocate `best.volume` across
buyers and sellers ordered by `ingress_seq` (Rust `sort_by` is stable, as is
`List.mergeSort`), and return the `Gtc` non-`Market` pending orders as the
resting set. -/
def BatchAuction.clear (pending : List IncomingOrder) (mark_price : Nat) :
    ClearingResult × List Fill × List IncomingOrder :=
  if pending = [] then ({ price := mark_price, volume := 0 }, [], [])
  else
    let st := selectLoop pending mark_price (candidatePrices pending mark_price)
      ⟨⟨mark_price, 0⟩, U64MAX, U64MAX⟩
    let best := st.best
    let buy_orders := (pending.filter (fun o => o.side = Side.Buy)).mergeSort
      (fun a b => a.ingress_seq ≤ b.ingress_seq)
    let sell_orders := (pending.filter (fun o => o.side = Side.Sell)).mergeSort
      (fun a b => a.ingress_seq ≤ b.ingress_seq)
    let fills := allocBuys best.price buy_orders sell_orders best.volume best.volume
    let resting := pending.filter
      (fun o => o.tif = TimeInForce.Gtc ∧ o.order_type ≠ OrderType.Market)
    (best, fills, resting)

/-- Little-endian u32 read of the four bytes of a WAL length prefix. -/
def leU32 (b0 b1 b2 b3 : Nat) : Nat :=
  b0 + 256 * b1 + 65536 * b2 + 16777216 * b3

/-- Serialize a record length as four little-endian bytes (`u32::to_le_bytes`). -/
def natLE4 (n : Nat) : List Nat :=
  [n % 256, n / 256 % 256, n / 65536 % 256, n / 16777216 % 256]

/-- The read loop of `Wal::load` over the file's byte content, with the
payload deserializer (`bincode::deserialize`) abstracted as `decode`.  A
failed `read_exact` of the 4-byte length prefix — clean EOF or a 1-to-3-byte
tail — BREAKs and returns the accumulated records; a failed `read_exact` of
the payload, or a failed decode, aborts with an error (`none`). -/
def walLoadAux {α : Type} (decode : List Nat → Option α) :
    List Nat → List α → Option (List α)
  | b0 :: b1 :: b2 :: b3 :: rest, acc =>
    let len := leU32 b0 b1 b2 b3
    if rest.length < len then none
    else
      match decode (rest.take len) with
      | none => none
      | some e => walLoadAux decode (rest.drop len) (acc ++ [e])
  | _, acc => some acc
termination_by bytes _ => bytes.length
decreasing_by simp [List.length_drop]; omega

/-- `Wal::load` on a byte content (an existing file read from the start). -/
def Wal.load {α : Type} (decode : List Nat → Option α) (bytes : List Nat) :
    Option (List α) :=
  walLoadAux decode bytes []

/-- One on-disk WAL record: `u32_le length | payload` (`Wal::append`). -/
def walRecord (payload : List Nat) : List Nat :=
  natLE4 payload.length ++ payload

/-- Half of the i64 range; i64 values live in `[-I64HALF, I64HALF)`. -/
def I64HALF : Int := 9223372036854775808

/-- Reinterpret a u64 as i64 (Rust `as i64` on an unsigned value). -/
def i64ofU64 (n : Nat) : Int :=
  if n % U64MOD < 9223372036854775808 then ((n % U64MOD : Nat) : Int)
  else ((n % U64MOD : Nat) : Int) - (U64MOD : Int)

/-- Wrap an integer into the i64 range: release-profile overflow of i64
`+`/`-`/`neg`, and the truncating `as i64` cast from i128/u128. -/
def iwrap64 (x : Int) : Int := (x + I64HALF) % (U64MOD : Int) - I64HALF

/-- i64 absolute value (`i64::abs`; wraps on `i64::MIN` in release). -/
def iabs64 (x : Int) : Int := iwrap64 |x|

/-- i64 saturating multiplication (`i64::saturating_mul`). -/
def satMulI64 (a b : Int) : Int :=
  if a * b < -I64HALF then -I64HALF
  else if I64HALF - 1 < a * b then I64HALF - 1
  else a * b

/-- Map insert with HashMap semantics: replace the entry if the key is
present, otherwise add it.  Iteration order of the source's unordered maps is
modelled as insertion order. -/
def putKey {α : Type} (l : List (Nat × α)) (k : Nat) (v : α) : List (Nat × α) :=
  if (lookupKey l k).isSome then setKey l k v else l ++ [(k, v)]

/-- Matching mode of a market (src/src/config/mod.rs, `MatchingMode`). -/
inductive MatchingMode where
  | Batch
  | Continuous
deriving DecidableEq, Repr

/-- Market configuration (src/src/config/mod.rs, `MarketConfig`). -/
structure MarketConfig where
  market_id : Nat
  tick_size : Nat
  lot_size : Nat
  maker_fee_bps : Int
  taker_fee_bps : Int
  initial_margin_bps : Nat
  maintenance_margin_bps : Nat
  max_position : Int
  price_band_bps : Nat
  max_open_orders_per_subaccount : Nat
  matching_mode : MatchingMode
  batch_interval_ms : Nat
deriving DecidableEq, Repr

/-- Per-market position of a subaccount (src/src/risk/mod.rs, `Position`). -/
structure Position where
  size : Int
  entry_price : Nat
  funding_index : Int
deriving DecidableEq, Repr

/-- A subaccount (src/src/risk/mod.rs, `Subaccount`). -/
structure Subaccount where
  collateral : Int
  positions : List (Nat × Position)
  cross_margin : Bool
deriving DecidableEq, Repr

/-- The risk state (src/src/risk/mod.rs, `RiskState`). -/
structure RiskState where
  subaccounts : List (Nat × Subaccount)
  mark_prices : List (Nat × Nat)
  funding_indices : List (Nat × Int)
deriving DecidableEq, Repr

/-- Risk configuration (src/src/risk/mod.rs, `RiskConfig`); carried but not
read by any of the embedded operations. -/
structure RiskConfig where
  max_slippage_bps : Nat
  max_leverage : Nat
deriving DecidableEq, Repr

/-- Risk validation failures (src/src/risk/mod.rs, `RiskError`). -/
inductive RiskError where
  | PriceBand
  | InsufficientMargin
  | ReduceOnly
  | MaxPosition
deriving DecidableEq, Repr

/-- The risk engine (src/src/risk/mod.rs, `RiskEngine`). -/
structure RiskEngine where
  state : RiskState
  config : RiskConfig
deriving DecidableEq, Repr

/-- `RiskEngine::update_mark`. -/
def RiskEngine.update_mark (r : RiskEngine) (market_id mark : Nat) : RiskEngine :=
  { r with state := { r.state with mark_prices := putKey r.state.mark_prices market_id mark } }

/-- `RiskEngine::update_funding`. -/
def RiskEngine.update_funding (r : RiskEngine) (market_id : Nat) (index : Int) : RiskEngine :=
  let st2 := { r.state with funding_indices := putKey r.state.funding_indices market_id index }
  { r with state := st2 }

/-- `RiskEngine::equity`: collateral plus the marked PnL of every position.
The PnL product is computed in i128 (exact here: |size| < 2^63 and the price
difference has magnitude < 2^64, so the product cannot overflow i128), then
truncated `as i64` and accumulated with wrapping i64 `+=`. -/
def RiskEngine.equity (r : RiskEngine) (subaccount_id : Nat) : Int :=
  match lookupKey r.state.subaccounts subaccount_id with
  | none => 0
  | some account =>
    account.positions.foldl
      (fun acc kp =>
        let mark := (lookupKey r.state.mark_prices kp.1).getD kp.2.entry_price
        let pnl := kp.2.size * ((mark : Int) - (kp.2.entry_price : Int))
        iwrap64 (acc + iwrap64 pnl))
      account.collateral

/-- `RiskEngine::validate_order`: price band (skipped for `Market`), then
reduce-only, then max position, then initial margin against equity. -/
def RiskEngine.validate_order (r : RiskEngine) (market : MarketConfig)
    (subaccount_id : Nat) (side : Side) (order_type : OrderType)
    (price_ticks qty : Nat) (reduce_only : Bool) : Except RiskError Unit := do
  let mark := (lookupKey r.state.mark_prices market.market_id).getD price_ticks
  let band := market.price_band_bps
  if order_type ≠ OrderType.Market then
    let lower := mark - mark * band % U64MOD / 10000
    let upper := uadd64 mark (mark * band % U64MOD / 10000)
    if price_ticks < lower ∨ upper < price_ticks then
      throw RiskError.PriceBand
  let position : Int :=
    match lookupKey r.state.subaccounts subaccount_id with
    | none => 0
    | some acc =>
      match lookupKey acc.positions market.market_id with
      | none => 0
      | some pos => pos.size
  let delta : Int :=
    match side with
    | Side.Buy => i64ofU64 qty
    | Side.Sell => iwrap64 (-(i64ofU64 qty))
  let projected := iwrap64 (position + delta)
  if reduce_only ∧ iabs64 position < iabs64 projected then
    throw RiskError.ReduceOnly
  if market.max_position < iabs64 projected then
    throw RiskError.MaxPosition
  let equity := r.equity subaccount_id
  let notional := satMul64 price_ticks qty
  let im_required := iwrap64 ((notional * market.initial_margin_bps / 10000 : Nat) : Int)
  if equity < im_required then
    throw RiskError.InsufficientMargin
  return ()

/-- `RiskEngine::apply_fill`: create the subaccount and position on demand
(`ensure_subaccount`, `or_insert`), overwrite `entry_price` with the fill
price, adjust `size` by the signed quantity and subtract the fee from
collateral (wrapping i64 arithmetic). -/
def RiskEngine.apply_fill (r : RiskEngine) (market : MarketConfig)
    (subaccount_id : Nat) (side : Side) (price_ticks qty : Nat) (fee : Int) :
    RiskEngine :=
  let account := (lookupKey r.state.subaccounts subaccount_id).getD
    { collateral := 0, positions := [], cross_margin := false }
  let pos := (lookupKey account.positions market.market_id).getD
    { size := 0, entry_price := price_ticks, funding_index := 0 }
  let delta : Int :=
    match side with
    | Side.Buy => i64ofU64 qty
    | Side.Sell => iwrap64 (-(i64ofU64 qty))
  let new_size := iwrap64 (pos.size + delta)
  let pos2 : Position :=
    if new_size = 0 then { pos with size := 0, entry_price := price_ticks }
    else { pos with entry_price := price_ticks, size := new_size }
  let account2 : Subaccount :=
    { account with
      positions := putKey account.positions market.market_id pos2,
      collateral := iwrap64 (account.collateral - fee) }
  let st2 := { r.state with subaccounts := putKey r.state.subaccounts subaccount_id account2 }
  { r with state := st2 }

/-- A new-order event (src/src/models/mod.rs, `NewOrder`). -/
structure NewOrder where
  request_id : String
  market_id : Nat
  subaccount_id : Nat
  side : Side
  order_type : OrderType
  tif : TimeInForce
  price_ticks : Nat
  qty : Nat
  reduce_only : Bool
  expiry_ts : Nat
  nonce : Nat
  client_ts : Nat
deriving DecidableEq, Repr

/-- A cancel event (src/src/models/mod.rs, `CancelOrder`). -/
structure CancelOrder where
  request_id : String
  market_id : Nat
  subaccount_id : Nat
  order_id : Option Nat
  nonce_start : Option Nat
  nonce_end : Option Nat
deriving DecidableEq, Repr

/-- A mark/index price update (src/src/models/mod.rs, `PriceUpdate`). -/
structure PriceUpdate where
  market_id : Nat
  mark_price : Nat
  index_price : Nat
  ts : Nat
deriving DecidableEq, Repr

/-- A funding index update (src/src/models/mod.rs, `FundingUpdate`). -/
structure FundingUpdate where
  market_id : Nat
  funding_index : Int
  ts : Nat
deriving DecidableEq, Repr

/-- Order acknowledgement status (src/src/models/mod.rs, `OrderStatus`). -/
inductive OrderStatus where
  | Accepted
  | Rejected
deriving DecidableEq, Repr

/-- An order acknowledgement (src/src/models/mod.rs, `OrderAck`). -/
structure OrderAck where
  request_id : String
  status : OrderStatus
  reject_reason : Option String
  assigned_order_id : Option Nat
  engine_seq : Nat
  ts : Nat
deriving DecidableEq, Repr

/-- One level of a book delta (src/src/models/mod.rs, `BookLevel`). -/
structure BookLevel where
  price_ticks : Nat
  qty : Nat
deriving DecidableEq, Repr

/-- A top-of-book delta (src/src/models/mod.rs, `BookDelta`). -/
structure BookDelta where
  market_id : Nat
  bids_levels : List BookLevel
  asks_levels : List BookLevel
  engine_seq : Nat
  ts : Nat
deriving DecidableEq, Repr

/-- A settlement batch (src/src/models/mod.rs, `SettlementBatch`). -/
structure SettlementBatch where
  batch_id : String
  ts : Nat
  fills : List Fill
  price_refs : String
  funding_refs : String
  state_root : List Nat
deriving DecidableEq, Repr

/-- The tagged event union (src/src/models/mod.rs, `Event`). -/
inductive Event where
  | NewOrder (o : NewOrder)
  | CancelOrder (c : CancelOrder)
  | PriceUpdate (u : PriceUpdate)
  | FundingUpdate (u : FundingUpdate)
  | OrderAck (a : OrderAck)
  | Fill (f : Fill)
  | BookDelta (d : BookDelta)
  | SettlementBatch (s : SettlementBatch)
deriving DecidableEq, Repr

/-- A WAL/bus envelope (src/src/models/mod.rs, `EventEnvelope`). -/
structure EventEnvelope where
  shard_id : Nat
  engine_seq : Nat
  event : Event
  ts : Nat
deriving DecidableEq, Repr

/-- Per-market shard state (src/src/engine/shard.rs, `MarketState`).  `batch`
is the `BatchAuction` accumulation buffer; `pending` is the source's unused
`VecDeque` field. -/
structure MarketState where
  config : MarketConfig
  book : OrderBook
  batch : List IncomingOrder
  pending : List IncomingOrder
  open_orders_by_subaccount : List (Nat × Nat)
deriving DecidableEq, Repr

/-- `MarketState::open_orders_for_subaccount`. -/
def MarketState.open_orders_for_subaccount (m : MarketState) (subaccount_id : Nat) : Nat :=
  (lookupKey m.open_orders_by_subaccount subaccount_id).getD 0

/-- `MarketState::track_open_order_add`. -/
def MarketState.track_open_order_add (m : MarketState) (subaccount_id : Nat) : MarketState :=
  let count := (lookupKey m.open_orders_by_subaccount subaccount_id).getD 0
  { m with open_orders_by_subaccount := putKey m.open_orders_by_subaccount subaccount_id (count + 1) }

/-- `MarketState::track_open_order_remove`: saturating decrement, dropping
the entry when it reaches zero; absent entries are left alone. -/
def MarketState.track_open_order_remove (m : MarketState) (subaccount_id : Nat) : MarketState :=
  match lookupKey m.open_orders_by_subaccount subaccount_id with
  | none => m
  | some count =>
    if count - 1 = 0 then
      { m with open_orders_by_subaccount := eraseKey m.open_orders_by_subaccount subaccount_id }
    else
      { m with open_orders_by_subaccount :=
          putKey m.open_orders_by_subaccount subaccount_id (count - 1) }

/-- A flattened resting-order record of the snapshot (src/src/engine/shard.rs,
`OrderSnapshot`); identical in content to `OrderView`. -/
structure EngineState where
  shard_id : Nat
  engine_seq : Nat
  next_order_id : Nat
  orderbooks : List (Nat × List OrderView)
  risk_state : RiskState
deriving DecidableEq, Repr

/-- The engine shard (src/src/engine/shard.rs, `EngineShard`).  `wal` is the
list of envelopes appended so far; `dedupe` is the LRU key list, most recent
first, capacity 10000. -/
structure EngineShard where
  shard_id : Nat
  engine_seq : Nat
  next_order_id : Nat
  markets : List (Nat × MarketState)
  risk : RiskEngine
  wal : List EventEnvelope
  dedupe : List String
  order_owners : List (Nat × (Nat × Side))
deriving DecidableEq, Repr

/-- `EngineShard::new`: seed each market's mark price with its tick size,
create empty per-market state, start sequences at 0 and 1. -/
def EngineShard.new (shard_id : Nat) (markets : List MarketConfig)
    (risk : RiskEngine) : EngineShard :=
  { shard_id := shard_id,
    engine_seq := 0,
    next_order_id := 1,
    markets := markets.foldl
      (fun acc m => putKey acc m.market_id
        { config := m, book := OrderBook.empty, batch := [], pending := [],
          open_orders_by_subaccount := [] }) [],
    risk := markets.foldl (fun r m => r.update_mark m.market_id m.tick_size) risk,
    wal := [],
    dedupe := [],
    order_owners := [] }

/-- `EngineShard::snapshot`. -/
def EngineShard.snapshot (s : EngineShard) : EngineState :=
  { shard_id := s.shard_id,
    engine_seq := s.engine_seq,
    next_order_id := s.next_order_id,
    orderbooks := s.markets.map (fun m => (m.1, order_views m.2.book)),
    risk_state := s.risk.state }

/-- One re-inserted order of `EngineShard::restore`: each flattened order goes
through `place_order(incoming, 0)` — with `max_matches = 0` the matching loop
breaks before its first iteration (one unit of fuel suffices; the `getD`
default is unreachable), so each order with positive `remaining` is rested
verbatim. -/
def restoreStep (acc : MarketState × List (Nat × (Nat × Side))) (order : OrderView) :
    MarketState × List (Nat × (Nat × Side)) :=
  let incoming : IncomingOrder :=
    { order_id := order.order_id, subaccount_id := order.subaccount_id,
      side := order.side, order_type := OrderType.Limit,
      tif := TimeInForce.Gtc, price_ticks := order.price_ticks,
      qty := order.remaining, reduce_only := false,
      ingress_seq := order.ingress_seq }
  let res := (place_order acc.1.book incoming 0 1).getD ([], none, acc.1.book)
  (MarketState.track_open_order_add { acc.1 with book := res.2.2 }
    order.subaccount_id,
   putKey acc.2 order.order_id (order.subaccount_id, order.side))

/-- One market of the restore loop: re-insert that market's snapshot orders. -/
def restoreMarket (sh : EngineShard) (mo : Nat × List OrderView) : EngineShard :=
  match lookupKey sh.markets mo.1 with
  | none => sh
  | some ms =>
    let stepped := mo.2.foldl restoreStep (ms, sh.order_owners)
    { sh with markets := setKey sh.markets mo.1 stepped.1, order_owners := stepped.2 }

/-- `EngineShard::restore`: rebuild a fresh shard, overwrite the sequences and
risk state from the snapshot, and re-insert every snapshot order book. -/
def EngineShard.restore (state : EngineState) (markets : List MarketConfig)
    (risk : RiskEngine) : EngineShard :=
  let shard0 := EngineShard.new state.shard_id markets risk
  let shard1 := { shard0 with
    engine_seq := state.engine_seq,
    next_order_id := state.next_order_id,
    risk := { shard0.risk with state := state.risk_state } }
  state.orderbooks.foldl restoreMarket shard1

/-- src/src/engine/shard.rs `fee_for`: saturating u64 notional reinterpreted
`as i64`, saturating i64 multiply by the bps, then truncating division. -/
def fee_for (qty price_ticks : Nat) (fee_bps : Int) : Int :=
  Int.tdiv (satMulI64 (i64ofU64 (satMul64 qty price_ticks)) fee_bps) 10000

/-- `EngineShard::reject`: one Rejected `OrderAck` envelope at the current
engine sequence. -/
def EngineShard.reject (s : EngineShard) (request_id reason : String) (ts : Nat) :
    EventEnvelope :=
  { shard_id := s.shard_id, engine_seq := s.engine_seq,
    event := Event.OrderAck
      { request_id := request_id, status := OrderStatus.Rejected,
        reject_reason := some reason, assigned_order_id := none,
        engine_seq := s.engine_seq, ts := ts },
    ts := ts }

/-- `EngineShard::validate_order`: post-only cross check, open-order cap for
orders that could rest (`Gtc` and not `Market`), then risk validation, with
the error mapped to its reason string. -/
def EngineShard.validate_order (s : EngineShard) (order : NewOrder)
    (market : MarketState) : Option String :=
  if order.order_type = OrderType.PostOnly ∧
      would_cross market.book order.side order.price_ticks then
    some "post-only would cross"
  else if (order.tif = TimeInForce.Gtc ∧ order.order_type ≠ OrderType.Market) ∧
      (0 < market.config.max_open_orders_per_subaccount ∧
        market.config.max_open_orders_per_subaccount ≤
          market.open_orders_for_subaccount order.subaccount_id) then
    some "max open orders per subaccount"
  else
    match s.risk.validate_order market.config order.subaccount_id order.side
      order.order_type order.price_ticks order.qty order.reduce_only with
    | Except.error RiskError.PriceBand => some "price band"
    | Except.error RiskError.InsufficientMargin => some "insufficient margin"
    | Except.error RiskError.ReduceOnly => some "reduce-only"
    | Except.error RiskError.MaxPosition => some "max position"
    | Except.ok _ => none

/-- `EngineShard::book_delta_from_snapshot`. -/
def EngineShard.book_delta_from_snapshot (s : EngineShard) (market_id : Nat)
    (snap : List (Nat × Nat) × List (Nat × Nat)) (ts : Nat) : EventEnvelope :=
  { shard_id := s.shard_id, engine_seq := s.engine_seq,
    event := Event.BookDelta
      { market_id := market_id,
        bids_levels := snap.1.map (fun pq => { price_ticks := pq.1, qty := pq.2 }),
        asks_levels := snap.2.map (fun pq => { price_ticks := pq.1, qty := pq.2 }),
        engine_seq := s.engine_seq, ts := ts },
    ts := ts }

/-- One iteration of the `emit_fills` loop of src/src/engine/shard.rs: stamp
the fill with market, sequence, timestamp and fees, apply it to the risk
engine for the maker's and the taker's owners, and build its envelope. -/
def emitFillsStep (market : MarketConfig) (ts : Nat) (s0 : EngineShard)
    (fill : Fill) : EngineShard × EventEnvelope :=
  let maker_fee := fee_for fill.qty fill.price_ticks market.maker_fee_bps
  let taker_fee := fee_for fill.qty fill.price_ticks market.taker_fee_bps
  let fill2 : Fill :=
    { fill with
      market_id := market.market_id, engine_seq := s0.engine_seq, ts := ts,
      maker_fee := maker_fee, taker_fee := taker_fee }
  let s1 :=
    match lookupKey s0.order_owners fill.maker_order_id with
    | some owner =>
      let r2 := s0.risk.apply_fill market owner.1 owner.2 fill.price_ticks fill.qty maker_fee
      { s0 with risk := r2 }
    | none => s0
  let s2 :=
    match lookupKey s1.order_owners fill.taker_order_id with
    | some owner =>
      let r2 := s1.risk.apply_fill market owner.1 owner.2 fill.price_ticks fill.qty taker_fee
      { s1 with risk := r2 }
    | none => s1
  (s2, { shard_id := s2.shard_id, engine_seq := s2.engine_seq,
         event := Event.Fill fill2, ts := ts })

/-- `EngineShard::emit_fills`: the `for fill in fills` loop, pushing one
envelope per fill while threading the risk updates through the shard. -/
def EngineShard.emit_fills (s : EngineShard) (fills : List Fill)
    (market : MarketConfig) (ts : Nat) : EngineShard × List EventEnvelope :=
  match fills with
  | [] => (s, [])
  | fill :: rest =>
    let step := emitFillsStep market ts s fill
    let r := EngineShard.emit_fills step.1 rest market ts
    (r.1, step.2 :: r.2)

/-- The `if let Some(market) = ...` open-order tracking step of
`on_new_order` after a taker rests: bump the subaccount's open-order count. -/
def trackRestingAdd (market_id sub : Nat) (s : EngineShard) : EngineShard :=
  match lookupKey s.markets market_id with
  | some market =>
    { s with markets := setKey s.markets market_id (market.track_open_order_add sub) }
  | none => s

/-- One iteration of the closed-maker cleanup loop of `on_new_order`: drop the
owner record of a fully consumed maker and decrement its open-order count. -/
def removeClosedMaker (market_id : Nat) (st : EngineShard) (maker_order_id : Nat) :
    EngineShard :=
  match lookupKey st.order_owners maker_order_id with
  | some owner =>
    let st2 := { st with order_owners := eraseKey st.order_owners maker_order_id }
    match lookupKey st2.markets market_id with
    | some market =>
      let m2 := setKey st2.markets market_id (market.track_open_order_remove owner.1)
      { st2 with markets := m2 }
    | none => st2
  | none => st

/-- `EngineShard::on_new_order`, translated clause for clause: dedupe check
and insert, market lookup, validation, id assignment and Accepted ack, then
continuous matching (fills, open-order tracking, book delta) or batch
buffering.  `none` propagates non-termination of the matching loop. -/
def EngineShard.on_new_order (s : EngineShard) (order : NewOrder) (ts fuel : Nat) :
    Option (EngineShard × List EventEnvelope) :=
  if s.dedupe.contains order.request_id then some (s, [])
  else
    let s := { s with dedupe := (order.request_id :: s.dedupe).take 10000 }
    match lookupKey s.markets order.market_id with
    | none => some (s, [s.reject order.request_id "unknown market" ts])
    | some market_state =>
      match s.validate_order order market_state with
      | some reason => some (s, [s.reject order.request_id reason ts])
      | none =>
        let order_id := s.next_order_id
        let owners2 := putKey s.order_owners order_id (order.subaccount_id, order.side)
        let s := { s with next_order_id := s.next_order_id + 1, order_owners := owners2 }
        let incoming : IncomingOrder :=
          { order_id := order_id, subaccount_id := order.subaccount_id,
            side := order.side, order_type := order.order_type, tif := order.tif,
            price_ticks := order.price_ticks, qty := order.qty,
            reduce_only := order.reduce_only, ingress_seq := s.engine_seq }
        let ack : EventEnvelope :=
          { shard_id := s.shard_id, engine_seq := s.engine_seq,
            event := Event.OrderAck
              { request_id := order.request_id, status := OrderStatus.Accepted,
                reject_reason := none, assigned_order_id := some order_id,
                engine_seq := s.engine_seq, ts := ts },
            ts := ts }
        match market_state.config.matching_mode with
        | MatchingMode.Continuous =>
          match place_order market_state.book incoming 1024 fuel with
          | none => none
          | some (fills, resting_id, book2) =>
            let snap := book_snapshot book2 10
            let closed_maker_ids :=
              (fills.filter (fun f => ¬ has_order book2 f.maker_order_id)).map
                Fill.maker_order_id
            let marketsA := setKey s.markets order.market_id ({ market_state with book := book2 })
            let sA := { s with markets := marketsA }
            let eb := sA.emit_fills fills market_state.config ts
            let sC :=
              if resting_id.isSome then
                trackRestingAdd order.market_id order.subaccount_id eb.1
              else { eb.1 with order_owners := eraseKey eb.1.order_owners order_id }
            let sD := closed_maker_ids.foldl (removeClosedMaker order.market_id) sC
            some (sD, [ack] ++ eb.2 ++ [sD.book_delta_from_snapshot order.market_id snap ts])
        | MatchingMode.Batch =>
          let m2 : MarketState := { market_state with batch := market_state.batch ++ [incoming] }
          some ({ s with markets := setKey s.markets order.market_id m2 }, [ack])

/-- `EngineShard::on_cancel`: by-id cancel against the market's book; on
success drop the owner record, decrement the open-order counter and emit one
book delta; otherwise no output. -/
def EngineShard.on_cancel (s : EngineShard) (c : CancelOrder) (ts : Nat) :
    EngineShard × List EventEnvelope :=
  match c.order_id with
  | none => (s, [])
  | some order_id =>
    match lookupKey s.markets c.market_id with
    | none => (s, [])
    | some market =>
      let res := cancel market.book order_id
      if res.1 then
        let market2 := { market with book := res.2 }
        let step :=
          match lookupKey s.order_owners order_id with
          | some owner =>
            (market2.track_open_order_remove owner.1, eraseKey s.order_owners order_id)
          | none => (market2, s.order_owners)
        let markets2 := setKey s.markets c.market_id step.1
        let s2 := { s with markets := markets2, order_owners := step.2 }
        (s2, [s2.book_delta_from_snapshot c.market_id (book_snapshot res.2 10) ts])
      else (s, [])

/-- `EngineShard::handle_event`: bump `engine_seq`, append the input envelope
to the WAL, dispatch on the event variant, then append every output envelope
to the WAL and return the outputs. -/
def EngineShard.handle_event (s : EngineShard) (event : Event) (ts fuel : Nat) :
    Option (EngineShard × List EventEnvelope) :=
  let s := { s with engine_seq := s.engine_seq + 1 }
  let input : EventEnvelope :=
    { shard_id := s.shard_id, engine_seq := s.engine_seq, event := event, ts := ts }
  let s := { s with wal := s.wal ++ [input] }
  let step :=
    match event with
    | Event.NewOrder o => s.on_new_order o ts fuel
    | Event.CancelOrder c => some (s.on_cancel c ts)
    | Event.PriceUpdate u =>
      some ({ s with risk := s.risk.update_mark u.market_id u.mark_price }, [])
    | Event.FundingUpdate u =>
      some ({ s with risk := s.risk.update_funding u.market_id u.funding_index }, [])
    | _ => some (s, [])
  match step with
  | none => none
  | some (s2, outputs) => some ({ s2 with wal := s2.wal ++ outputs }, outputs)

/-- A mutating operation of the order-book API used by the shard. -/
inductive BookOp where
  | place (incoming : IncomingOrder) (max_matches : Nat)
  | cancelOp (order_id : Nat)
deriving DecidableEq, Repr

/-- Apply one operation; `none` propagates non-termination of `place_order`. -/
def applyOp (fuel : Nat) (b : OrderBook) : BookOp → Option OrderBook
  | BookOp.place incoming max_matches =>
    match place_order b incoming max_matches fuel with
    | some r => some r.2.2
    | none => none
  | BookOp.cancelOp order_id => some (cancel b order_id).2

/-- Run a sequence of book operations. -/
def runOps (fuel : Nat) : List BookOp → OrderBook → Option OrderBook
  | [], b => some b
  | op :: ops, b =>
    match applyOp fuel b op with
    | some b2 => runOps fuel ops b2
    | none => none

/-- Total quantity placed by a sequence of operations (used to bound u64
overflow of the level aggregates). -/
def opsBudget : List BookOp → Nat
  | [] => 0
  | BookOp.place incoming _ :: ops => incoming.qty + opsBudget ops
  | BookOp.cancelOp _ :: ops => opsBudget ops

/-- The nodes of a level's linked list, in chain order. -/
def levelNodes (b : OrderBook) (l : Level) : List OrderNode :=
  l.queue.filterMap (lookupKey b.orders)

/-- Sum of `remaining` over the nodes a queue's keys resolve to. -/
def sumQueue (orders : List (Nat × OrderNode)) (q : List Nat) : Nat :=
  ((q.filterMap (lookupKey orders)).map OrderNode.remaining).sum

/-- The invariant of claim C1: every level present in `bids` or `asks` stores
in `total_qty` the sum of `remaining` over its node list. -/
def BookInv (b : OrderBook) : Prop :=
  (∀ pl ∈ b.bids, pl.2.total_qty = sumQueue b.orders pl.2.queue) ∧
  (∀ pl ∈ b.asks, pl.2.total_qty = sumQueue b.orders pl.2.queue)

instance (b : OrderBook) : Decidable (BookInv b) := by
  unfold BookInv; infer_instance

/-- The level map entry of a side at a price. -/
def lookupLevel (b : OrderBook) (side : Side) (price : Nat) : Option Level :=
  match side with
  | Side.Buy => lookupKey b.bids price
  | Side.Sell => lookupKey b.asks price

/-- Well-formedness of a book, as maintained by the mutating operations from
the empty book: map keys and queues are duplicate-free, every queue key
resolves to a live node whose side and price match its level, every live node
sits in the queue of its own level, resting quantities are positive, the slab
bookkeeping is consistent, and every level satisfies the C1 aggregate
invariant. -/
structure WF (b : OrderBook) : Prop where
  bidsKeysNodup : (b.bids.map Prod.fst).Nodup
  asksKeysNodup : (b.asks.map Prod.fst).Nodup
  arenaKeysNodup : (b.orders.map Prod.fst).Nodup
  queueNodupBids : ∀ pl ∈ b.bids, pl.2.queue.Nodup
  queueNodupAsks : ∀ pl ∈ b.asks, pl.2.queue.Nodup
  agreeBids : ∀ pl ∈ b.bids, ∀ k ∈ pl.2.queue,
    ∃ n, lookupKey b.orders k = some n ∧ n.side = Side.Buy ∧ n.price_ticks = pl.1
  agreeAsks : ∀ pl ∈ b.asks, ∀ k ∈ pl.2.queue,
    ∃ n, lookupKey b.orders k = some n ∧ n.side = Side.Sell ∧ n.price_ticks = pl.1
  nodeInLevel : ∀ kn ∈ b.orders,
    ∃ l, lookupLevel b kn.2.side kn.2.price_ticks = some l ∧ kn.1 ∈ l.queue
  nodePos : ∀ kn ∈ b.orders, 0 < kn.2.remaining
  arenaLtCap : ∀ kn ∈ b.orders, kn.1 < b.cap
  freeLtCap : ∀ k ∈ b.free, k < b.cap
  freeNotInArena : ∀ k ∈ b.free, lookupKey b.orders k = none
  freeNodup : b.free.Nodup
  levelsBids : ∀ pl ∈ b.bids, pl.2.total_qty = sumQueue b.orders pl.2.queue
  levelsAsks : ∀ pl ∈ b.asks, pl.2.total_qty = sumQueue b.orders pl.2.queue

/-- Total resting quantity held in the arena. -/
def arenaSum (b : OrderBook) : Nat := (b.orders.map (fun kn => kn.2.remaining)).sum

/-- The (volume, imbalance, distance, price) key by which `BatchAuction::clear`
ranks a candidate price. -/
def clearingKey (orders : List IncomingOrder) (mark_price price : Nat) :
    Nat × Nat × Nat × Nat :=
  let ds := demand_supply orders price
  (min ds.1 ds.2, max ds.1 ds.2 - min ds.1 ds.2,
   if mark_price < price then price - mark_price else mark_price - price, price)

/-- Strictly better in the normative clearing order: larger volume, else equal
volume and smaller imbalance, else smaller distance to the mark, else lower
price. -/
def keyBetter (a b : Nat × Nat × Nat × Nat) : Prop :=
  b.1 < a.1 ∨
    (a.1 = b.1 ∧ (a.2.1 < b.2.1 ∨
      (a.2.1 = b.2.1 ∧ (a.2.2.1 < b.2.2.1 ∨
        (a.2.2.1 = b.2.2.1 ∧ a.2.2.2 < b.2.2.2)))))

/-- Concatenated on-disk bytes of a list of record payloads. -/
def walBytes (payloads : List (List Nat)) : List Nat :=
  (payloads.map walRecord).flatten

/-- A risk engine with empty state (test fixture). -/
def riskFixture : RiskEngine := ⟨⟨[], [], []⟩, ⟨50, 10⟩⟩

/-- A continuous-mode market configuration (test fixture). -/
def marketFixture : MarketConfig :=
  { market_id := 1, tick_size := 100, lot_size := 1, maker_fee_bps := 1,
    taker_fee_bps := 2, initial_margin_bps := 0, maintenance_margin_bps := 0,
    max_position := 1000, price_band_bps := 10000,
    max_open_orders_per_subaccount := 0, matching_mode := MatchingMode.Continuous,
    batch_interval_ms := 1000 }

/-- A plain Gtc limit buy order event (test fixture). -/
def newOrderFixture : NewOrder :=
  { request_id := "r1", market_id := 1, subaccount_id := 1, side := Side.Buy,
    order_type := OrderType.Limit, tif := TimeInForce.Gtc, price_ticks := 100,
    qty := 5, reduce_only := false, expiry_ts := 0, nonce := 0, client_ts := 0 }

/-- An incoming book order (test fixture). -/
def incomingFixture (id : Nat) (s : Side) (ot : OrderType) (tif : TimeInForce)
    (price qty seq : Nat) : IncomingOrder :=
  { order_id := id, subaccount_id := 1, side := s, order_type := ot, tif := tif,
    price_ticks := price, qty := qty, reduce_only := false, ingress_seq := seq }

/-- Operation sequence refuting claim C1 at u64 scale: two bids of 2^63 at one
price make the level's `total_qty` wrap to zero; cancelling the first then
saturates `total_qty` at zero while a node with remaining 2^63 stays queued. -/
def c1CexOps : List BookOp :=
  [BookOp.place (incomingFixture 1 Side.Buy OrderType.Limit TimeInForce.Gtc 100
    9223372036854775808 1) 10,
   BookOp.place (incomingFixture 2 Side.Buy OrderType.Limit TimeInForce.Gtc 100
    9223372036854775808 2) 10,
   BookOp.cancelOp 1]

/-- The book reached by `c1CexOps`: the bid level at 100 stores `total_qty = 0`
while its queue holds the node of order 2 with `remaining = 2^63`. -/
def c1CexBook : OrderBook :=
  { bids := [(100, { queue := [1], total_qty := 0 })],
    asks := [],
    orders := [(1, ⟨2, 1, Side.Buy, 100, 9223372036854775808, 2⟩)],
    free := [0],
    cap := 2,
    order_index := [(2, 1)] }


/-- The comparison key a `SelectSt` incumbent carries. -/
def stKey (st : SelectSt) : Nat × Nat × Nat × Nat :=
  (st.best.volume, st.best_imbalance, st.best_distance, st.best.price)

/-- The incumbent state adopted when a candidate price wins the scan. -/
def stOf (orders : List IncomingOrder) (mark_price price : Nat) : SelectSt :=
  ⟨⟨price, (clearingKey orders mark_price price).1⟩,
   (clearingKey orders mark_price price).2.1,
   (clearingKey orders mark_price price).2.2.1⟩

instance (a b : Nat × Nat × Nat × Nat) : Decidable (keyBetter a b) := by
  unfold keyBetter; infer_instance

/-- The batch pending set of the spec's uniform-price scenario (fixture). -/
def c5Pending : List IncomingOrder :=
  [incomingFixture 1 Side.Buy OrderType.Limit TimeInForce.Gtc 101 5 1,
   incomingFixture 2 Side.Buy OrderType.Limit TimeInForce.Gtc 100 5 2,
   incomingFixture 3 Side.Sell OrderType.Limit TimeInForce.Gtc 99 4 3,
   incomingFixture 4 Side.Sell OrderType.Limit TimeInForce.Gtc 101 6 4]

/-- Batch fixture refuting C4's per-buyer bound: buys of qty 5 and 5 against
sells of qty 3 and 7, all limit orders at price 100. -/
def c4CexPending : List IncomingOrder :=
  [incomingFixture 1 Side.Buy OrderType.Limit TimeInForce.Gtc 100 5 1,
   incomingFixture 2 Side.Buy OrderType.Limit TimeInForce.Gtc 100 5 2,
   incomingFixture 3 Side.Sell OrderType.Limit TimeInForce.Gtc 100 3 3,
   incomingFixture 4 Side.Sell OrderType.Limit TimeInForce.Gtc 100 7 4]


/-- Sum of the `qty` fields of a list of incoming orders. -/
def order_qty_sum (l : List IncomingOrder) : Nat := (l.map IncomingOrder.qty).sum

/-- Sum of the `qty` fields of a list of fills. -/
def fills_qty_sum (l : List Fill) : Nat := (l.map Fill.qty).sum

/-- Sum of the fill quantities in which order `id` appears as taker. -/
def taker_qty_sum (id : Nat) (l : List Fill) : Nat :=
  ((l.filter (fun f => f.taker_order_id = id)).map Fill.qty).sum


/-- The Rejected ack envelope produced by the C2/C10 scenarios (fixture). -/
def c2RejectAck : EventEnvelope :=
  ⟨0, 1, Event.OrderAck ⟨"r1", OrderStatus.Rejected, some "unknown market", none, 1, 0⟩, 0⟩

/-- The shard state after the C2 witness event (fixture). -/
def c2Shard2 : EngineShard :=
  { shard_id := 0, engine_seq := 1, next_order_id := 1, markets := [],
    risk := riskFixture,
    wal := [⟨0, 1, Event.NewOrder newOrderFixture, 0⟩, c2RejectAck],
    dedupe := ["r1"], order_owners := [] }

/-- A fresh shard whose dedupe cache already holds the fixture request id. -/
def c10Shard : EngineShard := { EngineShard.new 0 [] riskFixture with dedupe := ["r1"] }


/-- A book with a single resting bid of quantity 5 (fixture). -/
def c7Book : OrderBook :=
  { bids := [(100, ⟨[0], 5⟩)], asks := [], orders := [(0, ⟨1, 1, Side.Buy, 100, 5, 1⟩)],
    free := [], cap := 1, order_index := [(1, 0)] }

/-- A one-market shard state holding that book (fixture). -/
def c7Market : MarketState :=
  { config := marketFixture, book := c7Book, batch := [], pending := [],
    open_orders_by_subaccount := [(1, 1)] }

def c7Shard : EngineShard :=
  { shard_id := 0, engine_seq := 3, next_order_id := 7, markets := [(1, c7Market)],
    risk := riskFixture, wal := [], dedupe := [], order_owners := [(1, (1, Side.Buy))] }

def c1WitnessOps : List BookOp :=
  [BookOp.place (incomingFixture 1 Side.Buy OrderType.Limit TimeInForce.Gtc 100 5 1) 10,
   BookOp.cancelOp 1]

def c1WitnessBook : OrderBook := ⟨[(100, ⟨[], 0⟩)], [], [], [0], 1, []⟩

/-! Association-list and arithmetic lemma kit. -/

theorem lookupKey_setKey_self {α : Type} (l : List (Nat × α)) (k : Nat) (v : α) :
    lookupKey (setKey l k v) k = if (lookupKey l k).isSome then some v else none := by
  induction l with
  | nil => simp [setKey, lookupKey]
  | cons hd tl ih =>
    obtain ⟨k', v'⟩ := hd
    by_cases h : k' = k
    · subst h; simp [setKey, lookupKey]
    · simp [setKey, lookupKey, h, ih]

theorem lookupKey_setKey_ne {α : Type} (l : List (Nat × α)) (k j : Nat) (v : α)
    (h : j ≠ k) : lookupKey (setKey l k v) j = lookupKey l j := by
  induction l with
  | nil => rfl
  | cons hd tl ih =>
    obtain ⟨k', v'⟩ := hd
    by_cases hk : k' = k
    · subst hk
      have hkj : ¬ k' = j := fun hh => h hh.symm
      simp [setKey, lookupKey, hkj]
    · by_cases hj : k' = j
      · subst hj
        simp [setKey, lookupKey, hk]
      · simp [setKey, lookupKey, hk, hj, ih]

theorem map_fst_setKey {α : Type} (l : List (Nat × α)) (k : Nat) (v : α) :
    (setKey l k v).map Prod.fst = l.map Prod.fst := by
  induction l with
  | nil => simp [setKey]
  | cons hd tl ih =>
    obtain ⟨k', v'⟩ := hd
    by_cases h : k' = k <;> simp [setKey, h, ih]

theorem lookupKey_eraseKey_ne {α : Type} (l : List (Nat × α)) (k j : Nat)
    (h : j ≠ k) : lookupKey (eraseKey l k) j = lookupKey l j := by
  induction l with
  | nil => rfl
  | cons hd tl ih =>
    obtain ⟨k', v'⟩ := hd
    by_cases hk : k' = k
    · subst hk
      have hkj : ¬ k' = j := fun hh => h hh.symm
      simp [eraseKey, lookupKey, hkj]
    · by_cases hj : k' = j
      · subst hj
        simp [eraseKey, lookupKey, hk]
      · simp [eraseKey, lookupKey, hk, hj, ih]

theorem map_fst_eraseKey {α : Type} (l : List (Nat × α)) (k : Nat) :
    (eraseKey l k).map Prod.fst = (l.map Prod.fst).erase k := by
  induction l with
  | nil => simp [eraseKey]
  | cons hd tl ih =>
    obtain ⟨k', v'⟩ := hd
    by_cases h : k' = k
    · subst h; simp [eraseKey, List.erase_cons]
    · simp [eraseKey, List.erase_cons, h, ih]

theorem lookupKey_isSome_iff {α : Type} (l : List (Nat × α)) (k : Nat) :
    (lookupKey l k).isSome ↔ k ∈ l.map Prod.fst := by
  induction l with
  | nil => simp [lookupKey]
  | cons hd tl ih =>
    obtain ⟨k', v'⟩ := hd
    by_cases hk : k' = k
    · subst hk; simp [lookupKey]
    · have hkk : ¬ k = k' := fun hh => hk hh.symm
      simp [lookupKey, hk, ih, hkk]

theorem lookupKey_eraseKey_self {α : Type} (l : List (Nat × α)) (k : Nat)
    (hnd : (l.map Prod.fst).Nodup) : lookupKey (eraseKey l k) k = none := by
  cases h : lookupKey (eraseKey l k) k with
  | none => rfl
  | some v =>
    have h1 : k ∈ (eraseKey l k).map Prod.fst :=
      (lookupKey_isSome_iff _ k).mp (by simp [h])
    rw [map_fst_eraseKey] at h1
    have := (List.Nodup.mem_erase_iff hnd).mp h1
    exact absurd rfl this.1

theorem mem_of_lookupKey_eq_some {α : Type} {l : List (Nat × α)} {k : Nat} {v : α}
    (h : lookupKey l k = some v) : (k, v) ∈ l := by
  induction l with
  | nil => simp [lookupKey] at h
  | cons hd tl ih =>
    obtain ⟨k', v'⟩ := hd
    by_cases hk : k' = k
    · subst hk
      simp [lookupKey] at h
      subst h
      exact List.mem_cons_self _ _
    · simp only [lookupKey, hk, if_false] at h
      exact List.mem_cons_of_mem _ (ih h)

theorem lookupKey_of_mem_nodup {α : Type} {l : List (Nat × α)} {k : Nat} {v : α}
    (hnd : (l.map Prod.fst).Nodup) (hm : (k, v) ∈ l) : lookupKey l k = some v := by
  induction l with
  | nil => simp at hm
  | cons hd tl ih =>
    obtain ⟨k', v'⟩ := hd
    simp only [List.map_cons, List.nodup_cons] at hnd
    rcases List.mem_cons.mp hm with h | h
    · have h1 : k = k' := congrArg Prod.fst h
      have h2 : v = v' := congrArg Prod.snd h
      subst h1; subst h2
      simp [lookupKey]
    · have hne : k' ≠ k := by
        intro hh; subst hh
        exact hnd.1 (List.mem_map.mpr ⟨(k', v), h, rfl⟩)
      simp [lookupKey, hne, ih hnd.2 h]

theorem lookupKey_append_left {α : Type} {l1 : List (Nat × α)} (l2 : List (Nat × α))
    {k : Nat} (h : (lookupKey l1 k).isSome) :
    lookupKey (l1 ++ l2) k = lookupKey l1 k := by
  induction l1 with
  | nil => simp [lookupKey] at h
  | cons hd tl ih =>
    obtain ⟨k', v'⟩ := hd
    by_cases hk : k' = k
    · subst hk; simp [lookupKey]
    · simp only [lookupKey, hk, if_false] at h
      simp only [List.cons_append, lookupKey, hk, if_false]
      exact ih h

theorem lookupKey_append_right {α : Type} {l1 : List (Nat × α)} (l2 : List (Nat × α))
    {k : Nat} (h : lookupKey l1 k = none) :
    lookupKey (l1 ++ l2) k = lookupKey l2 k := by
  induction l1 with
  | nil => simp
  | cons hd tl ih =>
    obtain ⟨k', v'⟩ := hd
    by_cases hk : k' = k
    · subst hk; simp [lookupKey] at h
    · simp only [lookupKey, hk, if_false] at h
      simp only [List.cons_append, lookupKey, hk, if_false]
      exact ih h

theorem mem_setKey_elim {α : Type} {l : List (Nat × α)} {k : Nat} {v : α} {pl : Nat × α}
    (h : pl ∈ setKey l k v) : pl = (k, v) ∨ pl ∈ l := by
  induction l with
  | nil => simp [setKey] at h
  | cons hd tl ih =>
    obtain ⟨k', v'⟩ := hd
    by_cases hk : k' = k
    · subst hk
      simp [setKey] at h
      rcases h with h | h
      · exact Or.inl h
      · exact Or.inr (List.mem_cons_of_mem _ h)
    · simp only [setKey, hk, if_false, List.mem_cons] at h
      rcases h with h | h
      · exact Or.inr (List.mem_cons.mpr (Or.inl h))
      · rcases ih h with h2 | h2
        · exact Or.inl h2
        · exact Or.inr (List.mem_cons_of_mem _ h2)

theorem mem_of_mem_eraseKey {α : Type} {l : List (Nat × α)} {k : Nat} {pl : Nat × α}
    (h : pl ∈ eraseKey l k) : pl ∈ l := by
  induction l with
  | nil => simp [eraseKey] at h
  | cons hd tl ih =>
    obtain ⟨k', v'⟩ := hd
    by_cases hk : k' = k
    · subst hk
      simp only [eraseKey, if_pos rfl] at h
      exact List.mem_cons_of_mem _ h
    · simp only [eraseKey, hk, if_false, List.mem_cons] at h
      rcases h with h | h
      · exact List.mem_cons.mpr (Or.inl h)
      · exact List.mem_cons_of_mem _ (ih h)

theorem mem_insertSortedKey_elim {α : Type} {l : List (Nat × α)} {k : Nat} {v : α}
    {pl : Nat × α} (h : pl ∈ insertSortedKey l k v) : pl = (k, v) ∨ pl ∈ l := by
  induction l with
  | nil => simp [insertSortedKey] at h; exact Or.inl h
  | cons hd tl ih =>
    obtain ⟨k', v'⟩ := hd
    simp only [insertSortedKey] at h
    by_cases h1 : k < k'
    · simp only [if_pos h1, List.mem_cons] at h
      rcases h with h | h | h
      · exact Or.inl h
      · exact Or.inr (List.mem_cons.mpr (Or.inl h))
      · exact Or.inr (List.mem_cons_of_mem _ h)
    · by_cases h2 : k = k'
      · simp only [if_neg h1, if_pos h2, List.mem_cons] at h
        rcases h with h | h
        · exact Or.inl h
        · exact Or.inr (List.mem_cons_of_mem _ h)
      · simp only [if_neg h1, if_neg h2, List.mem_cons] at h
        rcases h with h | h
        · exact Or.inr (List.mem_cons.mpr (Or.inl h))
        · rcases ih h with h3 | h3
          · exact Or.inl h3
          · exact Or.inr (List.mem_cons_of_mem _ h3)

theorem lookupKey_insertSortedKey_self {α : Type} (l : List (Nat × α)) (k : Nat) (v : α) :
    lookupKey (insertSortedKey l k v) k = some v := by
  induction l with
  | nil => simp [insertSortedKey, lookupKey]
  | cons hd tl ih =>
    obtain ⟨k', v'⟩ := hd
    simp only [insertSortedKey]
    by_cases h1 : k < k'
    · simp [if_pos h1, lookupKey]
    · by_cases h2 : k = k'
      · subst h2; simp [lookupKey]
      · have : ¬ k' = k := fun hh => h2 hh.symm
        simp [if_neg h1, if_neg h2, lookupKey, this, ih]

theorem lookupKey_insertSortedKey_ne {α : Type} (l : List (Nat × α)) (k j : Nat) (v : α)
    (h : j ≠ k) : lookupKey (insertSortedKey l k v) j = lookupKey l j := by
  have hkj : ¬ k = j := fun hh => h hh.symm
  induction l with
  | nil => simp [insertSortedKey, lookupKey, hkj]
  | cons hd tl ih =>
    obtain ⟨k', v'⟩ := hd
    simp only [insertSortedKey]
    by_cases h1 : k < k'
    · simp [if_pos h1, lookupKey, hkj]
    · by_cases h2 : k = k'
      · subst h2
        simp [if_neg h1, lookupKey, hkj]
      · by_cases h3 : k' = j
        · subst h3
          simp [if_neg h1, if_neg h2, lookupKey]
        · simp [if_neg h1, if_neg h2, lookupKey, h3, ih]

theorem map_fst_insertSortedKey_perm {α : Type} (l : List (Nat × α)) (k : Nat) (v : α)
    (h : k ∉ l.map Prod.fst) :
    ((insertSortedKey l k v).map Prod.fst).Perm (k :: l.map Prod.fst) := by
  induction l with
  | nil => simp [insertSortedKey]
  | cons hd tl ih =>
    obtain ⟨k', v'⟩ := hd
    simp only [List.map_cons, List.mem_cons, not_or] at h
    simp only [insertSortedKey]
    by_cases h1 : k < k'
    · simp [if_pos h1]
    · by_cases h2 : k = k'
      · exact absurd h2 h.1
      · simp only [if_neg h1, if_neg h2, List.map_cons]
        refine List.Perm.trans (List.Perm.cons k' (ih h.2)) ?_
        exact List.Perm.swap k k' _

theorem uadd64_of_lt {a b : Nat} (h : a + b < U64MOD) : uadd64 a b = a + b := by
  simp [uadd64, Nat.mod_eq_of_lt h]

theorem usub64_of_le {a b : Nat} (hba : b ≤ a) (ha : a < U64MOD) :
    usub64 a b = a - b := by
  have hb : b < U64MOD := lt_of_le_of_lt hba ha
  simp only [usub64, Nat.mod_eq_of_lt hb]
  have h1 : a + (U64MOD - b) = (a - b) + U64MOD := by omega
  rw [h1, Nat.add_mod_right, Nat.mod_eq_of_lt (by omega)]

/-! Sum-over-queue lemmas. -/

theorem sumQueue_nil (orders : List (Nat × OrderNode)) : sumQueue orders [] = 0 := by
  simp [sumQueue]

theorem sumQueue_cons_some {orders : List (Nat × OrderNode)} {k : Nat} {n : OrderNode}
    (h : lookupKey orders k = some n) (q : List Nat) :
    sumQueue orders (k :: q) = n.remaining + sumQueue orders q := by
  simp [sumQueue, List.filterMap_cons, h]

theorem sumQueue_cons_none {orders : List (Nat × OrderNode)} {k : Nat}
    (h : lookupKey orders k = none) (q : List Nat) :
    sumQueue orders (k :: q) = sumQueue orders q := by
  simp [sumQueue, List.filterMap_cons, h]

theorem sumQueue_congr {o1 o2 : List (Nat × OrderNode)} {q : List Nat}
    (h : ∀ k ∈ q, lookupKey o2 k = lookupKey o1 k) :
    sumQueue o2 q = sumQueue o1 q := by
  induction q with
  | nil => simp [sumQueue]
  | cons k rest ih =>
    have hk := h k (List.mem_cons_self k rest)
    have hrest := ih (fun j hj => h j (List.mem_cons_of_mem _ hj))
    cases hl : lookupKey o1 k with
    | some n =>
      rw [sumQueue_cons_some (hl ▸ hk) _, sumQueue_cons_some hl _, hrest]
    | none =>
      rw [sumQueue_cons_none (hl ▸ hk) _, sumQueue_cons_none hl _, hrest]

theorem sumQueue_append (orders : List (Nat × OrderNode)) (q1 q2 : List Nat) :
    sumQueue orders (q1 ++ q2) = sumQueue orders q1 + sumQueue orders q2 := by
  simp [sumQueue, List.filterMap_append]

theorem le_sumQueue_of_mem {orders : List (Nat × OrderNode)} {q : List Nat} {k : Nat}
    {n : OrderNode} (hm : k ∈ q) (hl : lookupKey orders k = some n) :
    n.remaining ≤ sumQueue orders q := by
  induction q with
  | nil => simp at hm
  | cons j rest ih =>
    rcases List.mem_cons.mp hm with h | h
    · subst h
      rw [sumQueue_cons_some hl _]
      omega
    · cases hj : lookupKey orders j with
      | some m =>
        rw [sumQueue_cons_some hj _]
        have := ih h
        omega
      | none =>
        rw [sumQueue_cons_none hj _]
        exact ih h

theorem sumQueue_erase {orders : List (Nat × OrderNode)} {q : List Nat} {k : Nat}
    {n : OrderNode} (hnd : q.Nodup) (hm : k ∈ q) (hl : lookupKey orders k = some n) :
    sumQueue orders (q.erase k) + n.remaining = sumQueue orders q := by
  induction q with
  | nil => simp at hm
  | cons j rest ih =>
    simp only [List.nodup_cons] at hnd
    rcases List.mem_cons.mp hm with h | h
    · subst h
      rw [List.erase_cons_head, sumQueue_cons_some hl _]
      omega
    · have hjk : j ≠ k := fun hh => hnd.1 (hh ▸ h)
      rw [List.erase_cons_tail (by simp [hjk])]
      cases hj : lookupKey orders j with
      | some m =>
        rw [sumQueue_cons_some hj _, sumQueue_cons_some hj _]
        have := ih hnd.2 h
        omega
      | none =>
        rw [sumQueue_cons_none hj _, sumQueue_cons_none hj _]
        exact ih hnd.2 h

theorem eraseKey_perm_of_lookup {o : List (Nat × OrderNode)} {k : Nat} {n : OrderNode}
    (hnd : (o.map Prod.fst).Nodup) (hl : lookupKey o k = some n) :
    o.Perm ((k, n) :: eraseKey o k) := by
  induction o with
  | nil => simp [lookupKey] at hl
  | cons hd tl ih =>
    obtain ⟨k', v'⟩ := hd
    simp only [List.map_cons, List.nodup_cons] at hnd
    by_cases h : k' = k
    · subst h
      simp [lookupKey] at hl
      subst hl
      simp [eraseKey]
    · simp only [lookupKey, h, if_false] at hl
      simp only [eraseKey, h, if_false]
      exact List.Perm.trans (List.Perm.cons _ (ih hnd.2 hl)) (List.Perm.swap _ _ _)

theorem sumQueue_le_arena {o : List (Nat × OrderNode)} {q : List Nat}
    (hondup : (o.map Prod.fst).Nodup) (hq : q.Nodup)
    (hlive : ∀ k ∈ q, (lookupKey o k).isSome) :
    sumQueue o q ≤ (o.map (fun kn => kn.2.remaining)).sum := by
  induction q generalizing o with
  | nil => simp [sumQueue]
  | cons k rest ih =>
    simp only [List.nodup_cons] at hq
    obtain ⟨n, hn⟩ := Option.isSome_iff_exists.mp (hlive k (List.mem_cons_self k rest))
    rw [sumQueue_cons_some hn _]
    have hperm := eraseKey_perm_of_lookup hondup hn
    have hsum : (o.map (fun kn => kn.2.remaining)).sum =
        n.remaining + ((eraseKey o k).map (fun kn => kn.2.remaining)).sum := by
      have hp2 := List.Perm.map (fun kn : Nat × OrderNode => kn.2.remaining) hperm
      rw [List.Perm.sum_eq hp2]
      simp
    rw [hsum]
    have hnd2 : ((eraseKey o k).map Prod.fst).Nodup := by
      rw [map_fst_eraseKey]
      exact List.Nodup.erase k hondup
    have hrest : ∀ j ∈ rest, (lookupKey (eraseKey o k) j).isSome := by
      intro j hj
      rw [lookupKey_eraseKey_ne o k j (fun hh => hq.1 (hh ▸ hj))]
      exact hlive j (List.mem_cons_of_mem _ hj)
    have hle := ih hnd2 hq.2 hrest
    have hcongr : sumQueue (eraseKey o k) rest = sumQueue o rest := by
      apply sumQueue_congr
      intro j hj
      exact lookupKey_eraseKey_ne o k j (fun hh => hq.1 (hh ▸ hj))
    omega

/-! Claims C3, C6, C1 (counterexample), C2 (counterexample). -/

/-- Claim C3: for every book state and every incoming order with `tif = Fok`,
if the sum of resting quantity on the crossing levels of the opposite side
(`available_qty`) is less than the order's quantity, `place_order` returns an
empty fill list and no resting id, and the entire book state is unchanged. -/
theorem c3_fok_insufficient_no_state_change (b : OrderBook) (incoming : IncomingOrder)
    (max_matches fuel : Nat) (htif : incoming.tif = TimeInForce.Fok)
    (hqty : available_qty b incoming < incoming.qty) :
    place_order b incoming max_matches fuel = some ([], none, b) := by
  unfold place_order
  rw [if_pos ⟨htif, hqty⟩]

/-- Witness for C3: a Fok buy for 5 against a book resting only 2. -/
theorem c3_witness :
    place_order ⟨[], [(100, ⟨[0], 2⟩)], [(0, ⟨1, 1, Side.Sell, 100, 2, 1⟩)], [], 1, [(1, 0)]⟩
      (incomingFixture 2 Side.Buy OrderType.Limit TimeInForce.Fok 100 5 2) 1024 9 =
      some ([], none,
        ⟨[], [(100, ⟨[0], 2⟩)], [(0, ⟨1, 1, Side.Sell, 100, 2, 1⟩)], [], 1, [(1, 0)]⟩) :=
  c3_fok_insufficient_no_state_change _ _ 1024 9 rfl (by decide)

/-- Claim C6 (evaluation of the code at the failing input): a `Market` taker
with `tif = Gtc` against an empty book is NOT discarded — `place_order`
returns a resting id and the order rests as a bid at its `price_ticks`,
because the `Gtc` arm of the post-match dispatch rests any non-`PostOnly`
remainder regardless of order type. -/
theorem c6_market_gtc_rests_on_empty_book :
    place_order OrderBook.empty
      (incomingFixture 7 Side.Buy OrderType.Market TimeInForce.Gtc 50 5 1) 1024 8 =
      some ([], some 7,
        ⟨[(50, ⟨[0], 5⟩)], [], [(0, ⟨7, 1, Side.Buy, 50, 5, 1⟩)], [], 1, [(7, 0)]⟩) := by
  decide

/-- Claim C1 (counterexample): after placing two bids of 2^63 at price 100 and
cancelling the first, the level stores `total_qty = 0` but the sum of
remaining over its node list is 2^63 — the invariant fails under u64
wrap-around. -/
theorem c1_counterexample :
    runOps 5 c1CexOps OrderBook.empty = some c1CexBook ∧ ¬ BookInv c1CexBook := by
  constructor
  · rfl
  · decide

/-- Claim C2 (counterexample): one `NewOrder` event on a shard with no markets
appends two WAL envelopes (the input and the Rejected ack) carrying the SAME
`engine_seq`, so WAL `engine_seq` values are not unique within the shard. -/
theorem c2_counterexample :
    ((EngineShard.new 0 [] riskFixture).handle_event
        (Event.NewOrder newOrderFixture) 0 5).map
      (fun r => r.1.wal.map EventEnvelope.engine_seq) = some [1, 1] ∧
    ¬ ([1, 1] : List Nat).Nodup := by
  exact ⟨rfl, by decide⟩

/-! Claim C8: WAL load on truncated files. -/

theorem leU32_natLE4 (n : Nat) (h : n < 4294967296) :
    leU32 (n % 256) (n / 256 % 256) (n / 65536 % 256) (n / 16777216 % 256) = n := by
  simp [leU32]; omega

theorem walLoadAux_short {α : Type} (decode : List Nat → Option α) (bytes : List Nat)
    (acc : List α) (h : bytes.length < 4) : walLoadAux decode bytes acc = some acc := by
  match bytes with
  | [] => simp [walLoadAux]
  | [a] => simp [walLoadAux]
  | [a, b] => simp [walLoadAux]
  | [a, b, c] => simp [walLoadAux]
  | a :: b :: c :: d :: rest => simp at h; omega

theorem walLoadAux_step {α : Type} (decode : List Nat → Option α) (p : List Nat)
    (tailbytes : List Nat) (acc : List α) (e : α)
    (hlen : p.length < 4294967296) (hdec : decode p = some e) :
    walLoadAux decode (walRecord p ++ tailbytes) acc =
      walLoadAux decode tailbytes (acc ++ [e]) := by
  have hle := leU32_natLE4 p.length hlen
  have hsplit : walRecord p ++ tailbytes =
      p.length % 256 :: p.length / 256 % 256 :: p.length / 65536 % 256 ::
        p.length / 16777216 % 256 :: (p ++ tailbytes) := by
    simp [walRecord, natLE4]
  rw [hsplit, walLoadAux, hle]
  rw [if_neg (by simp)]
  rw [List.take_left, List.drop_left, hdec]

theorem walLoadAux_stream {α : Type} (decode : List Nat → Option α)
    (payloads : List (List Nat)) (suffix : List Nat) (acc : List α)
    (hwf : ∀ p ∈ payloads, (decode p).isSome ∧ p.length < 4294967296) :
    walLoadAux decode (walBytes payloads ++ suffix) acc =
      walLoadAux decode suffix (acc ++ payloads.filterMap decode) := by
  induction payloads generalizing acc with
  | nil => simp [walBytes]
  | cons p ps ih =>
    obtain ⟨hsome, hlen⟩ := hwf p (List.mem_cons_self _ _)
    obtain ⟨e, he⟩ := Option.isSome_iff_exists.mp hsome
    have hsplit : walBytes (p :: ps) ++ suffix = walRecord p ++ (walBytes ps ++ suffix) := by
      simp [walBytes]
    rw [hsplit, walLoadAux_step decode p _ acc e hlen he,
        ih (acc ++ [e]) (fun q hq => hwf q (List.mem_cons_of_mem _ hq))]
    simp [List.filterMap_cons, he]

/-- Claim C8 (counterexample): a file holding one well-formed record followed
by a single stray byte — a truncated 4-byte length prefix — makes `Wal::load`
return the successfully parsed prefix `Ok([record])`, not an error: the failed
`read_exact` of the length prefix is treated as EOF. -/
theorem c8_counterexample :
    Wal.load (fun l : List Nat => some l) (walRecord [42] ++ [7]) = some [[42]] := by
  rw [Wal.load, walLoadAux_step (fun l : List Nat => some l) [42] [7] [] [42]
    (by simp) rfl, walLoadAux_short _ _ _ (by simp)]
  simp

/-- Claim C8 (amended): `Wal::load` aborts with an error exactly when the
truncated tail cuts a record's PAYLOAD (a complete 4-byte length prefix whose
announced length exceeds the remaining bytes); a tail of 1 to 3 bytes — a
partial length prefix — is treated as end-of-file and the records before it
are returned. -/
theorem c8_amended {α : Type} (decode : List Nat → Option α)
    (payloads : List (List Nat)) (tl : List Nat)
    (hwf : ∀ p ∈ payloads, (decode p).isSome ∧ p.length < 4294967296) :
    (0 < tl.length → tl.length < 4 →
      Wal.load decode (walBytes payloads ++ tl) = some (payloads.filterMap decode)) ∧
    (∀ t0 t1 t2 t3 rest, tl = t0 :: t1 :: t2 :: t3 :: rest →
      rest.length < leU32 t0 t1 t2 t3 →
      Wal.load decode (walBytes payloads ++ tl) = none) := by
  constructor
  · intro _ h4
    rw [Wal.load, walLoadAux_stream decode payloads tl [] hwf,
        walLoadAux_short decode tl _ h4]
    simp
  · intro t0 t1 t2 t3 rest htl hshort
    rw [Wal.load, walLoadAux_stream decode payloads tl [] hwf, htl, walLoadAux]
    rw [if_pos hshort]

/-- Witness for the amended C8: one record then a 3-byte partial prefix is
returned as the parsed prefix, and one record then a length prefix announcing
5 bytes with only 1 present aborts with an error. -/
theorem c8_amended_witness :
    Wal.load (fun l : List Nat => some l) (walBytes [[42]] ++ [7, 7, 7]) = some [[42]] ∧
    Wal.load (fun l : List Nat => some l) (walBytes [[42]] ++ [5, 0, 0, 0, 9]) = none := by
  constructor
  · exact (c8_amended (fun l : List Nat => some l) [[42]] [7, 7, 7]
      (by intro p hp; simp at hp; simp [hp])).1 (by simp) (by simp)
  · exact (c8_amended (fun l : List Nat => some l) [[42]] [5, 0, 0, 0, 9]
      (by intro p hp; simp at hp; simp [hp])).2 5 0 0 0 [9] rfl (by simp [leU32])

/-! Claim C5: clearing-price selection. -/


theorem stKey_stOf (orders : List IncomingOrder) (mark_price price : Nat) :
    stKey (stOf orders mark_price price) = clearingKey orders mark_price price := by
  simp [stKey, stOf, clearingKey]

theorem keyBetter_irrefl (a : Nat × Nat × Nat × Nat) : ¬ keyBetter a a := by
  unfold keyBetter; omega

theorem keyBetter_notnot_trans {a b c : Nat × Nat × Nat × Nat}
    (h1 : ¬ keyBetter a b) (h2 : ¬ keyBetter b c) : ¬ keyBetter a c := by
  unfold keyBetter at *; omega

theorem keyBetter_total {a b : Nat × Nat × Nat × Nat} (h : ¬ keyBetter a b) :
    keyBetter b a ∨ (a.1 = b.1 ∧ a.2.1 = b.2.1 ∧ a.2.2.1 = b.2.2.1 ∧ a.2.2.2 = b.2.2.2) := by
  unfold keyBetter at *; omega

theorem selectLoop_cons (orders : List IncomingOrder) (mark p : Nat) (rest : List Nat)
    (st : SelectSt) :
    selectLoop orders mark (p :: rest) st =
      if keyBetter (clearingKey orders mark p) (stKey st)
      then selectLoop orders mark rest (stOf orders mark p)
      else selectLoop orders mark rest st := by
  simp only [selectLoop]
  apply if_congr
  · simp [keyBetter, clearingKey, stKey]
    tauto
  · simp [stOf, clearingKey]
  · rfl

theorem foldl_preserve {α β : Type} (P : β → Prop) (f : β → α → β)
    (hf : ∀ b a, P b → P (f b a)) : ∀ (l : List α) (b : β), P b → P (List.foldl f b l) := by
  intro l
  induction l with
  | nil => intro b h; exact h
  | cons x xs ih => intro b h; exact ih _ (hf b x h)

theorem uadd64_lt (a b : Nat) : uadd64 a b < U64MOD :=
  Nat.mod_lt _ (by norm_num [U64MOD])

theorem demand_supply_lt (orders : List IncomingOrder) (price : Nat) :
    (demand_supply orders price).1 < U64MOD ∧ (demand_supply orders price).2 < U64MOD := by
  unfold demand_supply
  apply foldl_preserve (fun acc : Nat × Nat => acc.1 < U64MOD ∧ acc.2 < U64MOD)
  · intro b a hP
    cases h : a.side
    · simp only [h]
      split
      · exact ⟨uadd64_lt _ _, hP.2⟩
      · exact hP
    · simp only [h]
      split
      · exact ⟨hP.1, uadd64_lt _ _⟩
      · exact hP
  · exact ⟨by norm_num [U64MOD], by norm_num [U64MOD]⟩

theorem keyBetter_mark_sentinel (orders : List IncomingOrder) (mark : Nat) :
    keyBetter (clearingKey orders mark mark) (stKey ⟨⟨mark, 0⟩, U64MAX, U64MAX⟩) := by
  obtain ⟨h1, h2⟩ := demand_supply_lt orders mark
  have hmm : U64MAX + 1 = U64MOD := by norm_num [U64MAX, U64MOD]
  have hpos : 0 < U64MAX := by norm_num [U64MAX]
  simp only [keyBetter, clearingKey, stKey]
  simp only [lt_irrefl, if_false]
  simp only [Nat.min_def, Nat.max_def]
  split <;> omega

theorem selectLoop_spec (orders : List IncomingOrder) (mark : Nat) (l : List Nat)
    (st : SelectSt) :
    ((selectLoop orders mark l st = st) ∨
      (∃ p ∈ l, selectLoop orders mark l st = stOf orders mark p)) ∧
    (∀ p ∈ l, ¬ keyBetter (clearingKey orders mark p) (stKey (selectLoop orders mark l st))) ∧
    ¬ keyBetter (stKey st) (stKey (selectLoop orders mark l st)) := by
  induction l generalizing st with
  | nil =>
    exact ⟨Or.inl rfl, by simp, by simp only [selectLoop]; exact keyBetter_irrefl _⟩
  | cons p rest ih =>
    rw [selectLoop_cons]
    by_cases hb : keyBetter (clearingKey orders mark p) (stKey st)
    · rw [if_pos hb]
      obtain ⟨horigin, hopt, hself⟩ := ih (stOf orders mark p)
      rw [stKey_stOf] at hself
      refine ⟨?_, ?_, ?_⟩
      · rcases horigin with h | ⟨q, hq, h⟩
        · exact Or.inr ⟨p, List.mem_cons_self _ _, h⟩
        · exact Or.inr ⟨q, List.mem_cons_of_mem _ hq, h⟩
      · intro q hq
        rcases List.mem_cons.mp hq with h | h
        · subst h; exact hself
        · exact hopt q h
      · intro hc
        exact hself (by unfold keyBetter at hb hc ⊢; omega)
    · rw [if_neg hb]
      obtain ⟨horigin, hopt, hself⟩ := ih st
      refine ⟨?_, ?_, hself⟩
      · rcases horigin with h | ⟨q, hq, h⟩
        · exact Or.inl h
        · exact Or.inr ⟨q, List.mem_cons_of_mem _ hq, h⟩
      · intro q hq
        rcases List.mem_cons.mp hq with h | h
        · subst h
          exact keyBetter_notnot_trans hb hself
        · exact hopt q h

theorem mem_rustDedup (l : List Nat) (x : Nat) : x ∈ rustDedup l ↔ x ∈ l := by
  induction l using rustDedup.induct with
  | case1 => simp [rustDedup]
  | case2 a => simp [rustDedup]
  | case3 b rest ih =>
    have h : rustDedup (b :: b :: rest) = rustDedup (b :: rest) := by
      rw [rustDedup]
      simp
    rw [h, ih]
    simp
  | case4 a b rest hne ih =>
    have h : rustDedup (a :: b :: rest) = a :: rustDedup (b :: rest) := by
      rw [rustDedup]
      simp [hne]
    rw [h]
    simp [List.mem_cons, ih]

theorem mark_mem_candidatePrices (orders : List IncomingOrder) (mark : Nat) :
    mark ∈ candidatePrices orders mark := by
  unfold candidatePrices
  rw [mem_rustDedup, List.mem_mergeSort]
  simp

theorem clearingKey_price (orders : List IncomingOrder) (mark_price price : Nat) :
    (clearingKey orders mark_price price).2.2.2 = price := rfl

/-- Claim C5: for a non-empty pending set the clearing result of
`BatchAuction::clear` is the candidate price (a limit price of a non-Market
pending order or the mark price) that is lexicographically optimal — maximal
volume, then minimal imbalance, then minimal distance to the mark, then lowest
price — carrying that candidate's volume `min(buy(p), sell(p))`; and for an
empty pending set `clear` returns `(ClearingResult{mark_price, 0}, [], [])`. -/
theorem c5_clearing_price_selection (pending : List IncomingOrder) (mark_price : Nat) :
    (pending = [] →
      BatchAuction.clear pending mark_price = ({ price := mark_price, volume := 0 }, [], [])) ∧
    (pending ≠ [] →
      (BatchAuction.clear pending mark_price).1.price ∈ candidatePrices pending mark_price ∧
      (BatchAuction.clear pending mark_price).1.volume =
        (clearingKey pending mark_price (BatchAuction.clear pending mark_price).1.price).1 ∧
      ∀ q ∈ candidatePrices pending mark_price,
        q ≠ (BatchAuction.clear pending mark_price).1.price →
        keyBetter (clearingKey pending mark_price (BatchAuction.clear pending mark_price).1.price)
          (clearingKey pending mark_price q)) := by
  constructor
  · intro h; subst h; rfl
  · intro hne
    have hclear : (BatchAuction.clear pending mark_price).1 =
        (selectLoop pending mark_price (candidatePrices pending mark_price)
          ⟨⟨mark_price, 0⟩, U64MAX, U64MAX⟩).best := by
      unfold BatchAuction.clear
      rw [if_neg hne]
    obtain ⟨horigin, hopt, _⟩ := selectLoop_spec pending mark_price
      (candidatePrices pending mark_price) ⟨⟨mark_price, 0⟩, U64MAX, U64MAX⟩
    rcases horigin with hsent | ⟨p0, hp0, hof⟩
    · exfalso
      have hm := keyBetter_mark_sentinel pending mark_price
      have hcontra := hopt mark_price (mark_mem_candidatePrices pending mark_price)
      rw [hsent] at hcontra
      exact hcontra hm
    · have hprice : (BatchAuction.clear pending mark_price).1.price = p0 := by
        rw [hclear, hof]
        simp [stOf]
      have hkey : stKey (selectLoop pending mark_price (candidatePrices pending mark_price)
          ⟨⟨mark_price, 0⟩, U64MAX, U64MAX⟩) = clearingKey pending mark_price p0 := by
        rw [hof, stKey_stOf]
      refine ⟨?_, ?_, ?_⟩
      · rw [hprice]; exact hp0
      · rw [hprice, hclear, hof]
        rfl
      · intro q hq hqne
        rw [hprice] at hqne ⊢
        have hnb := hopt q hq
        rw [hkey] at hnb
        rcases keyBetter_total hnb with h | h
        · exact h
        · exfalso
          apply hqne
          have := h.2.2.2
          rw [clearingKey_price, clearingKey_price] at this
          exact this

/-- Witness for C5 on the spec's batch scenario (four pending orders, mark
100), discharging both implications. -/
theorem c5_witness :
    BatchAuction.clear [] 100 = ({ price := 100, volume := 0 }, [], []) ∧
    (BatchAuction.clear c5Pending 100).1.price ∈ candidatePrices c5Pending 100 ∧
    (BatchAuction.clear c5Pending 100).1.volume =
      (clearingKey c5Pending 100 (BatchAuction.clear c5Pending 100).1.price).1 := by
  refine ⟨(c5_clearing_price_selection [] 100).1 rfl, ?_, ?_⟩
  · exact ((c5_clearing_price_selection c5Pending 100).2 (by decide)).1
  · exact ((c5_clearing_price_selection c5Pending 100).2 (by decide)).2.1

theorem order_qty_sum_nil : order_qty_sum [] = 0 := rfl

theorem order_qty_sum_cons (o : IncomingOrder) (l : List IncomingOrder) :
    order_qty_sum (o :: l) = o.qty + order_qty_sum l := by
  simp [order_qty_sum]

theorem fills_qty_sum_nil : fills_qty_sum [] = 0 := rfl

theorem fills_qty_sum_cons (f : Fill) (l : List Fill) :
    fills_qty_sum (f :: l) = f.qty + fills_qty_sum l := by
  simp [fills_qty_sum]

theorem fills_qty_sum_append (l1 l2 : List Fill) :
    fills_qty_sum (l1 ++ l2) = fills_qty_sum l1 + fills_qty_sum l2 := by
  simp [fills_qty_sum]

theorem taker_qty_sum_nil (id : Nat) : taker_qty_sum id [] = 0 := rfl

theorem taker_qty_sum_append (id : Nat) (l1 l2 : List Fill) :
    taker_qty_sum id (l1 ++ l2) = taker_qty_sum id l1 + taker_qty_sum id l2 := by
  simp [taker_qty_sum, List.filter_append]

theorem taker_qty_sum_le (id : Nat) (l : List Fill) :
    taker_qty_sum id l ≤ fills_qty_sum l := by
  induction l with
  | nil => simp [taker_qty_sum, fills_qty_sum]
  | cons f rest ih =>
    rw [fills_qty_sum_cons]
    simp only [taker_qty_sum, List.filter_cons] at ih ⊢
    by_cases h : f.taker_order_id = id
    · rw [if_pos (by simp [h]), List.map_cons, List.sum_cons]
      omega
    · rw [if_neg (by simp [h])]
      omega

theorem taker_qty_sum_zero {id bid : Nat} {l : List Fill}
    (h : ∀ f ∈ l, f.taker_order_id = bid) (hne : bid ≠ id) : taker_qty_sum id l = 0 := by
  have hnil : l.filter (fun f => f.taker_order_id = id) = [] := by
    rw [List.filter_eq_nil_iff]
    intro f hf
    simp [h f hf, hne]
  simp [taker_qty_sum, hnil]

theorem allocSells_spec (bid price : Nat) :
    ∀ (sells : List IncomingOrder) (t r : Nat),
      (allocSells bid price sells t r).2.1 ≤ r ∧
      r - (allocSells bid price sells t r).2.1 =
        fills_qty_sum (allocSells bid price sells t r).2.2 ∧
      order_qty_sum (allocSells bid price sells t r).1 +
        fills_qty_sum (allocSells bid price sells t r).2.2 = order_qty_sum sells ∧
      ∀ f ∈ (allocSells bid price sells t r).2.2, f.taker_order_id = bid := by
  intro sells
  induction sells with
  | nil =>
    intro t r
    simp [allocSells, fills_qty_sum, order_qty_sum]
  | cons sell rest ih =>
    intro t r
    by_cases h1 : r = 0
    · simp [allocSells, h1, fills_qty_sum]
    · by_cases h2 : t = 0
      · simp [allocSells, h1, h2, fills_qty_sum]
      · by_cases h3 : min (min t r) sell.qty = 0
        · obtain ⟨i1, i2, i3, i4⟩ := ih t r
          simp only [allocSells, if_neg h1, if_neg h2, if_pos h3]
          refine ⟨i1, i2, ?_, i4⟩
          rw [order_qty_sum_cons, order_qty_sum_cons]
          omega
        · obtain ⟨i1, i2, i3, i4⟩ := ih t (r - min (min t r) sell.qty)
          simp only [allocSells, if_neg h1, if_neg h2, if_neg h3]
          have htq2 : min (min t r) sell.qty ≤ r :=
            le_trans (min_le_left _ _) (min_le_right _ _)
          have htq3 : min (min t r) sell.qty ≤ sell.qty := min_le_right _ _
          have hfq : (mkBookFill sell.order_id bid price (min (min t r) sell.qty)).qty =
              min (min t r) sell.qty := rfl
          refine ⟨by omega, ?_, ?_, ?_⟩
          · rw [fills_qty_sum_cons, hfq]; omega
          · rw [order_qty_sum_cons, order_qty_sum_cons, fills_qty_sum_cons, hfq]
            have hsq : ({ sell with qty := sell.qty - min (min t r) sell.qty } :
                IncomingOrder).qty = sell.qty - min (min t r) sell.qty := rfl
            rw [hsq]
            omega
          · intro f hf
            rcases List.mem_cons.mp hf with h | h
            · subst h; rfl
            · exact i4 f h

theorem allocSells_lower (bid price : Nat) :
    ∀ (sells : List IncomingOrder) (t r : Nat),
      min (min t r) (order_qty_sum sells) ≤
        fills_qty_sum (allocSells bid price sells t r).2.2 := by
  intro sells
  induction sells with
  | nil =>
    intro t r
    simp [allocSells, order_qty_sum, fills_qty_sum]
  | cons sell rest ih =>
    intro t r
    by_cases h1 : r = 0
    · simp only [allocSells, if_pos h1]
      rw [fills_qty_sum_nil]
      omega
    · by_cases h2 : t = 0
      · simp only [allocSells, if_neg h1, if_pos h2]
        rw [fills_qty_sum_nil]
        omega
      · by_cases h3 : min (min t r) sell.qty = 0
        · have i := ih t r
          simp only [allocSells, if_neg h1, if_neg h2, if_pos h3]
          rw [order_qty_sum_cons]
          omega
        · have i := ih t (r - min (min t r) sell.qty)
          simp only [allocSells, if_neg h1, if_neg h2, if_neg h3]
          have hfq : (mkBookFill sell.order_id bid price (min (min t r) sell.qty)).qty =
              min (min t r) sell.qty := rfl
          rw [order_qty_sum_cons, fills_qty_sum_cons, hfq]
          omega

theorem allocBuys_total (price : Nat) :
    ∀ (buys sells : List IncomingOrder) (remB remS : Nat),
      remB ≤ order_qty_sum buys → remS ≤ remB → remS ≤ order_qty_sum sells →
      fills_qty_sum (allocBuys price buys sells remB remS) = remS := by
  intro buys
  induction buys with
  | nil =>
    intro sells remB remS hb hbs _
    rw [order_qty_sum_nil] at hb
    simp only [allocBuys]
    rw [fills_qty_sum_nil]
    omega
  | cons buy rest ih =>
    intro sells remB remS hb hbs hss
    by_cases h0 : remB = 0
    · simp only [allocBuys, if_pos h0]
      rw [fills_qty_sum_nil]
      omega
    · simp only [allocBuys, if_neg h0]
      rw [order_qty_sum_cons] at hb
      obtain ⟨i1, i2, i3, i4⟩ :=
        allocSells_spec buy.order_id price sells (min buy.qty remB) remS
      have hlow := allocSells_lower buy.order_id price sells (min buy.qty remB) remS
      have hrec := ih (allocSells buy.order_id price sells (min buy.qty remB) remS).1
        (remB - min buy.qty remB)
        (allocSells buy.order_id price sells (min buy.qty remB) remS).2.1
        (by omega) (by omega) (by omega)
      rw [fills_qty_sum_append, hrec]
      omega

theorem order_qty_sum_append (l1 l2 : List IncomingOrder) :
    order_qty_sum (l1 ++ l2) = order_qty_sum l1 + order_qty_sum l2 := by
  simp [order_qty_sum]

theorem uadd64_le (a b : Nat) : uadd64 a b ≤ a + b := Nat.mod_le _ _

theorem demand_supply_le (orders : List IncomingOrder) (price : Nat) :
    (demand_supply orders price).1 ≤
      order_qty_sum (orders.filter (fun o => o.side = Side.Buy)) ∧
    (demand_supply orders price).2 ≤
      order_qty_sum (orders.filter (fun o => o.side = Side.Sell)) := by
  induction orders using List.reverseRecOn with
  | nil => simp [demand_supply, order_qty_sum]
  | append_singleton l o ih =>
    unfold demand_supply at ih ⊢
    rw [List.foldl_append, List.foldl_cons, List.foldl_nil,
        List.filter_append, List.filter_append, order_qty_sum_append,
        order_qty_sum_append]
    cases ho : o.side
    · simp only [ho]
      have hfb : [o].filter (fun o => o.side = Side.Buy) = [o] := by simp [ho]
      have hfs : [o].filter (fun o => o.side = Side.Sell) = [] := by simp [ho]
      rw [hfb, hfs, order_qty_sum_cons, order_qty_sum_nil]
      split
      · exact ⟨le_trans (uadd64_le _ _) (by omega), by omega⟩
      · exact ⟨by omega, by omega⟩
    · simp only [ho]
      have hfb : [o].filter (fun o => o.side = Side.Buy) = [] := by simp [ho]
      have hfs : [o].filter (fun o => o.side = Side.Sell) = [o] := by simp [ho]
      rw [hfb, hfs, order_qty_sum_cons, order_qty_sum_nil]
      split
      · exact ⟨by omega, le_trans (uadd64_le _ _) (by omega)⟩
      · exact ⟨by omega, by omega⟩

theorem filter_id_qty {l : List IncomingOrder} {b : IncomingOrder}
    (hnd : (l.map IncomingOrder.order_id).Nodup) (hb : b ∈ l) :
    order_qty_sum (l.filter (fun o => o.order_id = b.order_id)) = b.qty := by
  induction l with
  | nil => simp at hb
  | cons a rest ih =>
    simp only [List.map_cons, List.nodup_cons] at hnd
    rcases List.mem_cons.mp hb with h | h
    · subst h
      rw [List.filter_cons, if_pos (by simp)]
      have hrest : rest.filter (fun o => o.order_id = b.order_id) = [] := by
        rw [List.filter_eq_nil_iff]
        intro o ho
        simp only [decide_eq_true_eq]
        intro heq
        exact hnd.1 (heq ▸ List.mem_map.mpr ⟨o, ho, rfl⟩)
      rw [hrest, order_qty_sum_cons, order_qty_sum_nil]
      omega
    · have hne : a.order_id ≠ b.order_id :=
        fun hh => hnd.1 (hh ▸ List.mem_map.mpr ⟨b, h, rfl⟩)
      rw [List.filter_cons, if_neg (by simp [hne])]
      exact ih hnd.2 h

theorem order_qty_sum_perm {l1 l2 : List IncomingOrder} (h : l1.Perm l2) :
    order_qty_sum l1 = order_qty_sum l2 := by
  unfold order_qty_sum
  exact (h.map _).sum_eq

/-- Claim C4 (amended): on a non-empty pending set the fills of
`BatchAuction::clear` sum exactly to the selected clearing volume.  The
original claim's second half is false: `tradable` is computed once per buyer
and never decremented inside the seller loop, so a single buyer can be filled
beyond its own quantity (see the counterexample). -/
theorem c4_amended (pending : List IncomingOrder) (mark_price : Nat)
    (hne : pending ≠ []) :
    fills_qty_sum (BatchAuction.clear pending mark_price).2.1 =
      (BatchAuction.clear pending mark_price).1.volume := by
  set st := selectLoop pending mark_price (candidatePrices pending mark_price)
    ⟨⟨mark_price, 0⟩, U64MAX, U64MAX⟩ with hstdef
  set sb := (pending.filter (fun o => o.side = Side.Buy)).mergeSort
    (fun a b => a.ingress_seq ≤ b.ingress_seq) with hsbdef
  set ss := (pending.filter (fun o => o.side = Side.Sell)).mergeSort
    (fun a b => a.ingress_seq ≤ b.ingress_seq) with hssdef
  have hclear : BatchAuction.clear pending mark_price =
      (st.best, allocBuys st.best.price sb ss st.best.volume st.best.volume,
        pending.filter
          (fun o => o.tif = TimeInForce.Gtc ∧ o.order_type ≠ OrderType.Market)) := by
    rw [hstdef, hsbdef, hssdef]
    unfold BatchAuction.clear
    rw [if_neg hne]
  obtain ⟨horigin, -, -⟩ := selectLoop_spec pending mark_price
    (candidatePrices pending mark_price) ⟨⟨mark_price, 0⟩, U64MAX, U64MAX⟩
  rw [← hstdef] at horigin
  have hVb : st.best.volume ≤ order_qty_sum (pending.filter (fun o => o.side = Side.Buy)) ∧
      st.best.volume ≤ order_qty_sum (pending.filter (fun o => o.side = Side.Sell)) := by
    rcases horigin with hsent | ⟨p, _, hof⟩
    · rw [hsent]
      exact ⟨Nat.zero_le _, Nat.zero_le _⟩
    · rw [hof]
      obtain ⟨hd1, hd2⟩ := demand_supply_le pending p
      have h1 : (stOf pending mark_price p).best.volume =
          min (demand_supply pending p).1 (demand_supply pending p).2 := rfl
      rw [h1]
      exact ⟨by omega, by omega⟩
  have hpb : sb.Perm (pending.filter (fun o => o.side = Side.Buy)) := by
    rw [hsbdef]
    exact List.mergeSort_perm _ _
  have hps : ss.Perm (pending.filter (fun o => o.side = Side.Sell)) := by
    rw [hssdef]
    exact List.mergeSort_perm _ _
  have hsbsum := order_qty_sum_perm hpb
  have hsssum := order_qty_sum_perm hps
  rw [hclear]
  exact allocBuys_total st.best.price sb ss st.best.volume st.best.volume
    (by omega) (le_refl _) (by omega)

/-- Witness for C4 on the four-order batch fixture at mark price 100. -/
theorem c4_amended_witness :
    c5Pending ≠ [] ∧
    fills_qty_sum (BatchAuction.clear c5Pending 100).2.1 =
      (BatchAuction.clear c5Pending 100).1.volume :=
  ⟨by decide, c4_amended c5Pending 100 (by decide)⟩

/-- Claim C4 (counterexample): with buys of qty 5 and 5 against sells of qty 3
and 7, all at price 100 and with pairwise distinct buy order ids, the clearing
volume is 10 and conservation holds, but buyer 1 receives fills of 3 and 5 —
total 8, exceeding its qty 5 — because `tradable` is an immutable binding the
seller loop never decrements.  This refutes the original per-buyer bound. -/
theorem c4_counterexample :
    c4CexPending ≠ [] ∧
    ((c4CexPending.filter (fun o => o.side = Side.Buy)).map IncomingOrder.order_id).Nodup ∧
    ∃ b ∈ c4CexPending, b.side = Side.Buy ∧
      b.qty < taker_qty_sum b.order_id (BatchAuction.clear c4CexPending 100).2.1 := by
  have hcand : candidatePrices c4CexPending 100 = [100] := by
    unfold candidatePrices
    rw [List.mergeSort_of_sorted (by decide)]
    show rustDedup [100, 100, 100, 100, 100] = [100]
    simp [rustDedup]
  have hsb : ((c4CexPending.filter (fun o => o.side = Side.Buy)).mergeSort
      (fun a b => a.ingress_seq ≤ b.ingress_seq)) =
      c4CexPending.filter (fun o => o.side = Side.Buy) :=
    List.mergeSort_of_sorted (by decide)
  have hss : ((c4CexPending.filter (fun o => o.side = Side.Sell)).mergeSort
      (fun a b => a.ingress_seq ≤ b.ingress_seq)) =
      c4CexPending.filter (fun o => o.side = Side.Sell) :=
    List.mergeSort_of_sorted (by decide)
  have hclear : BatchAuction.clear c4CexPending 100 =
      ({ price := 100, volume := 10 },
       [mkBookFill 3 1 100 3, mkBookFill 4 1 100 5, mkBookFill 4 2 100 2],
       c4CexPending) := by
    simp only [BatchAuction.clear]
    rw [if_neg (show ¬(c4CexPending = []) by decide), hcand, hsb, hss]
    rfl
  rw [hclear]
  decide

theorem emitFillsStep_frame (market : MarketConfig) (ts : Nat) (s : EngineShard)
    (f : Fill) :
    (emitFillsStep market ts s f).1.engine_seq = s.engine_seq ∧
    (emitFillsStep market ts s f).1.shard_id = s.shard_id ∧
    (emitFillsStep market ts s f).1.wal = s.wal ∧
    (emitFillsStep market ts s f).2.engine_seq = s.engine_seq ∧
    (emitFillsStep market ts s f).2.shard_id = s.shard_id := by
  simp only [emitFillsStep]
  cases lookupKey s.order_owners f.maker_order_id <;>
    cases lookupKey s.order_owners f.taker_order_id <;> simp

theorem emit_fills_frame (market : MarketConfig) (ts : Nat) :
    ∀ (fills : List Fill) (s : EngineShard),
      (s.emit_fills fills market ts).1.engine_seq = s.engine_seq ∧
      (s.emit_fills fills market ts).1.shard_id = s.shard_id ∧
      (s.emit_fills fills market ts).1.wal = s.wal ∧
      ∀ e ∈ (s.emit_fills fills market ts).2,
        e.engine_seq = s.engine_seq ∧ e.shard_id = s.shard_id := by
  intro fills
  induction fills with
  | nil =>
    intro s
    simp [EngineShard.emit_fills]
  | cons f rest ih =>
    intro s
    obtain ⟨h1, h2, h3, h4, h5⟩ := emitFillsStep_frame market ts s f
    obtain ⟨i1, i2, i3, i4⟩ := ih (emitFillsStep market ts s f).1
    simp only [EngineShard.emit_fills]
    refine ⟨i1.trans h1, i2.trans h2, i3.trans h3, ?_⟩
    intro e he
    rcases List.mem_cons.mp he with h | h
    · subst h
      exact ⟨h4, h5⟩
    · obtain ⟨j1, j2⟩ := i4 e h
      exact ⟨j1.trans h1, j2.trans h2⟩

theorem foldl_shard_frame {α : Type} (g : EngineShard → α → EngineShard)
    (hg : ∀ st a, (g st a).engine_seq = st.engine_seq ∧
      (g st a).shard_id = st.shard_id ∧ (g st a).wal = st.wal) :
    ∀ (l : List α) (st : EngineShard),
      (List.foldl g st l).engine_seq = st.engine_seq ∧
      (List.foldl g st l).shard_id = st.shard_id ∧
      (List.foldl g st l).wal = st.wal := by
  intro l
  induction l with
  | nil =>
    intro st
    simp
  | cons a rest ih =>
    intro st
    obtain ⟨h1, h2, h3⟩ := hg st a
    obtain ⟨i1, i2, i3⟩ := ih (g st a)
    rw [List.foldl_cons]
    exact ⟨i1.trans h1, i2.trans h2, i3.trans h3⟩

theorem on_cancel_frame (s : EngineShard) (c : CancelOrder) (ts : Nat) :
    (s.on_cancel c ts).1.engine_seq = s.engine_seq ∧
    (s.on_cancel c ts).1.shard_id = s.shard_id ∧
    (s.on_cancel c ts).1.wal = s.wal ∧
    ∀ e ∈ (s.on_cancel c ts).2,
      e.engine_seq = s.engine_seq ∧ e.shard_id = s.shard_id := by
  cases h0 : c.order_id with
  | none => simp [EngineShard.on_cancel, h0]
  | some oid =>
    cases hm : lookupKey s.markets c.market_id with
    | none => simp [EngineShard.on_cancel, h0, hm]
    | some market =>
      by_cases hc : (cancel market.book oid).1
      · cases ho : lookupKey s.order_owners oid <;>
          simp [EngineShard.on_cancel, h0, hm, hc, ho,
            EngineShard.book_delta_from_snapshot]
      · simp [EngineShard.on_cancel, h0, hm, hc]

theorem trackRestingAdd_frame (market_id sub : Nat) (s : EngineShard) :
    (trackRestingAdd market_id sub s).engine_seq = s.engine_seq ∧
    (trackRestingAdd market_id sub s).shard_id = s.shard_id ∧
    (trackRestingAdd market_id sub s).wal = s.wal := by
  simp only [trackRestingAdd]
  cases lookupKey s.markets market_id <;> simp

theorem removeClosedMaker_frame (market_id : Nat) (st : EngineShard) (a : Nat) :
    (removeClosedMaker market_id st a).engine_seq = st.engine_seq ∧
    (removeClosedMaker market_id st a).shard_id = st.shard_id ∧
    (removeClosedMaker market_id st a).wal = st.wal := by
  simp only [removeClosedMaker]
  cases lookupKey st.order_owners a
  · simp
  · cases lookupKey st.markets market_id <;> simp

theorem on_new_order_frame (s : EngineShard) (o : NewOrder) (ts fuel : Nat)
    (s1 : EngineShard) (outs : List EventEnvelope)
    (h : s.on_new_order o ts fuel = some (s1, outs)) :
    s1.engine_seq = s.engine_seq ∧ s1.shard_id = s.shard_id ∧ s1.wal = s.wal ∧
    ∀ e ∈ outs, e.engine_seq = s.engine_seq ∧ e.shard_id = s.shard_id := by
  simp only [EngineShard.on_new_order] at h
  split at h
  · simp only [Option.some.injEq, Prod.mk.injEq] at h
    obtain ⟨hs, ho⟩ := h
    subst hs
    subst ho
    simp
  · split at h
    · simp only [Option.some.injEq, Prod.mk.injEq] at h
      obtain ⟨hs, ho⟩ := h
      subst hs
      subst ho
      simp [EngineShard.reject]
    · split at h
      · simp only [Option.some.injEq, Prod.mk.injEq] at h
        obtain ⟨hs, ho⟩ := h
        subst hs
        subst ho
        simp [EngineShard.reject]
      · split at h
        · split at h
          · exact absurd h (by simp)
          · rename_i x3 ms hms x2 hval x1 hmm x0 fills resting_id book2 hplace
            simp only [Option.some.injEq, Prod.mk.injEq] at h
            obtain ⟨hs, ho⟩ := h
            subst hs
            subst ho
            generalize hA :
              ({ shard_id := s.shard_id, engine_seq := s.engine_seq,
                 next_order_id := s.next_order_id + 1,
                 markets := setKey s.markets o.market_id { ms with book := book2 },
                 risk := s.risk, wal := s.wal,
                 dedupe := List.take 10000 (o.request_id :: s.dedupe),
                 order_owners := putKey s.order_owners s.next_order_id
                   (o.subaccount_id, o.side) } : EngineShard) = sA
            have hA1 : sA.engine_seq = s.engine_seq := by rw [← hA]
            have hA2 : sA.shard_id = s.shard_id := by rw [← hA]
            have hA3 : sA.wal = s.wal := by rw [← hA]
            obtain ⟨e1, e2, e3, e4⟩ := emit_fills_frame ms.config ts fills sA
            have hC :
                (if resting_id.isSome = true then
                    trackRestingAdd o.market_id o.subaccount_id
                      (sA.emit_fills fills ms.config ts).1
                  else
                    { (sA.emit_fills fills ms.config ts).1 with
                      order_owners := eraseKey
                        (sA.emit_fills fills ms.config ts).1.order_owners
                        s.next_order_id }).engine_seq = s.engine_seq ∧
                (if resting_id.isSome = true then
                    trackRestingAdd o.market_id o.subaccount_id
                      (sA.emit_fills fills ms.config ts).1
                  else
                    { (sA.emit_fills fills ms.config ts).1 with
                      order_owners := eraseKey
                        (sA.emit_fills fills ms.config ts).1.order_owners
                        s.next_order_id }).shard_id = s.shard_id ∧
                (if resting_id.isSome = true then
                    trackRestingAdd o.market_id o.subaccount_id
                      (sA.emit_fills fills ms.config ts).1
                  else
                    { (sA.emit_fills fills ms.config ts).1 with
                      order_owners := eraseKey
                        (sA.emit_fills fills ms.config ts).1.order_owners
                        s.next_order_id }).wal = s.wal := by
              split
              · obtain ⟨t1, t2, t3⟩ := trackRestingAdd_frame o.market_id o.subaccount_id
                  (sA.emit_fills fills ms.config ts).1
                exact ⟨t1.trans (e1.trans hA1), t2.trans (e2.trans hA2),
                  t3.trans (e3.trans hA3)⟩
              · exact ⟨e1.trans hA1, e2.trans hA2, e3.trans hA3⟩
            obtain ⟨c1, c2, c3⟩ := hC
            obtain ⟨d1, d2, d3⟩ := foldl_shard_frame (removeClosedMaker o.market_id)
              (fun st a => removeClosedMaker_frame o.market_id st a)
              ((fills.filter (fun f => ¬ has_order book2 f.maker_order_id)).map
                Fill.maker_order_id)
              (if resting_id.isSome = true then
                  trackRestingAdd o.market_id o.subaccount_id
                    (sA.emit_fills fills ms.config ts).1
                else
                  { (sA.emit_fills fills ms.config ts).1 with
                    order_owners := eraseKey
                      (sA.emit_fills fills ms.config ts).1.order_owners
                      s.next_order_id })
            refine ⟨d1.trans c1, d2.trans c2, d3.trans c3, ?_⟩
            intro e he
            rcases List.mem_append.mp he with h12 | h3
            · rcases List.mem_append.mp h12 with h1 | h2
              · have h1e := List.mem_singleton.mp h1
                subst h1e
                exact ⟨rfl, rfl⟩
              · obtain ⟨j1, j2⟩ := e4 e h2
                exact ⟨j1.trans hA1, j2.trans hA2⟩
            · have h3e := List.mem_singleton.mp h3
              subst h3e
              exact ⟨d1.trans c1, d2.trans c2⟩
        · simp only [Option.some.injEq, Prod.mk.injEq] at h
          obtain ⟨hs, ho⟩ := h
          subst hs
          subst ho
          simp

/-- Claim C2 (amended): `handle_event` advances `engine_seq` by exactly 1 per
input event and appends the input envelope followed by the outputs to the WAL,
but every envelope of the event — the input and all outputs — carries the SAME
`engine_seq` value `s.engine_seq + 1`; WAL sequence values are therefore not
unique, and an event's outputs are constant rather than strictly increasing in
`engine_seq`. -/
theorem c2_amended (s : EngineShard) (event : Event) (ts fuel : Nat)
    (s2 : EngineShard) (outs : List EventEnvelope)
    (h : s.handle_event event ts fuel = some (s2, outs)) :
    s2.engine_seq = s.engine_seq + 1 ∧
    s2.wal = s.wal ++
      ({ shard_id := s.shard_id, engine_seq := s.engine_seq + 1,
         event := event, ts := ts } : EventEnvelope) :: outs ∧
    ∀ e ∈ outs, e.engine_seq = s.engine_seq + 1 ∧ e.shard_id = s.shard_id := by
  simp only [EngineShard.handle_event] at h
  cases event with
  | NewOrder o =>
    split at h
    · exact absurd h (by simp)
    · rename_i x0 s3 outs3 hstep
      simp only [Option.some.injEq, Prod.mk.injEq] at h
      obtain ⟨hs, ho⟩ := h
      subst hs
      subst ho
      obtain ⟨f1, f2, f3, f4⟩ := on_new_order_frame _ o ts fuel s3 outs3 hstep
      refine ⟨f1, ?_, ?_⟩
      · rw [f3]
        simp
      · intro e he
        obtain ⟨j1, j2⟩ := f4 e he
        exact ⟨j1, j2⟩
  | CancelOrder c =>
    simp only [Option.some.injEq, Prod.mk.injEq] at h
    obtain ⟨hs, ho⟩ := h
    subst hs
    subst ho
    obtain ⟨f1, f2, f3, f4⟩ := on_cancel_frame
      { s with
        engine_seq := s.engine_seq + 1,
        wal := s.wal ++ [⟨s.shard_id, s.engine_seq + 1, Event.CancelOrder c, ts⟩] } c ts
    refine ⟨f1, ?_, ?_⟩
    · rw [f3]
      simp
    · intro e he
      obtain ⟨j1, j2⟩ := f4 e he
      exact ⟨j1, j2⟩
  | PriceUpdate u =>
    simp only [Option.some.injEq, Prod.mk.injEq] at h
    obtain ⟨hs, ho⟩ := h
    subst hs
    subst ho
    simp
  | FundingUpdate u =>
    simp only [Option.some.injEq, Prod.mk.injEq] at h
    obtain ⟨hs, ho⟩ := h
    subst hs
    subst ho
    simp
  | OrderAck a =>
    simp only [Option.some.injEq, Prod.mk.injEq] at h
    obtain ⟨hs, ho⟩ := h
    subst hs
    subst ho
    simp
  | Fill f =>
    simp only [Option.some.injEq, Prod.mk.injEq] at h
    obtain ⟨hs, ho⟩ := h
    subst hs
    subst ho
    simp
  | BookDelta d =>
    simp only [Option.some.injEq, Prod.mk.injEq] at h
    obtain ⟨hs, ho⟩ := h
    subst hs
    subst ho
    simp
  | SettlementBatch b =>
    simp only [Option.some.injEq, Prod.mk.injEq] at h
    obtain ⟨hs, ho⟩ := h
    subst hs
    subst ho
    simp

/-- Witness for the amended C2: one concrete `NewOrder` event, whose resulting
shard and single output are produced by `handle_event` and satisfy the
sequence/WAL characterization. -/
theorem c2_amended_witness :
    (EngineShard.new 0 [] riskFixture).handle_event (Event.NewOrder newOrderFixture) 0 5 =
      some (c2Shard2, [c2RejectAck]) ∧
    c2Shard2.engine_seq = (EngineShard.new 0 [] riskFixture).engine_seq + 1 ∧
    ∀ e ∈ [c2RejectAck], e.engine_seq = (EngineShard.new 0 [] riskFixture).engine_seq + 1 := by
  have h : (EngineShard.new 0 [] riskFixture).handle_event
      (Event.NewOrder newOrderFixture) 0 5 = some (c2Shard2, [c2RejectAck]) := rfl
  have hm := c2_amended (EngineShard.new 0 [] riskFixture) (Event.NewOrder newOrderFixture)
    0 5 c2Shard2 [c2RejectAck] h
  exact ⟨h, hm.1, fun e he => (hm.2.2 e he).1⟩

/-- Claim C10: a `NewOrder` whose `request_id` is already in the dedupe cache
produces no outputs; only `engine_seq` and the WAL (input envelope) advance,
every other shard field being untouched by the returned state. -/
theorem c10_dedupe_replay_frame (s : EngineShard) (o : NewOrder) (ts fuel : Nat)
    (h : s.dedupe.contains o.request_id = true) :
    s.handle_event (Event.NewOrder o) ts fuel =
      some ({ s with
              engine_seq := s.engine_seq + 1,
              wal := s.wal ++ [⟨s.shard_id, s.engine_seq + 1, Event.NewOrder o, ts⟩] },
        []) := by
  have hmem : o.request_id ∈ s.dedupe := by simpa using h
  simp only [EngineShard.handle_event, EngineShard.on_new_order]
  simp [hmem]

/-- Witness for C10: a duplicate `request_id` on a concrete shard. -/
theorem c10_witness :
    c10Shard.dedupe.contains newOrderFixture.request_id = true ∧
    c10Shard.handle_event (Event.NewOrder newOrderFixture) 0 5 =
      some ({ c10Shard with
              engine_seq := c10Shard.engine_seq + 1,
              wal := c10Shard.wal ++ [⟨c10Shard.shard_id, c10Shard.engine_seq + 1, Event.NewOrder newOrderFixture, 0⟩] },
        []) :=
  ⟨by decide, c10_dedupe_replay_frame c10Shard newOrderFixture 0 5 (by decide)⟩

theorem validate_order_risk_congr (s s' : EngineShard) (o : NewOrder) (m : MarketState)
    (h : s.risk = s'.risk) : s.validate_order o m = s'.validate_order o m := by
  unfold EngineShard.validate_order
  rw [h]

/-- Claim C9: a rejected `NewOrder` (unknown market or any validation failure)
yields exactly one Rejected `OrderAck` envelope, and the resulting shard state
differs from the input state only in `engine_seq`, the dedupe cache, and the
WAL: `next_order_id`, the markets (books and open-order counters),
`order_owners` and the risk state are unchanged. -/
theorem c9_rejection_frame (s : EngineShard) (o : NewOrder) (ts fuel : Nat)
    (hd : s.dedupe.contains o.request_id = false)
    (hrej : ∀ m, lookupKey s.markets o.market_id = some m →
      s.validate_order o m ≠ none) :
    ∃ reason,
      s.handle_event (Event.NewOrder o) ts fuel =
        some ({ s with
                engine_seq := s.engine_seq + 1,
                dedupe := (o.request_id :: s.dedupe).take 10000,
                wal := s.wal ++ [⟨s.shard_id, s.engine_seq + 1, Event.NewOrder o, ts⟩,
                  ⟨s.shard_id, s.engine_seq + 1, Event.OrderAck ⟨o.request_id, OrderStatus.Rejected, some reason, none, s.engine_seq + 1, ts⟩, ts⟩] },
          [⟨s.shard_id, s.engine_seq + 1, Event.OrderAck ⟨o.request_id, OrderStatus.Rejected, some reason, none, s.engine_seq + 1, ts⟩, ts⟩]) := by
  have hnm : o.request_id ∉ s.dedupe := by simpa using hd
  simp only [EngineShard.handle_event, EngineShard.on_new_order]
  cases hm : lookupKey s.markets o.market_id with
  | none =>
    refine ⟨"unknown market", ?_⟩
    simp [hnm, hm, EngineShard.reject]
  | some m =>
    have hv := hrej m hm
    cases hvv : s.validate_order o m with
    | none => exact absurd hvv hv
    | some reason =>
      refine ⟨reason, ?_⟩
      have hcongr :
          EngineShard.validate_order
            { s with
              engine_seq := s.engine_seq + 1,
              wal := s.wal ++ [⟨s.shard_id, s.engine_seq + 1, Event.NewOrder o, ts⟩],
              dedupe := (o.request_id :: s.dedupe).take 10000 } o m =
            s.validate_order o m :=
        validate_order_risk_congr _ _ o m rfl
      simp only [List.take_succ_cons] at hcongr
      simp [hnm, hm, hcongr, hvv, EngineShard.reject]

/-- Witness for C9: an unknown-market `NewOrder` on a fresh marketless shard. -/
theorem c9_witness :
    (EngineShard.new 0 [] riskFixture).dedupe.contains newOrderFixture.request_id = false ∧
    ∃ reason,
      (EngineShard.new 0 [] riskFixture).handle_event (Event.NewOrder newOrderFixture) 0 5 =
        some ({ EngineShard.new 0 [] riskFixture with
                engine_seq := (EngineShard.new 0 [] riskFixture).engine_seq + 1,
                dedupe := (newOrderFixture.request_id :: (EngineShard.new 0 [] riskFixture).dedupe).take 10000,
                wal := (EngineShard.new 0 [] riskFixture).wal ++ [⟨(EngineShard.new 0 [] riskFixture).shard_id, (EngineShard.new 0 [] riskFixture).engine_seq + 1, Event.NewOrder newOrderFixture, 0⟩,
                  ⟨(EngineShard.new 0 [] riskFixture).shard_id, (EngineShard.new 0 [] riskFixture).engine_seq + 1, Event.OrderAck ⟨newOrderFixture.request_id, OrderStatus.Rejected, some reason, none, (EngineShard.new 0 [] riskFixture).engine_seq + 1, 0⟩, 0⟩] },
          [⟨(EngineShard.new 0 [] riskFixture).shard_id, (EngineShard.new 0 [] riskFixture).engine_seq + 1, Event.OrderAck ⟨newOrderFixture.request_id, OrderStatus.Rejected, some reason, none, (EngineShard.new 0 [] riskFixture).engine_seq + 1, 0⟩, 0⟩]) :=
  ⟨by decide,
    c9_rejection_frame (EngineShard.new 0 [] riskFixture) newOrderFixture 0 5 (by decide)
      (fun m hm => by
        rw [show lookupKey (EngineShard.new 0 [] riskFixture).markets
            newOrderFixture.market_id = (none : Option MarketState) from rfl] at hm
        exact Option.noConfusion hm)⟩

theorem place_order_rest (b : OrderBook) (incoming : IncomingOrder)
    (hq : 0 < incoming.qty) (ht : incoming.tif = TimeInForce.Gtc)
    (ho : incoming.order_type = OrderType.Limit) :
    place_order b incoming 0 1 =
      some ([], some incoming.order_id, add_resting b incoming incoming.qty) := by
  unfold place_order
  have hql : ¬ (incoming.qty = 0) := by omega
  rw [if_neg (by simp [ht])]
  simp only [matchLoop]
  simp [hql, ht, ho]

theorem add_resting_append (b : OrderBook) (incoming : IncomingOrder) (rem : Nat)
    (hf : b.free = []) :
    (add_resting b incoming rem).orders = b.orders ++
      [(b.cap, ⟨incoming.order_id, incoming.subaccount_id, incoming.side,
        incoming.price_ticks, rem, incoming.ingress_seq⟩)] ∧
    (add_resting b incoming rem).free = [] := by
  simp only [add_resting, hf]
  cases incoming.side <;> simp

theorem restore_views_fold : ∀ (views : List OrderView)
    (acc : MarketState × List (Nat × (Nat × Side))),
    acc.1.book.free = [] →
    (∀ v ∈ views, 0 < v.remaining) →
    order_views (views.foldl restoreStep acc).1.book =
      order_views acc.1.book ++ views ∧
    (views.foldl restoreStep acc).1.book.free = [] := by
  intro views
  induction views with
  | nil =>
    intro acc hf _
    exact ⟨by simp, hf⟩
  | cons v rest ih =>
    intro acc hf hpos
    have hv : 0 < v.remaining := hpos v (List.mem_cons_self _ _)
    rw [List.foldl_cons]
    have hb : (restoreStep acc v).1.book =
        add_resting acc.1.book
          { order_id := v.order_id, subaccount_id := v.subaccount_id,
            side := v.side, order_type := OrderType.Limit,
            tif := TimeInForce.Gtc, price_ticks := v.price_ticks,
            qty := v.remaining, reduce_only := false,
            ingress_seq := v.ingress_seq } v.remaining := by
      simp only [restoreStep]
      rw [place_order_rest acc.1.book
        { order_id := v.order_id, subaccount_id := v.subaccount_id,
          side := v.side, order_type := OrderType.Limit,
          tif := TimeInForce.Gtc, price_ticks := v.price_ticks,
          qty := v.remaining, reduce_only := false,
          ingress_seq := v.ingress_seq } hv rfl rfl]
      rfl
    have hadd := add_resting_append acc.1.book
      { order_id := v.order_id, subaccount_id := v.subaccount_id,
        side := v.side, order_type := OrderType.Limit,
        tif := TimeInForce.Gtc, price_ticks := v.price_ticks,
        qty := v.remaining, reduce_only := false,
        ingress_seq := v.ingress_seq } v.remaining hf
    have hov : order_views (restoreStep acc v).1.book = order_views acc.1.book ++ [v] := by
      rw [hb]
      simp only [order_views, hadd.1, List.map_append, List.map_cons, List.map_nil]
    have hfree : (restoreStep acc v).1.book.free = [] := by
      rw [hb]
      exact hadd.2
    obtain ⟨i1, i2⟩ := ih (restoreStep acc v) hfree
      (fun u hu => hpos u (List.mem_cons_of_mem _ hu))
    refine ⟨?_, i2⟩
    rw [i1, hov]
    simp

theorem lookupKey_eq_none_of_not_mem {α : Type} {l : List (Nat × α)} {k : Nat}
    (h : k ∉ l.map Prod.fst) : lookupKey l k = none := by
  cases hl : lookupKey l k with
  | none => rfl
  | some v =>
    exact absurd ((lookupKey_isSome_iff l k).mp (by simp [hl])) h

theorem assoc_ext {α : Type} :
    ∀ (l1 l2 : List (Nat × α)), l1.map Prod.fst = l2.map Prod.fst →
      (l1.map Prod.fst).Nodup → (∀ k, lookupKey l1 k = lookupKey l2 k) → l1 = l2 := by
  intro l1
  induction l1 with
  | nil =>
    intro l2 hk _ _
    cases l2 with
    | nil => rfl
    | cons p t => simp at hk
  | cons p t1 ih =>
    intro l2 hk hnd hl
    cases l2 with
    | nil => simp at hk
    | cons q t2 =>
      simp only [List.map_cons, List.cons.injEq] at hk
      obtain ⟨hk1, hk2⟩ := hk
      simp only [List.map_cons, List.nodup_cons] at hnd
      have hv : p.2 = q.2 := by
        have := hl p.1
        simp [lookupKey, hk1] at this
        exact this
      have htl : ∀ k, lookupKey t1 k = lookupKey t2 k := by
        intro k
        by_cases hkp : k = p.1
        · subst hkp
          rw [lookupKey_eq_none_of_not_mem hnd.1,
            lookupKey_eq_none_of_not_mem (hk2 ▸ hnd.1)]
        · have := hl k
          simp only [lookupKey, hk1] at this
          have hkq : ¬ q.1 = k := fun hh => hkp (by rw [hk1]; exact hh.symm)
          simp only [if_neg hkq] at this
          exact this
      have ht := ih t2 hk2 hnd.2 htl
      have hp : p = q := by
        cases p
        cases q
        simp at hk1 hv
        simp [hk1, hv]
      rw [hp, ht]

theorem lookupKey_keyed_map {α β : Type} (f : α → β) :
    ∀ (l : List (Nat × α)) (k : Nat),
      lookupKey (l.map (fun p => (p.1, f p.2))) k = (lookupKey l k).map f := by
  intro l
  induction l with
  | nil => intro k; rfl
  | cons p t ih =>
    intro k
    simp only [List.map_cons, lookupKey]
    by_cases h : p.1 = k
    · simp [h]
    · simp [h, ih]

theorem map_fst_keyed_map {α β : Type} (f : α → β) (l : List (Nat × α)) :
    (l.map (fun p => (p.1, f p.2))).map Prod.fst = l.map Prod.fst := by
  induction l with
  | nil => rfl
  | cons p t ih => simp [ih]

theorem putKey_of_lookup_none {α : Type} (l : List (Nat × α)) (k : Nat) (v : α)
    (h : lookupKey l k = none) : putKey l k v = l ++ [(k, v)] := by
  simp [putKey, h]

theorem mem_putKey_elim {α : Type} {l : List (Nat × α)} {k : Nat} {v : α} {pl : Nat × α}
    (h : pl ∈ putKey l k v) : pl = (k, v) ∨ pl ∈ l := by
  unfold putKey at h
  split at h
  · exact mem_setKey_elim h
  · rcases List.mem_append.mp h with h1 | h1
    · exact Or.inr h1
    · exact Or.inl (List.mem_singleton.mp h1)

theorem newMarkets_empty :
    ∀ (cfgs : List MarketConfig) (acc : List (Nat × MarketState)),
      (∀ p ∈ acc, p.2.book = OrderBook.empty) →
      ∀ p ∈ cfgs.foldl
        (fun acc m => putKey acc m.market_id
          { config := m, book := OrderBook.empty, batch := [], pending := [],
            open_orders_by_subaccount := [] }) acc,
        p.2.book = OrderBook.empty := by
  intro cfgs
  induction cfgs with
  | nil =>
    intro acc hacc p hp
    exact hacc p hp
  | cons c rest ih =>
    intro acc hacc p hp
    rw [List.foldl_cons] at hp
    refine ih _ ?_ p hp
    intro q hq
    rcases mem_putKey_elim hq with h | h
    · rw [h]
    · exact hacc q h

theorem newMarkets_keys :
    ∀ (cfgs : List MarketConfig) (acc : List (Nat × MarketState)),
      ((acc.map Prod.fst) ++ cfgs.map MarketConfig.market_id).Nodup →
      (cfgs.foldl
        (fun acc m => putKey acc m.market_id
          { config := m, book := OrderBook.empty, batch := [], pending := [],
            open_orders_by_subaccount := [] }) acc).map Prod.fst =
        acc.map Prod.fst ++ cfgs.map MarketConfig.market_id := by
  intro cfgs
  induction cfgs with
  | nil =>
    intro acc _
    simp
  | cons c rest ih =>
    intro acc hnd
    rw [List.foldl_cons]
    simp only [List.map_cons] at hnd
    have hcid : c.market_id ∉ acc.map Prod.fst := by
      rcases List.nodup_append.mp hnd with ⟨h1, h2, hdisj⟩
      intro hc
      exact hdisj hc (List.mem_cons_self _ _)
    have hput := putKey_of_lookup_none acc c.market_id
      ({ config := c, book := OrderBook.empty, batch := [], pending := [], open_orders_by_subaccount := [] } : MarketState)
      (lookupKey_eq_none_of_not_mem hcid)
    rw [hput]
    have hnd2 : (((acc ++ [(c.market_id,
        ({ config := c, book := OrderBook.empty, batch := [], pending := [], open_orders_by_subaccount := [] } : MarketState))]).map Prod.fst) ++
        rest.map MarketConfig.market_id).Nodup := by
      simp only [List.map_append, List.map_cons, List.map_nil, List.append_assoc,
        List.singleton_append]
      exact hnd
    rw [ih _ hnd2]
    simp

theorem restoreMarket_frame (sh : EngineShard) (mo : Nat × List OrderView) :
    (restoreMarket sh mo).shard_id = sh.shard_id ∧
    (restoreMarket sh mo).engine_seq = sh.engine_seq ∧
    (restoreMarket sh mo).next_order_id = sh.next_order_id ∧
    (restoreMarket sh mo).risk = sh.risk := by
  simp only [restoreMarket]
  cases lookupKey sh.markets mo.1 <;> simp

theorem restore_foldl_frame :
    ∀ (obs : List (Nat × List OrderView)) (sh : EngineShard),
      (obs.foldl restoreMarket sh).shard_id = sh.shard_id ∧
      (obs.foldl restoreMarket sh).engine_seq = sh.engine_seq ∧
      (obs.foldl restoreMarket sh).next_order_id = sh.next_order_id ∧
      (obs.foldl restoreMarket sh).risk = sh.risk := by
  intro obs
  induction obs with
  | nil =>
    intro sh
    simp
  | cons mo rest ih =>
    intro sh
    obtain ⟨h1, h2, h3, h4⟩ := restoreMarket_frame sh mo
    obtain ⟨i1, i2, i3, i4⟩ := ih (restoreMarket sh mo)
    rw [List.foldl_cons]
    exact ⟨i1.trans h1, i2.trans h2, i3.trans h3, i4.trans h4⟩

theorem restore_markets_spec :
    ∀ (obs : List (Nat × List OrderView)) (sh : EngineShard),
      (obs.map Prod.fst).Nodup →
      (∀ mo ∈ obs, ∀ v ∈ mo.2, 0 < v.remaining) →
      (∀ mo ∈ obs, ∃ ms, lookupKey sh.markets mo.1 = some ms ∧
        ms.book = OrderBook.empty) →
      (obs.foldl restoreMarket sh).markets.map Prod.fst = sh.markets.map Prod.fst ∧
      (∀ mo ∈ obs, ∃ ms, lookupKey (obs.foldl restoreMarket sh).markets mo.1 = some ms ∧
        order_views ms.book = mo.2) ∧
      (∀ k, k ∉ obs.map Prod.fst →
        lookupKey (obs.foldl restoreMarket sh).markets k = lookupKey sh.markets k) := by
  intro obs
  induction obs with
  | nil =>
    intro sh _ _ _
    exact ⟨rfl, by simp, fun k _ => rfl⟩
  | cons mo rest ih =>
    intro sh hnd hpos hemp
    obtain ⟨ms, hms, hbe⟩ := hemp mo (List.mem_cons_self _ _)
    simp only [List.map_cons, List.nodup_cons] at hnd
    have hRM : restoreMarket sh mo =
        { sh with
          markets := setKey sh.markets mo.1 (mo.2.foldl restoreStep (ms, sh.order_owners)).1,
          order_owners := (mo.2.foldl restoreStep (ms, sh.order_owners)).2 } := by
      simp only [restoreMarket, hms]
    obtain ⟨hov, hfr⟩ := restore_views_fold mo.2 (ms, sh.order_owners)
      (by rw [hbe]; rfl) (hpos mo (List.mem_cons_self _ _))
    have hovm : order_views (mo.2.foldl restoreStep (ms, sh.order_owners)).1.book = mo.2 := by
      rw [hov, hbe]
      rfl
    have hlook : lookupKey (restoreMarket sh mo).markets mo.1 =
        some (mo.2.foldl restoreStep (ms, sh.order_owners)).1 := by
      rw [hRM]
      simp only
      rw [lookupKey_setKey_self]
      rw [if_pos (by simp [hms])]
    have hlookne : ∀ k, k ≠ mo.1 →
        lookupKey (restoreMarket sh mo).markets k = lookupKey sh.markets k := by
      intro k hk
      rw [hRM]
      simp only
      exact lookupKey_setKey_ne _ _ _ _ hk
    have hkeys : (restoreMarket sh mo).markets.map Prod.fst = sh.markets.map Prod.fst := by
      rw [hRM]
      simp only
      exact map_fst_setKey _ _ _
    have hemp2 : ∀ mo2 ∈ rest, ∃ ms2,
        lookupKey (restoreMarket sh mo).markets mo2.1 = some ms2 ∧
        ms2.book = OrderBook.empty := by
      intro mo2 hmo2
      have hne : mo2.1 ≠ mo.1 := by
        intro hh
        exact hnd.1 (hh ▸ List.mem_map.mpr ⟨mo2, hmo2, rfl⟩)
      rw [hlookne mo2.1 hne]
      exact hemp mo2 (List.mem_cons_of_mem _ hmo2)
    obtain ⟨i1, i2, i3⟩ := ih (restoreMarket sh mo) hnd.2
      (fun mo2 hmo2 => hpos mo2 (List.mem_cons_of_mem _ hmo2)) hemp2
    rw [List.foldl_cons]
    refine ⟨i1.trans hkeys, ?_, ?_⟩
    · intro mo2 hmo2
      rcases List.mem_cons.mp hmo2 with h | h
      · subst h
        refine ⟨(mo2.2.foldl restoreStep (ms, sh.order_owners)).1, ?_, hovm⟩
        rw [i3 mo2.1 hnd.1]
        exact hlook
      · exact i2 mo2 h
    · intro k hk
      simp only [List.map_cons, List.mem_cons] at hk
      push_neg at hk
      rw [i3 k hk.2]
      exact hlookne k hk.1

theorem map_fst_views_map (l : List (Nat × MarketState)) :
    (l.map (fun m => (m.1, order_views m.2.book))).map Prod.fst = l.map Prod.fst :=
  map_fst_keyed_map (fun ms => order_views ms.book) l

theorem lookupKey_views_map (l : List (Nat × MarketState)) (k : Nat) :
    lookupKey (l.map (fun m => (m.1, order_views m.2.book))) k =
      (lookupKey l k).map (fun ms => order_views ms.book) :=
  lookupKey_keyed_map (fun ms => order_views ms.book) l k

theorem restore_snapshot_general (st : EngineState) (cfgs : List MarketConfig)
    (risk : RiskEngine)
    (hkeys2 : st.orderbooks.map Prod.fst = cfgs.map MarketConfig.market_id)
    (hnd2 : (st.orderbooks.map Prod.fst).Nodup)
    (hpos2 : ∀ mo ∈ st.orderbooks, ∀ v ∈ mo.2, 0 < v.remaining) :
    (EngineShard.restore st cfgs risk).snapshot = st := by
  have hnewkeys : (EngineShard.new st.shard_id cfgs risk).markets.map Prod.fst =
      cfgs.map MarketConfig.market_id := by
    simp only [EngineShard.new]
    have hini : (([] : List (Nat × MarketState)).map Prod.fst ++
        cfgs.map MarketConfig.market_id).Nodup := by
      simpa using (hkeys2 ▸ hnd2)
    simpa using newMarkets_keys cfgs [] hini
  have hnewempty : ∀ k ms,
      lookupKey (EngineShard.new st.shard_id cfgs risk).markets k = some ms →
      ms.book = OrderBook.empty := by
    intro k ms hl
    have hmem := mem_of_lookupKey_eq_some hl
    revert hmem
    simp only [EngineShard.new]
    intro hmem
    exact newMarkets_empty cfgs [] (by simp) (k, ms) hmem
  simp only [EngineShard.restore]
  set sh1 : EngineShard :=
    { EngineShard.new st.shard_id cfgs risk with
      engine_seq := st.engine_seq,
      next_order_id := st.next_order_id,
      risk := { (EngineShard.new st.shard_id cfgs risk).risk with state := st.risk_state } }
    with hsh1
  have hsh1markets : sh1.markets = (EngineShard.new st.shard_id cfgs risk).markets := by
    rw [hsh1]
  have hemp : ∀ mo ∈ st.orderbooks, ∃ ms,
      lookupKey sh1.markets mo.1 = some ms ∧ ms.book = OrderBook.empty := by
    intro mo hmo
    have hmemk : mo.1 ∈ cfgs.map MarketConfig.market_id := by
      rw [← hkeys2]
      exact List.mem_map.mpr ⟨mo, hmo, rfl⟩
    have hsome : (lookupKey sh1.markets mo.1).isSome := by
      rw [hsh1markets, lookupKey_isSome_iff, hnewkeys]
      exact hmemk
    cases hl : lookupKey sh1.markets mo.1 with
    | none =>
      rw [hl] at hsome
      simp at hsome
    | some ms =>
      refine ⟨ms, rfl, ?_⟩
      rw [hsh1markets] at hl
      exact hnewempty mo.1 ms hl
  obtain ⟨sp1, sp2, sp3⟩ := restore_markets_spec st.orderbooks sh1 hnd2 hpos2 hemp
  obtain ⟨f1, f2, f3, f4⟩ := restore_foldl_frame st.orderbooks sh1
  have hob : (List.foldl restoreMarket sh1 st.orderbooks).markets.map
      (fun m => (m.1, order_views m.2.book)) = st.orderbooks := by
    apply assoc_ext
    · rw [map_fst_views_map, sp1, hsh1markets, hnewkeys, ← hkeys2]
    · rw [map_fst_views_map, sp1, hsh1markets, hnewkeys, ← hkeys2]
      exact hnd2
    · intro k
      rw [lookupKey_views_map]
      by_cases hk : k ∈ st.orderbooks.map Prod.fst
      · obtain ⟨mo, hmo, hmk⟩ := List.mem_map.mp hk
        obtain ⟨ms, hl, hvws⟩ := sp2 mo hmo
        subst hmk
        rw [hl]
        have hmo2 : (mo.1, mo.2) ∈ st.orderbooks := hmo
        rw [lookupKey_of_mem_nodup hnd2 hmo2]
        simp [hvws]
      · have hk2 : k ∉ sh1.markets.map Prod.fst := by
          rw [hsh1markets, hnewkeys, ← hkeys2]
          exact hk
        rw [sp3 k hk, lookupKey_eq_none_of_not_mem hk2,
          lookupKey_eq_none_of_not_mem hk]
        rfl
  have hshid : (List.foldl restoreMarket sh1 st.orderbooks).shard_id = st.shard_id := by
    rw [f1, hsh1]
    simp [EngineShard.new]
  have hseq : (List.foldl restoreMarket sh1 st.orderbooks).engine_seq = st.engine_seq := by
    rw [f2, hsh1]
  have hnid : (List.foldl restoreMarket sh1 st.orderbooks).next_order_id = st.next_order_id := by
    rw [f3, hsh1]
  have hrs : (List.foldl restoreMarket sh1 st.orderbooks).risk.state = st.risk_state := by
    rw [f4, hsh1]
  cases st with
  | mk sid seq nid obs rstt =>
    simp only [EngineShard.snapshot, EngineState.mk.injEq]
    exact ⟨hshid, hseq, hnid, hob, hrs⟩

/-- Claim C7: for a shard whose market keys match the configuration list (one
entry per market, distinct ids) and whose resting orders all have positive
remaining quantity, `snapshot` is a fixed point of `restore`:
`snapshot(restore(snapshot(s))) = snapshot(s)` at the level of the
`EngineState` value serialized by the codec, each order re-inserted with its
original `ingress_seq` and each book's view list restored verbatim (hence in
time priority order). -/
theorem c7_snapshot_restore_fixed_point (s : EngineShard) (cfgs : List MarketConfig)
    (risk : RiskEngine)
    (hkeys : s.markets.map Prod.fst = cfgs.map MarketConfig.market_id)
    (hnd : (s.markets.map Prod.fst).Nodup)
    (hpos : ∀ m ∈ s.markets, ∀ v ∈ order_views m.2.book, 0 < v.remaining) :
    (EngineShard.restore s.snapshot cfgs risk).snapshot = s.snapshot := by
  apply restore_snapshot_general
  · show (s.markets.map (fun m => (m.1, order_views m.2.book))).map Prod.fst =
      cfgs.map MarketConfig.market_id
    rw [map_fst_views_map]
    exact hkeys
  · show ((s.markets.map (fun m => (m.1, order_views m.2.book))).map Prod.fst).Nodup
    rw [map_fst_views_map]
    exact hnd
  · intro mo hmo v hv
    have hmo2 : mo ∈ s.markets.map (fun m => (m.1, order_views m.2.book)) := hmo
    obtain ⟨m, hm, hmk⟩ := List.mem_map.mp hmo2
    rw [← hmk] at hv
    exact hpos m hm v hv

/-- Witness for C7: a one-market shard with one resting bid of quantity 5. -/
theorem c7_witness :
    c7Shard.markets.map Prod.fst = [marketFixture].map MarketConfig.market_id ∧
    (c7Shard.markets.map Prod.fst).Nodup ∧
    (EngineShard.restore c7Shard.snapshot [marketFixture] riskFixture).snapshot =
      c7Shard.snapshot :=
  ⟨rfl, by decide,
    c7_snapshot_restore_fixed_point c7Shard [marketFixture] riskFixture rfl (by decide)
      (by decide)⟩

theorem WF_empty : WF OrderBook.empty := by
  constructor <;> simp [OrderBook.empty, lookupKey]

theorem mem_setKey_elim_nodup {α : Type} :
    ∀ {l : List (Nat × α)} {k : Nat} {v : α} {pl : Nat × α},
      (l.map Prod.fst).Nodup → pl ∈ setKey l k v →
      pl = (k, v) ∨ (pl ∈ l ∧ pl.1 ≠ k) := by
  intro l
  induction l with
  | nil =>
    intro k v pl _ h
    simp [setKey] at h
  | cons hd tl ih =>
    intro k v pl hnd h
    obtain ⟨k', v'⟩ := hd
    simp only [List.map_cons, List.nodup_cons] at hnd
    by_cases hk : k' = k
    · subst hk
      rw [setKey, if_pos rfl] at h
      rcases List.mem_cons.mp h with h1 | h1
      · exact Or.inl h1
      · refine Or.inr ⟨List.mem_cons_of_mem _ h1, ?_⟩
        intro hh
        exact hnd.1 (hh ▸ List.mem_map.mpr ⟨pl, h1, rfl⟩)
    · rw [setKey, if_neg hk] at h
      rcases List.mem_cons.mp h with h1 | h1
      · subst h1
        exact Or.inr ⟨List.mem_cons_self _ _, fun hh => hk (by exact hh)⟩
      · rcases ih hnd.2 h1 with h2 | h2
        · exact Or.inl h2
        · exact Or.inr ⟨List.mem_cons_of_mem _ h2.1, h2.2⟩

theorem node_of_queue_bids {b : OrderBook} (hwf : WF b) {pl : Nat × Level}
    (hpl : pl ∈ b.bids) {k : Nat} (hk : k ∈ pl.2.queue) {n : OrderNode}
    (hn : lookupKey b.orders k = some n) :
    n.side = Side.Buy ∧ n.price_ticks = pl.1 := by
  obtain ⟨n', hn', hs, hp⟩ := hwf.agreeBids pl hpl k hk
  rw [hn] at hn'
  cases hn'
  exact ⟨hs, hp⟩

theorem node_of_queue_asks {b : OrderBook} (hwf : WF b) {pl : Nat × Level}
    (hpl : pl ∈ b.asks) {k : Nat} (hk : k ∈ pl.2.queue) {n : OrderNode}
    (hn : lookupKey b.orders k = some n) :
    n.side = Side.Sell ∧ n.price_ticks = pl.1 := by
  obtain ⟨n', hn', hs, hp⟩ := hwf.agreeAsks pl hpl k hk
  rw [hn] at hn'
  cases hn'
  exact ⟨hs, hp⟩

theorem arenaSum_eraseKey {b : List (Nat × OrderNode)} {k : Nat} {n : OrderNode}
    (hnd : (b.map Prod.fst).Nodup) (hl : lookupKey b k = some n) :
    ((eraseKey b k).map (fun kn => kn.2.remaining)).sum + n.remaining =
      (b.map (fun kn => kn.2.remaining)).sum := by
  have hperm := List.Perm.map (fun kn : Nat × OrderNode => kn.2.remaining)
    (eraseKey_perm_of_lookup hnd hl)
  rw [List.Perm.sum_eq hperm]
  simp
  omega

theorem cancel_surgery_bids (b : OrderBook) (hwf : WF b) (idx oid : Nat) (node : OrderNode)
    (hnode : lookupKey b.orders idx = some node) (hside : node.side = Side.Buy)
    (l : Level) (hllb : lookupKey b.bids node.price_ticks = some l)
    (hmem : idx ∈ l.queue) :
    WF { b with
         bids := setKey b.bids node.price_ticks
           ⟨l.queue.erase idx, l.total_qty - node.remaining⟩,
         orders := eraseKey b.orders idx,
         free := idx :: b.free,
         order_index := eraseKey b.order_index oid } := by
  have hplmem : (node.price_ticks, l) ∈ b.bids := mem_of_lookupKey_eq_some hllb
  have hqnd : l.queue.Nodup := hwf.queueNodupBids (node.price_ticks, l) hplmem
  have knotin_asks : ∀ pl ∈ b.asks, idx ∉ pl.2.queue := by
    intro pl hpl hk
    obtain ⟨hs, hp⟩ := node_of_queue_asks hwf hpl hk hnode
    rw [hside] at hs
    exact Side.noConfusion hs
  have knotin_otherbids : ∀ pl ∈ b.bids, pl.1 ≠ node.price_ticks → idx ∉ pl.2.queue := by
    intro pl hpl hne hk
    obtain ⟨hs, hp⟩ := node_of_queue_bids hwf hpl hk hnode
    exact hne hp.symm
  constructor
  · rw [map_fst_setKey]
    exact hwf.bidsKeysNodup
  · exact hwf.asksKeysNodup
  · rw [map_fst_eraseKey]
    exact hwf.arenaKeysNodup.erase idx
  · intro pl hpl
    rcases mem_setKey_elim_nodup hwf.bidsKeysNodup hpl with h | ⟨h, hne⟩
    · rw [h]
      exact hqnd.erase idx
    · exact hwf.queueNodupBids pl h
  · intro pl hpl
    exact hwf.queueNodupAsks pl hpl
  · intro pl hpl k hk
    rcases mem_setKey_elim_nodup hwf.bidsKeysNodup hpl with h | ⟨h, hne⟩
    · subst h
      have hkq : k ∈ l.queue := List.mem_of_mem_erase hk
      have hkne : k ≠ idx := by
        intro hh
        subst hh
        exact hqnd.not_mem_erase hk
      obtain ⟨n, hn, hs, hp⟩ := hwf.agreeBids _ hplmem k hkq
      refine ⟨n, ?_, hs, hp⟩
      rw [lookupKey_eraseKey_ne _ _ _ hkne]
      exact hn
    · have hknidx : k ≠ idx := by
        intro hh
        exact knotin_otherbids pl h hne (hh ▸ hk)
      obtain ⟨n, hn, hs, hp⟩ := hwf.agreeBids pl h k hk
      refine ⟨n, ?_, hs, hp⟩
      rw [lookupKey_eraseKey_ne _ _ _ hknidx]
      exact hn
  · intro pl hpl k hk
    have hknidx : k ≠ idx := by
      intro hh
      exact knotin_asks pl hpl (hh ▸ hk)
    obtain ⟨n, hn, hs, hp⟩ := hwf.agreeAsks pl hpl k hk
    refine ⟨n, ?_, hs, hp⟩
    rw [lookupKey_eraseKey_ne _ _ _ hknidx]
    exact hn
  · intro kn hkn
    have hkmem : kn ∈ b.orders := mem_of_mem_eraseKey hkn
    have hknidx : kn.1 ≠ idx := by
      have hmk : kn.1 ∈ (eraseKey b.orders idx).map Prod.fst :=
        List.mem_map.mpr ⟨kn, hkn, rfl⟩
      rw [map_fst_eraseKey] at hmk
      intro hh
      exact hwf.arenaKeysNodup.not_mem_erase (hh ▸ hmk)
    obtain ⟨l', hl', hk'⟩ := hwf.nodeInLevel kn hkmem
    by_cases hsame : kn.2.side = Side.Buy ∧ kn.2.price_ticks = node.price_ticks
    · have hleq : l' = l := by
        have hthis : lookupLevel b kn.2.side kn.2.price_ticks = some l := by
          simp only [lookupLevel, hsame.1, hsame.2, hllb]
        rw [hthis] at hl'
        cases hl'
        rfl
      subst hleq
      refine ⟨⟨l'.queue.erase idx, l'.total_qty - node.remaining⟩, ?_, ?_⟩
      · simp only [lookupLevel, hsame.1]
        rw [hsame.2, lookupKey_setKey_self, if_pos (by simp [hllb])]
      · exact (List.mem_erase_of_ne hknidx).mpr hk'
    · refine ⟨l', ?_, hk'⟩
      cases hsd : kn.2.side with
      | Buy =>
        have hpne : kn.2.price_ticks ≠ node.price_ticks := by
          intro hh
          exact hsame ⟨hsd, hh⟩
        simp only [lookupLevel, hsd] at hl' ⊢
        rw [lookupKey_setKey_ne _ _ _ _ hpne]
        exact hl'
      | Sell =>
        simp only [lookupLevel, hsd] at hl' ⊢
        exact hl'
  · intro kn hkn
    exact hwf.nodePos kn (mem_of_mem_eraseKey hkn)
  · intro kn hkn
    exact hwf.arenaLtCap kn (mem_of_mem_eraseKey hkn)
  · intro k hk
    rcases List.mem_cons.mp hk with h | h
    · subst h
      exact hwf.arenaLtCap (k, node) (mem_of_lookupKey_eq_some hnode)
    · exact hwf.freeLtCap k h
  · intro k hk
    rcases List.mem_cons.mp hk with h | h
    · subst h
      exact lookupKey_eraseKey_self _ _ hwf.arenaKeysNodup
    · have hkidx : k ≠ idx := by
        intro hh
        have h2 := hwf.freeNotInArena k h
        rw [hh, hnode] at h2
        exact Option.noConfusion h2
      rw [lookupKey_eraseKey_ne _ _ _ hkidx]
      exact hwf.freeNotInArena k h
  · rw [List.nodup_cons]
    refine ⟨?_, hwf.freeNodup⟩
    intro hh
    have h2 := hwf.freeNotInArena idx hh
    rw [hnode] at h2
    exact Option.noConfusion h2
  · intro pl hpl
    rcases mem_setKey_elim_nodup hwf.bidsKeysNodup hpl with h | ⟨h, hne⟩
    · subst h
      have hold : l.total_qty = sumQueue b.orders l.queue := hwf.levelsBids _ hplmem
      have hsq := sumQueue_erase hqnd hmem hnode
      have hcongr : sumQueue (eraseKey b.orders idx) (l.queue.erase idx) =
          sumQueue b.orders (l.queue.erase idx) :=
        sumQueue_congr (fun k hk => lookupKey_eraseKey_ne _ _ _
          (fun hh => hqnd.not_mem_erase (hh ▸ hk)))
      simp only
      rw [hcongr]
      omega
    · have hold := hwf.levelsBids pl h
      have hcongr : sumQueue (eraseKey b.orders idx) pl.2.queue =
          sumQueue b.orders pl.2.queue :=
        sumQueue_congr (fun k hk => lookupKey_eraseKey_ne _ _ _
          (fun hh => knotin_otherbids pl h hne (hh ▸ hk)))
      rw [hcongr]
      exact hold
  · intro pl hpl
    have hcongr : sumQueue (eraseKey b.orders idx) pl.2.queue =
        sumQueue b.orders pl.2.queue :=
      sumQueue_congr (fun k hk => lookupKey_eraseKey_ne _ _ _
        (fun hh => knotin_asks pl hpl (hh ▸ hk)))
    rw [hcongr]
    exact hwf.levelsAsks pl hpl

theorem cancel_surgery_asks (b : OrderBook) (hwf : WF b) (idx oid : Nat) (node : OrderNode)
    (hnode : lookupKey b.orders idx = some node) (hside : node.side = Side.Sell)
    (l : Level) (hllb : lookupKey b.asks node.price_ticks = some l)
    (hmem : idx ∈ l.queue) :
    WF { b with
         asks := setKey b.asks node.price_ticks
           ⟨l.queue.erase idx, l.total_qty - node.remaining⟩,
         orders := eraseKey b.orders idx,
         free := idx :: b.free,
         order_index := eraseKey b.order_index oid } := by
  have hplmem : (node.price_ticks, l) ∈ b.asks := mem_of_lookupKey_eq_some hllb
  have hqnd : l.queue.Nodup := hwf.queueNodupAsks (node.price_ticks, l) hplmem
  have knotin_bids : ∀ pl ∈ b.bids, idx ∉ pl.2.queue := by
    intro pl hpl hk
    obtain ⟨hs, hp⟩ := node_of_queue_bids hwf hpl hk hnode
    rw [hside] at hs
    exact Side.noConfusion hs
  have knotin_otherasks : ∀ pl ∈ b.asks, pl.1 ≠ node.price_ticks → idx ∉ pl.2.queue := by
    intro pl hpl hne hk
    obtain ⟨hs, hp⟩ := node_of_queue_asks hwf hpl hk hnode
    exact hne hp.symm
  constructor
  · exact hwf.bidsKeysNodup
  · rw [map_fst_setKey]
    exact hwf.asksKeysNodup
  · rw [map_fst_eraseKey]
    exact hwf.arenaKeysNodup.erase idx
  · intro pl hpl
    exact hwf.queueNodupBids pl hpl
  · intro pl hpl
    rcases mem_setKey_elim_nodup hwf.asksKeysNodup hpl with h | ⟨h, hne⟩
    · rw [h]
      exact hqnd.erase idx
    · exact hwf.queueNodupAsks pl h
  · intro pl hpl k hk
    have hknidx : k ≠ idx := by
      intro hh
      exact knotin_bids pl hpl (hh ▸ hk)
    obtain ⟨n, hn, hs, hp⟩ := hwf.agreeBids pl hpl k hk
    refine ⟨n, ?_, hs, hp⟩
    rw [lookupKey_eraseKey_ne _ _ _ hknidx]
    exact hn
  · intro pl hpl k hk
    rcases mem_setKey_elim_nodup hwf.asksKeysNodup hpl with h | ⟨h, hne⟩
    · subst h
      have hkq : k ∈ l.queue := List.mem_of_mem_erase hk
      have hkne : k ≠ idx := by
        intro hh
        subst hh
        exact hqnd.not_mem_erase hk
      obtain ⟨n, hn, hs, hp⟩ := hwf.agreeAsks _ hplmem k hkq
      refine ⟨n, ?_, hs, hp⟩
      rw [lookupKey_eraseKey_ne _ _ _ hkne]
      exact hn
    · have hknidx : k ≠ idx := by
        intro hh
        exact knotin_otherasks pl h hne (hh ▸ hk)
      obtain ⟨n, hn, hs, hp⟩ := hwf.agreeAsks pl h k hk
      refine ⟨n, ?_, hs, hp⟩
      rw [lookupKey_eraseKey_ne _ _ _ hknidx]
      exact hn
  · intro kn hkn
    have hkmem : kn ∈ b.orders := mem_of_mem_eraseKey hkn
    have hknidx : kn.1 ≠ idx := by
      have hmk : kn.1 ∈ (eraseKey b.orders idx).map Prod.fst :=
        List.mem_map.mpr ⟨kn, hkn, rfl⟩
      rw [map_fst_eraseKey] at hmk
      intro hh
      exact hwf.arenaKeysNodup.not_mem_erase (hh ▸ hmk)
    obtain ⟨l', hl', hk'⟩ := hwf.nodeInLevel kn hkmem
    by_cases hsame : kn.2.side = Side.Sell ∧ kn.2.price_ticks = node.price_ticks
    · have hleq : l' = l := by
        have hthis : lookupLevel b kn.2.side kn.2.price_ticks = some l := by
          simp only [lookupLevel, hsame.1, hsame.2, hllb]
        rw [hthis] at hl'
        cases hl'
        rfl
      subst hleq
      refine ⟨⟨l'.queue.erase idx, l'.total_qty - node.remaining⟩, ?_, ?_⟩
      · simp only [lookupLevel, hsame.1]
        rw [hsame.2, lookupKey_setKey_self, if_pos (by simp [hllb])]
      · exact (List.mem_erase_of_ne hknidx).mpr hk'
    · refine ⟨l', ?_, hk'⟩
      cases hsd : kn.2.side with
      | Buy =>
        simp only [lookupLevel, hsd] at hl' ⊢
        exact hl'
      | Sell =>
        have hpne : kn.2.price_ticks ≠ node.price_ticks := by
          intro hh
          exact hsame ⟨hsd, hh⟩
        simp only [lookupLevel, hsd] at hl' ⊢
        rw [lookupKey_setKey_ne _ _ _ _ hpne]
        exact hl'
  · intro kn hkn
    exact hwf.nodePos kn (mem_of_mem_eraseKey hkn)
  · intro kn hkn
    exact hwf.arenaLtCap kn (mem_of_mem_eraseKey hkn)
  · intro k hk
    rcases List.mem_cons.mp hk with h | h
    · subst h
      exact hwf.arenaLtCap (k, node) (mem_of_lookupKey_eq_some hnode)
    · exact hwf.freeLtCap k h
  · intro k hk
    rcases List.mem_cons.mp hk with h | h
    · subst h
      exact lookupKey_eraseKey_self _ _ hwf.arenaKeysNodup
    · have hkidx : k ≠ idx := by
        intro hh
        have h2 := hwf.freeNotInArena k h
        rw [hh, hnode] at h2
        exact Option.noConfusion h2
      rw [lookupKey_eraseKey_ne _ _ _ hkidx]
      exact hwf.freeNotInArena k h
  · rw [List.nodup_cons]
    refine ⟨?_, hwf.freeNodup⟩
    intro hh
    have h2 := hwf.freeNotInArena idx hh
    rw [hnode] at h2
    exact Option.noConfusion h2
  · intro pl hpl
    have hcongr : sumQueue (eraseKey b.orders idx) pl.2.queue =
        sumQueue b.orders pl.2.queue :=
      sumQueue_congr (fun k hk => lookupKey_eraseKey_ne _ _ _
        (fun hh => knotin_bids pl hpl (hh ▸ hk)))
    rw [hcongr]
    exact hwf.levelsBids pl hpl
  · intro pl hpl
    rcases mem_setKey_elim_nodup hwf.asksKeysNodup hpl with h | ⟨h, hne⟩
    · subst h
      have hold : l.total_qty = sumQueue b.orders l.queue := hwf.levelsAsks _ hplmem
      have hsq := sumQueue_erase hqnd hmem hnode
      have hcongr : sumQueue (eraseKey b.orders idx) (l.queue.erase idx) =
          sumQueue b.orders (l.queue.erase idx) :=
        sumQueue_congr (fun k hk => lookupKey_eraseKey_ne _ _ _
          (fun hh => hqnd.not_mem_erase (hh ▸ hk)))
      simp only
      rw [hcongr]
      omega
    · have hold := hwf.levelsAsks pl h
      have hcongr : sumQueue (eraseKey b.orders idx) pl.2.queue =
          sumQueue b.orders pl.2.queue :=
        sumQueue_congr (fun k hk => lookupKey_eraseKey_ne _ _ _
          (fun hh => knotin_otherasks pl h hne (hh ▸ hk)))
      rw [hcongr]
      exact hold

theorem cancel_wf (b : OrderBook) (hwf : WF b) (oid : Nat) :
    WF (cancel b oid).2 ∧ arenaSum (cancel b oid).2 ≤ arenaSum b := by
  cases hidx : lookupKey b.order_index oid with
  | none =>
    simp only [cancel, hidx]
    exact ⟨hwf, le_refl _⟩
  | some idx =>
    cases hnode : lookupKey b.orders idx with
    | none =>
      simp only [cancel, hidx, hnode]
      exact ⟨hwf, le_refl _⟩
    | some node =>
      simp only [cancel, hidx, hnode]
      obtain ⟨l, hll, hmem⟩ := hwf.nodeInLevel (idx, node) (mem_of_lookupKey_eq_some hnode)
      have hsum := arenaSum_eraseKey hwf.arenaKeysNodup hnode
      cases hside : node.side with
      | Buy =>
        rw [hside] at hll
        simp only [lookupLevel] at hll
        have hdet : detach_from_level b idx node =
            { b with bids := setKey b.bids node.price_ticks ⟨l.queue.erase idx, l.total_qty - node.remaining⟩ } := by
          simp only [detach_from_level, hside, hll]
        rw [hdet]
        refine ⟨cancel_surgery_bids b hwf idx oid node hnode hside l hll hmem, ?_⟩
        show ((eraseKey b.orders idx).map (fun kn => kn.2.remaining)).sum ≤
          (b.orders.map (fun kn => kn.2.remaining)).sum
        omega
      | Sell =>
        rw [hside] at hll
        simp only [lookupLevel] at hll
        have hdet : detach_from_level b idx node =
            { b with asks := setKey b.asks node.price_ticks ⟨l.queue.erase idx, l.total_qty - node.remaining⟩ } := by
          simp only [detach_from_level, hside, hll]
        rw [hdet]
        refine ⟨cancel_surgery_asks b hwf idx oid node hnode hside l hll hmem, ?_⟩
        show ((eraseKey b.orders idx).map (fun kn => kn.2.remaining)).sum ≤
          (b.orders.map (fun kn => kn.2.remaining)).sum
        omega

theorem lookupKey_append_single_ne {α : Type} (l : List (Nat × α)) (k0 j : Nat) (v0 : α)
    (h : j ≠ k0) : lookupKey (l ++ [(k0, v0)]) j = lookupKey l j := by
  cases hl : lookupKey l j with
  | some v =>
    rw [lookupKey_append_left _ (by simp [hl])]
    exact hl
  | none =>
    rw [lookupKey_append_right _ hl]
    simp only [lookupKey]
    rw [if_neg (fun hh => h hh.symm)]

theorem lookupKey_append_single_self {α : Type} (l : List (Nat × α)) (k0 : Nat) (v0 : α)
    (h : lookupKey l k0 = none) : lookupKey (l ++ [(k0, v0)]) k0 = some v0 := by
  rw [lookupKey_append_right _ h]
  simp [lookupKey]

theorem insertSortedKey_perm {α : Type} :
    ∀ (l : List (Nat × α)) (k : Nat) (v : α), lookupKey l k = none →
      (insertSortedKey l k v).Perm ((k, v) :: l) := by
  intro l
  induction l with
  | nil =>
    intro k v _
    simp [insertSortedKey]
  | cons hd rest ih =>
    intro k v hl
    obtain ⟨k', v'⟩ := hd
    simp only [lookupKey] at hl
    by_cases hkk : k' = k
    · rw [if_pos hkk] at hl
      exact Option.noConfusion hl
    · rw [if_neg hkk] at hl
      rw [insertSortedKey]
      by_cases hlt : k < k'
      · rw [if_pos hlt]
      · rw [if_neg hlt, if_neg (fun hh => hkk hh.symm)]
        exact ((ih k v hl).cons _).trans (List.Perm.swap _ _ _)

theorem not_mem_keys_of_lookup_none {α : Type} {l : List (Nat × α)} {k : Nat}
    (h : lookupKey l k = none) : k ∉ l.map Prod.fst := by
  intro hm
  have := (lookupKey_isSome_iff l k).mpr hm
  rw [h] at this
  exact Bool.noConfusion this

theorem bump_bids_wf (b : OrderBook) (hwf : WF b) (node : OrderNode) (idx : Nat)
    (orders2 : List (Nat × OrderNode)) (free2 : List Nat) (cap2 : Nat)
    (oi2 : List (Nat × Nat))
    (hn1 : lookupKey orders2 idx = some node)
    (hn2 : ∀ j, j ≠ idx → lookupKey orders2 j = lookupKey b.orders j)
    (hn3 : (orders2.map Prod.fst).Nodup)
    (hn4 : ∀ kn ∈ orders2, kn = (idx, node) ∨ kn ∈ b.orders)
    (hidxdead : lookupKey b.orders idx = none)
    (hfree2 : ∀ j ∈ free2, j ∈ b.free ∧ j ≠ idx)
    (hfree2nd : free2.Nodup)
    (hcap2 : b.cap ≤ cap2)
    (hidxcap : idx < cap2)
    (hnpos : 0 < node.remaining)
    (hbound : arenaSum b + node.remaining < U64MOD)
    (hsideB : node.side = Side.Buy) :
    WF { bids := bumpLevel b.bids node.price_ticks idx node.remaining,
         asks := b.asks, orders := orders2, free := free2, cap := cap2,
         order_index := oi2 } := by
  have harf : arenaSum b = (b.orders.map (fun kn => kn.2.remaining)).sum := rfl
  have hfreshb : ∀ pl ∈ b.bids, idx ∉ pl.2.queue := by
    intro pl hpl hk
    obtain ⟨n, hn, _, _⟩ := hwf.agreeBids pl hpl idx hk
    rw [hidxdead] at hn
    exact Option.noConfusion hn
  have hfresha : ∀ pl ∈ b.asks, idx ∉ pl.2.queue := by
    intro pl hpl hk
    obtain ⟨n, hn, _, _⟩ := hwf.agreeAsks pl hpl idx hk
    rw [hidxdead] at hn
    exact Option.noConfusion hn
  have hsq_pre_b : ∀ pl ∈ b.bids, sumQueue orders2 pl.2.queue = sumQueue b.orders pl.2.queue := by
    intro pl hpl
    exact sumQueue_congr (fun j hj => hn2 j (fun hh => hfreshb pl hpl (hh ▸ hj)))
  have hsq_pre_a : ∀ pl ∈ b.asks, sumQueue orders2 pl.2.queue = sumQueue b.orders pl.2.queue := by
    intro pl hpl
    exact sumQueue_congr (fun j hj => hn2 j (fun hh => hfresha pl hpl (hh ▸ hj)))
  have hsqidx : sumQueue orders2 [idx] = node.remaining := by
    rw [sumQueue_cons_some hn1, sumQueue_nil]
    omega
  cases hlev : lookupKey b.bids node.price_ticks with
  | some level =>
    have hplmem : (node.price_ticks, level) ∈ b.bids := mem_of_lookupKey_eq_some hlev
    have hqnd : level.queue.Nodup := hwf.queueNodupBids _ hplmem
    have hlive : ∀ k ∈ level.queue, (lookupKey b.orders k).isSome := by
      intro k hk
      obtain ⟨n, hn, _, _⟩ := hwf.agreeBids _ hplmem k hk
      simp [hn]
    have htot : level.total_qty = sumQueue b.orders level.queue := hwf.levelsBids _ hplmem
    have hsqle := sumQueue_le_arena hwf.arenaKeysNodup hqnd hlive
    have huadd : uadd64 level.total_qty node.remaining =
        level.total_qty + node.remaining := uadd64_of_lt (by omega)
    have hbump : bumpLevel b.bids node.price_ticks idx node.remaining =
        setKey b.bids node.price_ticks ⟨level.queue ++ [idx], uadd64 level.total_qty node.remaining⟩ := by
      simp only [bumpLevel, hlev]
    rw [hbump]
    constructor
    · rw [map_fst_setKey]
      exact hwf.bidsKeysNodup
    · exact hwf.asksKeysNodup
    · exact hn3
    · intro pl hpl
      rcases mem_setKey_elim_nodup hwf.bidsKeysNodup hpl with h | ⟨h, hne⟩
      · rw [h]
        refine List.Nodup.append hqnd (List.nodup_singleton _) ?_
        intro a ha hb
        rw [List.mem_singleton] at hb
        subst hb
        exact hfreshb _ hplmem ha
      · exact hwf.queueNodupBids pl h
    · intro pl hpl
      exact hwf.queueNodupAsks pl hpl
    · intro pl hpl k hk
      rcases mem_setKey_elim_nodup hwf.bidsKeysNodup hpl with h | ⟨h, hne⟩
      · subst h
        rcases List.mem_append.mp hk with h1 | h1
        · obtain ⟨n, hn, hs, hp⟩ := hwf.agreeBids _ hplmem k h1
          refine ⟨n, ?_, hs, hp⟩
          rw [hn2 k (fun hh => hfreshb _ hplmem (hh ▸ h1))]
          exact hn
        · rw [List.mem_singleton] at h1
          subst h1
          exact ⟨node, hn1, hsideB, rfl⟩
      · have hkne : k ≠ idx := fun hh => hfreshb pl h (hh ▸ hk)
        obtain ⟨n, hn, hs, hp⟩ := hwf.agreeBids pl h k hk
        refine ⟨n, ?_, hs, hp⟩
        rw [hn2 k hkne]
        exact hn
    · intro pl hpl k hk
      have hkne : k ≠ idx := fun hh => hfresha pl hpl (hh ▸ hk)
      obtain ⟨n, hn, hs, hp⟩ := hwf.agreeAsks pl hpl k hk
      refine ⟨n, ?_, hs, hp⟩
      rw [hn2 k hkne]
      exact hn
    · intro kn hkn
      rcases hn4 kn hkn with h | h
      · subst h
        refine ⟨⟨level.queue ++ [idx], uadd64 level.total_qty node.remaining⟩, ?_, ?_⟩
        · simp only [lookupLevel, hsideB]
          rw [lookupKey_setKey_self, if_pos (by simp [hlev])]
        · simp
      · obtain ⟨l', hl', hk'⟩ := hwf.nodeInLevel kn h
        by_cases hsame : kn.2.side = Side.Buy ∧ kn.2.price_ticks = node.price_ticks
        · have hleq : l' = level := by
            have hthis : lookupLevel b kn.2.side kn.2.price_ticks = some level := by
              simp only [lookupLevel, hsame.1, hsame.2, hlev]
            rw [hthis] at hl'
            cases hl'
            rfl
          subst hleq
          refine ⟨⟨l'.queue ++ [idx], uadd64 l'.total_qty node.remaining⟩, ?_, ?_⟩
          · simp only [lookupLevel, hsame.1]
            rw [hsame.2, lookupKey_setKey_self, if_pos (by simp [hlev])]
          · exact List.mem_append_left _ hk'
        · refine ⟨l', ?_, hk'⟩
          cases hsd : kn.2.side with
          | Buy =>
            have hpne : kn.2.price_ticks ≠ node.price_ticks := by
              intro hh
              exact hsame ⟨hsd, hh⟩
            simp only [lookupLevel, hsd] at hl' ⊢
            rw [lookupKey_setKey_ne _ _ _ _ hpne]
            exact hl'
          | Sell =>
            simp only [lookupLevel, hsd] at hl' ⊢
            exact hl'
    · intro kn hkn
      rcases hn4 kn hkn with h | h
      · rw [h]
        exact hnpos
      · exact hwf.nodePos kn h
    · intro kn hkn
      rcases hn4 kn hkn with h | h
      · rw [h]
        exact hidxcap
      · exact lt_of_lt_of_le (hwf.arenaLtCap kn h) hcap2
    · intro k hk
      exact lt_of_lt_of_le (hwf.freeLtCap k (hfree2 k hk).1) hcap2
    · intro k hk
      rw [hn2 k (hfree2 k hk).2]
      exact hwf.freeNotInArena k (hfree2 k hk).1
    · exact hfree2nd
    · intro pl hpl
      rcases mem_setKey_elim_nodup hwf.bidsKeysNodup hpl with h | ⟨h, hne⟩
      · subst h
        have hmk : sumQueue orders2 level.queue = sumQueue b.orders level.queue :=
          hsq_pre_b _ hplmem
        show uadd64 level.total_qty node.remaining =
          sumQueue orders2 (level.queue ++ [idx])
        rw [sumQueue_append, hsqidx, huadd, hmk]
        omega
      · rw [hsq_pre_b pl h]
        exact hwf.levelsBids pl h
    · intro pl hpl
      rw [hsq_pre_a pl hpl]
      exact hwf.levelsAsks pl hpl
  | none =>
    have hnotmem := not_mem_keys_of_lookup_none hlev
    have huadd0 : uadd64 0 node.remaining = node.remaining := by
      have := uadd64_of_lt (a := 0) (b := node.remaining) (by omega)
      omega
    have hbump : bumpLevel b.bids node.price_ticks idx node.remaining =
        insertSortedKey b.bids node.price_ticks ⟨[idx], uadd64 0 node.remaining⟩ := by
      simp only [bumpLevel, hlev]
    rw [hbump]
    have hperm := map_fst_insertSortedKey_perm b.bids node.price_ticks
      (⟨[idx], uadd64 0 node.remaining⟩ : Level) hnotmem
    constructor
    · exact hperm.nodup_iff.mpr (List.nodup_cons.mpr ⟨hnotmem, hwf.bidsKeysNodup⟩)
    · exact hwf.asksKeysNodup
    · exact hn3
    · intro pl hpl
      rcases mem_insertSortedKey_elim hpl with h | h
      · rw [h]
        exact List.nodup_singleton _
      · exact hwf.queueNodupBids pl h
    · intro pl hpl
      exact hwf.queueNodupAsks pl hpl
    · intro pl hpl k hk
      rcases mem_insertSortedKey_elim hpl with h | h
      · subst h
        rw [List.mem_singleton] at hk
        subst hk
        exact ⟨node, hn1, hsideB, rfl⟩
      · have hkne : k ≠ idx := fun hh => hfreshb pl h (hh ▸ hk)
        obtain ⟨n, hn, hs, hp⟩ := hwf.agreeBids pl h k hk
        refine ⟨n, ?_, hs, hp⟩
        rw [hn2 k hkne]
        exact hn
    · intro pl hpl k hk
      have hkne : k ≠ idx := fun hh => hfresha pl hpl (hh ▸ hk)
      obtain ⟨n, hn, hs, hp⟩ := hwf.agreeAsks pl hpl k hk
      refine ⟨n, ?_, hs, hp⟩
      rw [hn2 k hkne]
      exact hn
    · intro kn hkn
      rcases hn4 kn hkn with h | h
      · subst h
        refine ⟨⟨[idx], uadd64 0 node.remaining⟩, ?_, ?_⟩
        · simp only [lookupLevel, hsideB]
          rw [lookupKey_insertSortedKey_self]
        · simp
      · obtain ⟨l', hl', hk'⟩ := hwf.nodeInLevel kn h
        by_cases hsame : kn.2.side = Side.Buy ∧ kn.2.price_ticks = node.price_ticks
        · exfalso
          have hthis : lookupLevel b kn.2.side kn.2.price_ticks = none := by
            simp only [lookupLevel, hsame.1, hsame.2, hlev]
          rw [hthis] at hl'
          exact Option.noConfusion hl'
        · refine ⟨l', ?_, hk'⟩
          cases hsd : kn.2.side with
          | Buy =>
            have hpne : kn.2.price_ticks ≠ node.price_ticks := by
              intro hh
              exact hsame ⟨hsd, hh⟩
            simp only [lookupLevel, hsd] at hl' ⊢
            rw [lookupKey_insertSortedKey_ne _ _ _ _ hpne]
            exact hl'
          | Sell =>
            simp only [lookupLevel, hsd] at hl' ⊢
            exact hl'
    · intro kn hkn
      rcases hn4 kn hkn with h | h
      · rw [h]
        exact hnpos
      · exact hwf.nodePos kn h
    · intro kn hkn
      rcases hn4 kn hkn with h | h
      · rw [h]
        exact hidxcap
      · exact lt_of_lt_of_le (hwf.arenaLtCap kn h) hcap2
    · intro k hk
      exact lt_of_lt_of_le (hwf.freeLtCap k (hfree2 k hk).1) hcap2
    · intro k hk
      rw [hn2 k (hfree2 k hk).2]
      exact hwf.freeNotInArena k (hfree2 k hk).1
    · exact hfree2nd
    · intro pl hpl
      rcases mem_insertSortedKey_elim hpl with h | h
      · subst h
        show uadd64 0 node.remaining = sumQueue orders2 [idx]
        rw [huadd0, hsqidx]
      · rw [hsq_pre_b pl h]
        exact hwf.levelsBids pl h
    · intro pl hpl
      rw [hsq_pre_a pl hpl]
      exact hwf.levelsAsks pl hpl

theorem bump_asks_wf (b : OrderBook) (hwf : WF b) (node : OrderNode) (idx : Nat)
    (orders2 : List (Nat × OrderNode)) (free2 : List Nat) (cap2 : Nat)
    (oi2 : List (Nat × Nat))
    (hn1 : lookupKey orders2 idx = some node)
    (hn2 : ∀ j, j ≠ idx → lookupKey orders2 j = lookupKey b.orders j)
    (hn3 : (orders2.map Prod.fst).Nodup)
    (hn4 : ∀ kn ∈ orders2, kn = (idx, node) ∨ kn ∈ b.orders)
    (hidxdead : lookupKey b.orders idx = none)
    (hfree2 : ∀ j ∈ free2, j ∈ b.free ∧ j ≠ idx)
    (hfree2nd : free2.Nodup)
    (hcap2 : b.cap ≤ cap2)
    (hidxcap : idx < cap2)
    (hnpos : 0 < node.remaining)
    (hbound : arenaSum b + node.remaining < U64MOD)
    (hsideS : node.side = Side.Sell) :
    WF { bids := b.bids,
         asks := bumpLevel b.asks node.price_ticks idx node.remaining,
         orders := orders2, free := free2, cap := cap2,
         order_index := oi2 } := by
  have harf : arenaSum b = (b.orders.map (fun kn => kn.2.remaining)).sum := rfl
  have hfreshb : ∀ pl ∈ b.bids, idx ∉ pl.2.queue := by
    intro pl hpl hk
    obtain ⟨n, hn, _, _⟩ := hwf.agreeBids pl hpl idx hk
    rw [hidxdead] at hn
    exact Option.noConfusion hn
  have hfresha : ∀ pl ∈ b.asks, idx ∉ pl.2.queue := by
    intro pl hpl hk
    obtain ⟨n, hn, _, _⟩ := hwf.agreeAsks pl hpl idx hk
    rw [hidxdead] at hn
    exact Option.noConfusion hn
  have hsq_pre_b : ∀ pl ∈ b.bids, sumQueue orders2 pl.2.queue = sumQueue b.orders pl.2.queue := by
    intro pl hpl
    exact sumQueue_congr (fun j hj => hn2 j (fun hh => hfreshb pl hpl (hh ▸ hj)))
  have hsq_pre_a : ∀ pl ∈ b.asks, sumQueue orders2 pl.2.queue = sumQueue b.orders pl.2.queue := by
    intro pl hpl
    exact sumQueue_congr (fun j hj => hn2 j (fun hh => hfresha pl hpl (hh ▸ hj)))
  have hsqidx : sumQueue orders2 [idx] = node.remaining := by
    rw [sumQueue_cons_some hn1, sumQueue_nil]
    omega
  cases hlev : lookupKey b.asks node.price_ticks with
  | some level =>
    have hplmem : (node.price_ticks, level) ∈ b.asks := mem_of_lookupKey_eq_some hlev
    have hqnd : level.queue.Nodup := hwf.queueNodupAsks _ hplmem
    have hlive : ∀ k ∈ level.queue, (lookupKey b.orders k).isSome := by
      intro k hk
      obtain ⟨n, hn, _, _⟩ := hwf.agreeAsks _ hplmem k hk
      simp [hn]
    have htot : level.total_qty = sumQueue b.orders level.queue := hwf.levelsAsks _ hplmem
    have hsqle := sumQueue_le_arena hwf.arenaKeysNodup hqnd hlive
    have huadd : uadd64 level.total_qty node.remaining =
        level.total_qty + node.remaining := uadd64_of_lt (by omega)
    have hbump : bumpLevel b.asks node.price_ticks idx node.remaining =
        setKey b.asks node.price_ticks ⟨level.queue ++ [idx], uadd64 level.total_qty node.remaining⟩ := by
      simp only [bumpLevel, hlev]
    rw [hbump]
    constructor
    · exact hwf.bidsKeysNodup
    · rw [map_fst_setKey]
      exact hwf.asksKeysNodup
    · exact hn3
    · intro pl hpl
      exact hwf.queueNodupBids pl hpl
    · intro pl hpl
      rcases mem_setKey_elim_nodup hwf.asksKeysNodup hpl with h | ⟨h, hne⟩
      · rw [h]
        refine List.Nodup.append hqnd (List.nodup_singleton _) ?_
        intro a ha hb
        rw [List.mem_singleton] at hb
        subst hb
        exact hfresha _ hplmem ha
      · exact hwf.queueNodupAsks pl h
    · intro pl hpl k hk
      have hkne : k ≠ idx := fun hh => hfreshb pl hpl (hh ▸ hk)
      obtain ⟨n, hn, hs, hp⟩ := hwf.agreeBids pl hpl k hk
      refine ⟨n, ?_, hs, hp⟩
      rw [hn2 k hkne]
      exact hn
    · intro pl hpl k hk
      rcases mem_setKey_elim_nodup hwf.asksKeysNodup hpl with h | ⟨h, hne⟩
      · subst h
        rcases List.mem_append.mp hk with h1 | h1
        · obtain ⟨n, hn, hs, hp⟩ := hwf.agreeAsks _ hplmem k h1
          refine ⟨n, ?_, hs, hp⟩
          rw [hn2 k (fun hh => hfresha _ hplmem (hh ▸ h1))]
          exact hn
        · rw [List.mem_singleton] at h1
          subst h1
          exact ⟨node, hn1, hsideS, rfl⟩
      · have hkne : k ≠ idx := fun hh => hfresha pl h (hh ▸ hk)
        obtain ⟨n, hn, hs, hp⟩ := hwf.agreeAsks pl h k hk
        refine ⟨n, ?_, hs, hp⟩
        rw [hn2 k hkne]
        exact hn
    · intro kn hkn
      rcases hn4 kn hkn with h | h
      · subst h
        refine ⟨⟨level.queue ++ [idx], uadd64 level.total_qty node.remaining⟩, ?_, ?_⟩
        · simp only [lookupLevel, hsideS]
          rw [lookupKey_setKey_self, if_pos (by simp [hlev])]
        · simp
      · obtain ⟨l', hl', hk'⟩ := hwf.nodeInLevel kn h
        by_cases hsame : kn.2.side = Side.Sell ∧ kn.2.price_ticks = node.price_ticks
        · have hleq : l' = level := by
            have hthis : lookupLevel b kn.2.side kn.2.price_ticks = some level := by
              simp only [lookupLevel, hsame.1, hsame.2, hlev]
            rw [hthis] at hl'
            cases hl'
            rfl
          subst hleq
          refine ⟨⟨l'.queue ++ [idx], uadd64 l'.total_qty node.remaining⟩, ?_, ?_⟩
          · simp only [lookupLevel, hsame.1]
            rw [hsame.2, lookupKey_setKey_self, if_pos (by simp [hlev])]
          · exact List.mem_append_left _ hk'
        · refine ⟨l', ?_, hk'⟩
          cases hsd : kn.2.side with
          | Buy =>
            simp only [lookupLevel, hsd] at hl' ⊢
            exact hl'
          | Sell =>
            have hpne : kn.2.price_ticks ≠ node.price_ticks := by
              intro hh
              exact hsame ⟨hsd, hh⟩
            simp only [lookupLevel, hsd] at hl' ⊢
            rw [lookupKey_setKey_ne _ _ _ _ hpne]
            exact hl'
    · intro kn hkn
      rcases hn4 kn hkn with h | h
      · rw [h]
        exact hnpos
      · exact hwf.nodePos kn h
    · intro kn hkn
      rcases hn4 kn hkn with h | h
      · rw [h]
        exact hidxcap
      · exact lt_of_lt_of_le (hwf.arenaLtCap kn h) hcap2
    · intro k hk
      exact lt_of_lt_of_le (hwf.freeLtCap k (hfree2 k hk).1) hcap2
    · intro k hk
      rw [hn2 k (hfree2 k hk).2]
      exact hwf.freeNotInArena k (hfree2 k hk).1
    · exact hfree2nd
    · intro pl hpl
      rw [hsq_pre_b pl hpl]
      exact hwf.levelsBids pl hpl
    · intro pl hpl
      rcases mem_setKey_elim_nodup hwf.asksKeysNodup hpl with h | ⟨h, hne⟩
      · subst h
        have hmk : sumQueue orders2 level.queue = sumQueue b.orders level.queue :=
          hsq_pre_a _ hplmem
        show uadd64 level.total_qty node.remaining =
          sumQueue orders2 (level.queue ++ [idx])
        rw [sumQueue_append, hsqidx, huadd, hmk]
        omega
      · rw [hsq_pre_a pl h]
        exact hwf.levelsAsks pl h
  | none =>
    have hnotmem := not_mem_keys_of_lookup_none hlev
    have huadd0 : uadd64 0 node.remaining = node.remaining := by
      have := uadd64_of_lt (a := 0) (b := node.remaining) (by omega)
      omega
    have hbump : bumpLevel b.asks node.price_ticks idx node.remaining =
        insertSortedKey b.asks node.price_ticks ⟨[idx], uadd64 0 node.remaining⟩ := by
      simp only [bumpLevel, hlev]
    rw [hbump]
    have hperm := map_fst_insertSortedKey_perm b.asks node.price_ticks
      (⟨[idx], uadd64 0 node.remaining⟩ : Level) hnotmem
    constructor
    · exact hwf.bidsKeysNodup
    · exact hperm.nodup_iff.mpr (List.nodup_cons.mpr ⟨hnotmem, hwf.asksKeysNodup⟩)
    · exact hn3
    · intro pl hpl
      exact hwf.queueNodupBids pl hpl
    · intro pl hpl
      rcases mem_insertSortedKey_elim hpl with h | h
      · rw [h]
        exact List.nodup_singleton _
      · exact hwf.queueNodupAsks pl h
    · intro pl hpl k hk
      have hkne : k ≠ idx := fun hh => hfreshb pl hpl (hh ▸ hk)
      obtain ⟨n, hn, hs, hp⟩ := hwf.agreeBids pl hpl k hk
      refine ⟨n, ?_, hs, hp⟩
      rw [hn2 k hkne]
      exact hn
    · intro pl hpl k hk
      rcases mem_insertSortedKey_elim hpl with h | h
      · subst h
        rw [List.mem_singleton] at hk
        subst hk
        exact ⟨node, hn1, hsideS, rfl⟩
      · have hkne : k ≠ idx := fun hh => hfresha pl h (hh ▸ hk)
        obtain ⟨n, hn, hs, hp⟩ := hwf.agreeAsks pl h k hk
        refine ⟨n, ?_, hs, hp⟩
        rw [hn2 k hkne]
        exact hn
    · intro kn hkn
      rcases hn4 kn hkn with h | h
      · subst h
        refine ⟨⟨[idx], uadd64 0 node.remaining⟩, ?_, ?_⟩
        · simp only [lookupLevel, hsideS]
          rw [lookupKey_insertSortedKey_self]
        · simp
      · obtain ⟨l', hl', hk'⟩ := hwf.nodeInLevel kn h
        by_cases hsame : kn.2.side = Side.Sell ∧ kn.2.price_ticks = node.price_ticks
        · exfalso
          have hthis : lookupLevel b kn.2.side kn.2.price_ticks = none := by
            simp only [lookupLevel, hsame.1, hsame.2, hlev]
          rw [hthis] at hl'
          exact Option.noConfusion hl'
        · refine ⟨l', ?_, hk'⟩
          cases hsd : kn.2.side with
          | Buy =>
            simp only [lookupLevel, hsd] at hl' ⊢
            exact hl'
          | Sell =>
            have hpne : kn.2.price_ticks ≠ node.price_ticks := by
              intro hh
              exact hsame ⟨hsd, hh⟩
            simp only [lookupLevel, hsd] at hl' ⊢
            rw [lookupKey_insertSortedKey_ne _ _ _ _ hpne]
            exact hl'
    · intro kn hkn
      rcases hn4 kn hkn with h | h
      · rw [h]
        exact hnpos
      · exact hwf.nodePos kn h
    · intro kn hkn
      rcases hn4 kn hkn with h | h
      · rw [h]
        exact hidxcap
      · exact lt_of_lt_of_le (hwf.arenaLtCap kn h) hcap2
    · intro k hk
      exact lt_of_lt_of_le (hwf.freeLtCap k (hfree2 k hk).1) hcap2
    · intro k hk
      rw [hn2 k (hfree2 k hk).2]
      exact hwf.freeNotInArena k (hfree2 k hk).1
    · exact hfree2nd
    · intro pl hpl
      rw [hsq_pre_b pl hpl]
      exact hwf.levelsBids pl hpl
    · intro pl hpl
      rcases mem_insertSortedKey_elim hpl with h | h
      · subst h
        show uadd64 0 node.remaining = sumQueue orders2 [idx]
        rw [huadd0, hsqidx]
      · rw [hsq_pre_a pl h]
        exact hwf.levelsAsks pl h

theorem add_resting_wf (b : OrderBook) (incoming : IncomingOrder) (rem : Nat)
    (hwf : WF b) (hpos : 0 < rem) (hbound : arenaSum b + rem < U64MOD) :
    WF (add_resting b incoming rem) ∧
    arenaSum (add_resting b incoming rem) = arenaSum b + rem := by
  cases hfree : b.free with
  | nil =>
    have hidxdead : lookupKey b.orders b.cap = none := by
      cases h : lookupKey b.orders b.cap with
      | none => rfl
      | some n =>
        exact absurd (hwf.arenaLtCap (b.cap, n) (mem_of_lookupKey_eq_some h)) (lt_irrefl _)
    have hcnotmem : b.cap ∉ b.orders.map Prod.fst := not_mem_keys_of_lookup_none hidxdead
    have hn1 : lookupKey (b.orders ++ [(b.cap,
        (⟨incoming.order_id, incoming.subaccount_id, incoming.side, incoming.price_ticks,
          rem, incoming.ingress_seq⟩ : OrderNode))]) b.cap =
        some ⟨incoming.order_id, incoming.subaccount_id, incoming.side, incoming.price_ticks,
          rem, incoming.ingress_seq⟩ :=
      lookupKey_append_single_self _ _ _ hidxdead
    have hn2 : ∀ j, j ≠ b.cap → lookupKey (b.orders ++ [(b.cap,
        (⟨incoming.order_id, incoming.subaccount_id, incoming.side, incoming.price_ticks,
          rem, incoming.ingress_seq⟩ : OrderNode))]) j = lookupKey b.orders j :=
      fun j hj => lookupKey_append_single_ne _ _ _ _ hj
    have hn3 : ((b.orders ++ [(b.cap,
        (⟨incoming.order_id, incoming.subaccount_id, incoming.side, incoming.price_ticks,
          rem, incoming.ingress_seq⟩ : OrderNode))]).map Prod.fst).Nodup := by
      rw [List.map_append]
      refine List.Nodup.append hwf.arenaKeysNodup (by simp) ?_
      intro a ha hb
      simp at hb
      subst hb
      exact hcnotmem ha
    have hn4 : ∀ kn ∈ b.orders ++ [(b.cap,
        (⟨incoming.order_id, incoming.subaccount_id, incoming.side, incoming.price_ticks,
          rem, incoming.ingress_seq⟩ : OrderNode))],
        kn = (b.cap, (⟨incoming.order_id, incoming.subaccount_id, incoming.side,
          incoming.price_ticks, rem, incoming.ingress_seq⟩ : OrderNode)) ∨ kn ∈ b.orders := by
      intro kn hkn
      rcases List.mem_append.mp hkn with h | h
      · exact Or.inr h
      · exact Or.inl (List.mem_singleton.mp h)
    have hsum : ((b.orders ++ [(b.cap,
        (⟨incoming.order_id, incoming.subaccount_id, incoming.side, incoming.price_ticks,
          rem, incoming.ingress_seq⟩ : OrderNode))]).map (fun kn => kn.2.remaining)).sum =
        arenaSum b + rem := by
      simp [arenaSum]
    cases hside : incoming.side with
    | Buy =>
      have hrec : add_resting b incoming rem =
          { bids := bumpLevel b.bids incoming.price_ticks b.cap rem,
            asks := b.asks,
            orders := b.orders ++ [(b.cap,
              (⟨incoming.order_id, incoming.subaccount_id, incoming.side, incoming.price_ticks,
                rem, incoming.ingress_seq⟩ : OrderNode))],
            free := [],
            cap := b.cap + 1,
            order_index := (incoming.order_id, b.cap) :: eraseKey b.order_index incoming.order_id } := by
        simp only [add_resting, hfree, hside]
      rw [hrec]
      refine ⟨bump_bids_wf b hwf _ _ _ _ _ _ hn1 hn2 hn3 hn4 hidxdead (by simp)
        List.nodup_nil (Nat.le_succ _) (Nat.lt_succ_self _) hpos hbound hside, hsum⟩
    | Sell =>
      have hrec : add_resting b incoming rem =
          { bids := b.bids,
            asks := bumpLevel b.asks incoming.price_ticks b.cap rem,
            orders := b.orders ++ [(b.cap,
              (⟨incoming.order_id, incoming.subaccount_id, incoming.side, incoming.price_ticks,
                rem, incoming.ingress_seq⟩ : OrderNode))],
            free := [],
            cap := b.cap + 1,
            order_index := (incoming.order_id, b.cap) :: eraseKey b.order_index incoming.order_id } := by
        simp only [add_resting, hfree, hside]
      rw [hrec]
      refine ⟨bump_asks_wf b hwf _ _ _ _ _ _ hn1 hn2 hn3 hn4 hidxdead (by simp)
        List.nodup_nil (Nat.le_succ _) (Nat.lt_succ_self _) hpos hbound hside, hsum⟩
  | cons k rest =>
    have hkfree : k ∈ b.free := by
      rw [hfree]
      exact List.mem_cons_self _ _
    have hidxdead : lookupKey b.orders k = none := hwf.freeNotInArena k hkfree
    have hknotmem : k ∉ b.orders.map Prod.fst := not_mem_keys_of_lookup_none hidxdead
    have hfnd : (k :: rest).Nodup := by
      rw [← hfree]
      exact hwf.freeNodup
    have hn1 : lookupKey (insertSortedKey b.orders k
        (⟨incoming.order_id, incoming.subaccount_id, incoming.side, incoming.price_ticks,
          rem, incoming.ingress_seq⟩ : OrderNode)) k =
        some ⟨incoming.order_id, incoming.subaccount_id, incoming.side, incoming.price_ticks,
          rem, incoming.ingress_seq⟩ :=
      lookupKey_insertSortedKey_self _ _ _
    have hn2 : ∀ j, j ≠ k → lookupKey (insertSortedKey b.orders k
        (⟨incoming.order_id, incoming.subaccount_id, incoming.side, incoming.price_ticks,
          rem, incoming.ingress_seq⟩ : OrderNode)) j = lookupKey b.orders j :=
      fun j hj => lookupKey_insertSortedKey_ne _ _ _ _ hj
    have hn3 : ((insertSortedKey b.orders k
        (⟨incoming.order_id, incoming.subaccount_id, incoming.side, incoming.price_ticks,
          rem, incoming.ingress_seq⟩ : OrderNode)).map Prod.fst).Nodup := by
      have hperm := map_fst_insertSortedKey_perm b.orders k
        (⟨incoming.order_id, incoming.subaccount_id, incoming.side, incoming.price_ticks,
          rem, incoming.ingress_seq⟩ : OrderNode) hknotmem
      exact hperm.nodup_iff.mpr (List.nodup_cons.mpr ⟨hknotmem, hwf.arenaKeysNodup⟩)
    have hn4 : ∀ kn ∈ insertSortedKey b.orders k
        (⟨incoming.order_id, incoming.subaccount_id, incoming.side, incoming.price_ticks,
          rem, incoming.ingress_seq⟩ : OrderNode),
        kn = (k, (⟨incoming.order_id, incoming.subaccount_id, incoming.side,
          incoming.price_ticks, rem, incoming.ingress_seq⟩ : OrderNode)) ∨ kn ∈ b.orders :=
      fun kn hkn => mem_insertSortedKey_elim hkn
    have hfree2 : ∀ j ∈ rest, j ∈ b.free ∧ j ≠ k := by
      intro j hj
      refine ⟨by rw [hfree]; exact List.mem_cons_of_mem _ hj, ?_⟩
      intro hh
      exact (List.nodup_cons.mp hfnd).1 (hh ▸ hj)
    have hsum : ((insertSortedKey b.orders k
        (⟨incoming.order_id, incoming.subaccount_id, incoming.side, incoming.price_ticks,
          rem, incoming.ingress_seq⟩ : OrderNode)).map (fun kn => kn.2.remaining)).sum =
        arenaSum b + rem := by
      have hperm := List.Perm.map (fun kn : Nat × OrderNode => kn.2.remaining)
        (insertSortedKey_perm b.orders k
          (⟨incoming.order_id, incoming.subaccount_id, incoming.side, incoming.price_ticks,
            rem, incoming.ingress_seq⟩ : OrderNode) hidxdead)
      rw [List.Perm.sum_eq hperm]
      simp [arenaSum]
      omega
    cases hside : incoming.side with
    | Buy =>
      have hrec : add_resting b incoming rem =
          { bids := bumpLevel b.bids incoming.price_ticks k rem,
            asks := b.asks,
            orders := insertSortedKey b.orders k
              (⟨incoming.order_id, incoming.subaccount_id, incoming.side, incoming.price_ticks,
                rem, incoming.ingress_seq⟩ : OrderNode),
            free := rest,
            cap := b.cap,
            order_index := (incoming.order_id, k) :: eraseKey b.order_index incoming.order_id } := by
        simp only [add_resting, hfree, hside]
      rw [hrec]
      refine ⟨bump_bids_wf b hwf _ _ _ _ _ _ hn1 hn2 hn3 hn4 hidxdead hfree2
        (List.nodup_cons.mp hfnd).2 (le_refl _) (hwf.freeLtCap k hkfree) hpos hbound hside,
        hsum⟩
    | Sell =>
      have hrec : add_resting b incoming rem =
          { bids := b.bids,
            asks := bumpLevel b.asks incoming.price_ticks k rem,
            orders := insertSortedKey b.orders k
              (⟨incoming.order_id, incoming.subaccount_id, incoming.side, incoming.price_ticks,
                rem, incoming.ingress_seq⟩ : OrderNode),
            free := rest,
            cap := b.cap,
            order_index := (incoming.order_id, k) :: eraseKey b.order_index incoming.order_id } := by
        simp only [add_resting, hfree, hside]
      rw [hrec]
      refine ⟨bump_asks_wf b hwf _ _ _ _ _ _ hn1 hn2 hn3 hn4 hidxdead hfree2
        (List.nodup_cons.mp hfnd).2 (le_refl _) (hwf.freeLtCap k hkfree) hpos hbound hside,
        hsum⟩

theorem setKey_perm_of_lookup {α : Type} :
    ∀ {l : List (Nat × α)} {k : Nat} {n : α} (v : α), lookupKey l k = some n →
      (setKey l k v).Perm ((k, v) :: eraseKey l k) := by
  intro l
  induction l with
  | nil =>
    intro k n v hl
    simp [lookupKey] at hl
  | cons hd tl ih =>
    intro k n v hl
    obtain ⟨k', v'⟩ := hd
    by_cases h : k' = k
    · subst h
      simp [setKey, eraseKey]
    · simp only [lookupKey, if_neg h] at hl
      simp only [setKey, eraseKey, if_neg h]
      exact ((ih v hl).cons _).trans (List.Perm.swap _ _ _)

theorem levelEmpty_queue_nil {b : OrderBook} (hwf : WF b) {price : Nat} {l : Level}
    (hside : (price, l) ∈ b.bids ∨ (price, l) ∈ b.asks)
    (htot : l.total_qty = 0) : l.queue = [] := by
  cases hq : l.queue with
  | nil => rfl
  | cons k qrest =>
    exfalso
    rcases hside with hm | hm
    · have hlv : l.total_qty = sumQueue b.orders l.queue := hwf.levelsBids _ hm
      obtain ⟨n, hn, _, _⟩ := hwf.agreeBids _ hm k (by rw [hq]; exact List.mem_cons_self _ _)
      have hle := le_sumQueue_of_mem (q := l.queue) (by rw [hq]; exact List.mem_cons_self _ _) hn
      have hpos : 0 < n.remaining := hwf.nodePos (k, n) (mem_of_lookupKey_eq_some hn)
      omega
    · have hlv : l.total_qty = sumQueue b.orders l.queue := hwf.levelsAsks _ hm
      obtain ⟨n, hn, _, _⟩ := hwf.agreeAsks _ hm k (by rw [hq]; exact List.mem_cons_self _ _)
      have hle := le_sumQueue_of_mem (q := l.queue) (by rw [hq]; exact List.mem_cons_self _ _) hn
      have hpos : 0 < n.remaining := hwf.nodePos (k, n) (mem_of_lookupKey_eq_some hn)
      omega

theorem remove_level_if_empty_wf (b : OrderBook) (hwf : WF b) (side : Side) (price : Nat) :
    WF (remove_level_if_empty b side price) ∧
    (remove_level_if_empty b side price).orders = b.orders := by
  cases side with
  | Buy =>
    simp only [remove_level_if_empty]
    cases hl : lookupKey b.bids price with
    | none => exact ⟨hwf, rfl⟩
    | some level =>
      simp only
      by_cases ht : level.total_qty = 0
      · rw [if_pos ht]
        have hqnil : level.queue = [] :=
          levelEmpty_queue_nil hwf (Or.inl (mem_of_lookupKey_eq_some hl)) ht
        refine ⟨?_, rfl⟩
        constructor
        · rw [map_fst_eraseKey]
          exact hwf.bidsKeysNodup.erase price
        · exact hwf.asksKeysNodup
        · exact hwf.arenaKeysNodup
        · intro pl hpl
          exact hwf.queueNodupBids pl (mem_of_mem_eraseKey hpl)
        · intro pl hpl
          exact hwf.queueNodupAsks pl hpl
        · intro pl hpl k hk
          exact hwf.agreeBids pl (mem_of_mem_eraseKey hpl) k hk
        · intro pl hpl k hk
          exact hwf.agreeAsks pl hpl k hk
        · intro kn hkn
          obtain ⟨l', hl', hk'⟩ := hwf.nodeInLevel kn hkn
          refine ⟨l', ?_, hk'⟩
          cases hsd : kn.2.side with
          | Buy =>
            simp only [lookupLevel, hsd] at hl' ⊢
            have hpne : kn.2.price_ticks ≠ price := by
              intro hh
              rw [hh] at hl'
              have hlev2 : level = l' := Option.some.inj (hl.symm.trans hl')
              rw [← hlev2, hqnil] at hk'
              exact List.not_mem_nil _ hk'
            rw [lookupKey_eraseKey_ne _ _ _ hpne]
            exact hl'
          | Sell =>
            simp only [lookupLevel, hsd] at hl' ⊢
            exact hl'
        · exact hwf.nodePos
        · exact hwf.arenaLtCap
        · exact hwf.freeLtCap
        · exact hwf.freeNotInArena
        · exact hwf.freeNodup
        · intro pl hpl
          exact hwf.levelsBids pl (mem_of_mem_eraseKey hpl)
        · intro pl hpl
          exact hwf.levelsAsks pl hpl
      · rw [if_neg ht]
        exact ⟨hwf, rfl⟩
  | Sell =>
    simp only [remove_level_if_empty]
    cases hl : lookupKey b.asks price with
    | none => exact ⟨hwf, rfl⟩
    | some level =>
      simp only
      by_cases ht : level.total_qty = 0
      · rw [if_pos ht]
        have hqnil : level.queue = [] :=
          levelEmpty_queue_nil hwf (Or.inr (mem_of_lookupKey_eq_some hl)) ht
        refine ⟨?_, rfl⟩
        constructor
        · exact hwf.bidsKeysNodup
        · rw [map_fst_eraseKey]
          exact hwf.asksKeysNodup.erase price
        · exact hwf.arenaKeysNodup
        · intro pl hpl
          exact hwf.queueNodupBids pl hpl
        · intro pl hpl
          exact hwf.queueNodupAsks pl (mem_of_mem_eraseKey hpl)
        · intro pl hpl k hk
          exact hwf.agreeBids pl hpl k hk
        · intro pl hpl k hk
          exact hwf.agreeAsks pl (mem_of_mem_eraseKey hpl) k hk
        · intro kn hkn
          obtain ⟨l', hl', hk'⟩ := hwf.nodeInLevel kn hkn
          refine ⟨l', ?_, hk'⟩
          cases hsd : kn.2.side with
          | Buy =>
            simp only [lookupLevel, hsd] at hl' ⊢
            exact hl'
          | Sell =>
            simp only [lookupLevel, hsd] at hl' ⊢
            have hpne : kn.2.price_ticks ≠ price := by
              intro hh
              rw [hh] at hl'
              have hlev2 : level = l' := Option.some.inj (hl.symm.trans hl')
              rw [← hlev2, hqnil] at hk'
              exact List.not_mem_nil _ hk'
            rw [lookupKey_eraseKey_ne _ _ _ hpne]
            exact hl'
        · exact hwf.nodePos
        · exact hwf.arenaLtCap
        · exact hwf.freeLtCap
        · exact hwf.freeNotInArena
        · exact hwf.freeNodup
        · intro pl hpl
          exact hwf.levelsBids pl hpl
        · intro pl hpl
          exact hwf.levelsAsks pl (mem_of_mem_eraseKey hpl)
      · rw [if_neg ht]
        exact ⟨hwf, rfl⟩

theorem sumQueue_setKey {o : List (Nat × OrderNode)} {idx : Nat} {maker : OrderNode}
    (hl : lookupKey o idx = some maker) (m2 : OrderNode) :
    ∀ {q : List Nat}, q.Nodup → idx ∈ q →
      sumQueue (setKey o idx m2) q + maker.remaining = sumQueue o q + m2.remaining := by
  intro q
  induction q with
  | nil =>
    intro _ hm
    simp at hm
  | cons j rest ih =>
    intro hnd hm
    simp only [List.nodup_cons] at hnd
    rcases List.mem_cons.mp hm with h | h
    · subst h
      have hsk : lookupKey (setKey o idx m2) idx = some m2 := by
        rw [lookupKey_setKey_self, if_pos (by simp [hl])]
      rw [sumQueue_cons_some hsk, sumQueue_cons_some hl]
      have hcongr : sumQueue (setKey o idx m2) rest = sumQueue o rest :=
        sumQueue_congr (fun k hk => lookupKey_setKey_ne _ _ _ _ (fun hh => hnd.1 (hh ▸ hk)))
      omega
    · have hji : j ≠ idx := fun hh => hnd.1 (hh ▸ h)
      have hij : lookupKey (setKey o idx m2) j = lookupKey o j :=
        lookupKey_setKey_ne _ _ _ _ hji
      cases hjl : lookupKey o j with
      | some n =>
        rw [sumQueue_cons_some (hjl ▸ hij), sumQueue_cons_some hjl]
        have := ih hnd.2 h
        omega
      | none =>
        rw [sumQueue_cons_none (hjl ▸ hij), sumQueue_cons_none hjl]
        exact ih hnd.2 h

theorem arenaSum_setKey {o : List (Nat × OrderNode)} {idx : Nat} {maker : OrderNode}
    (hnd : (o.map Prod.fst).Nodup) (hl : lookupKey o idx = some maker) (m2 : OrderNode) :
    ((setKey o idx m2).map (fun kn => kn.2.remaining)).sum + maker.remaining =
      (o.map (fun kn => kn.2.remaining)).sum + m2.remaining := by
  have h1 := List.Perm.map (fun kn : Nat × OrderNode => kn.2.remaining)
    (setKey_perm_of_lookup m2 hl)
  have h2 := List.Perm.map (fun kn : Nat × OrderNode => kn.2.remaining)
    (eraseKey_perm_of_lookup hnd hl)
  rw [List.Perm.sum_eq h1, List.Perm.sum_eq h2]
  simp
  omega

theorem dec_surgery_asks (b : OrderBook) (hwf : WF b) (idx : Nat) (maker : OrderNode)
    (trade : Nat)
    (hnode : lookupKey b.orders idx = some maker) (hside : maker.side = Side.Sell)
    (l : Level) (hllb : lookupKey b.asks maker.price_ticks = some l)
    (hmem : idx ∈ l.queue)
    (htlt : trade < maker.remaining) :
    WF { b with
         asks := setKey b.asks maker.price_ticks ⟨l.queue, l.total_qty - trade⟩,
         orders := setKey b.orders idx { maker with remaining := maker.remaining - trade } } := by
  have hplmem : (maker.price_ticks, l) ∈ b.asks := mem_of_lookupKey_eq_some hllb
  have hqnd : l.queue.Nodup := hwf.queueNodupAsks (maker.price_ticks, l) hplmem
  have knotin_bids : ∀ pl ∈ b.bids, idx ∉ pl.2.queue := by
    intro pl hpl hk
    obtain ⟨hs, hp⟩ := node_of_queue_bids hwf hpl hk hnode
    rw [hside] at hs
    exact Side.noConfusion hs
  have knotin_otherasks : ∀ pl ∈ b.asks, pl.1 ≠ maker.price_ticks → idx ∉ pl.2.queue := by
    intro pl hpl hne hk
    obtain ⟨hs, hp⟩ := node_of_queue_asks hwf hpl hk hnode
    exact hne hp.symm
  have hsksome : lookupKey (setKey b.orders idx
      ({ maker with remaining := maker.remaining - trade } : OrderNode)) idx =
      some { maker with remaining := maker.remaining - trade } := by
    rw [lookupKey_setKey_self, if_pos (by simp [hnode])]
  constructor
  · exact hwf.bidsKeysNodup
  · rw [map_fst_setKey]
    exact hwf.asksKeysNodup
  · rw [map_fst_setKey]
    exact hwf.arenaKeysNodup
  · intro pl hpl
    exact hwf.queueNodupBids pl hpl
  · intro pl hpl
    rcases mem_setKey_elim_nodup hwf.asksKeysNodup hpl with h | ⟨h, hne⟩
    · rw [h]
      exact hqnd
    · exact hwf.queueNodupAsks pl h
  · intro pl hpl k hk
    have hkne : k ≠ idx := fun hh => knotin_bids pl hpl (hh ▸ hk)
    obtain ⟨n, hn, hs, hp⟩ := hwf.agreeBids pl hpl k hk
    refine ⟨n, ?_, hs, hp⟩
    rw [lookupKey_setKey_ne _ _ _ _ hkne]
    exact hn
  · intro pl hpl k hk
    rcases mem_setKey_elim_nodup hwf.asksKeysNodup hpl with h | ⟨h, hne⟩
    · subst h
      by_cases hki : k = idx
      · subst hki
        exact ⟨{ maker with remaining := maker.remaining - trade }, hsksome, hside, rfl⟩
      · obtain ⟨n, hn, hs, hp⟩ := hwf.agreeAsks _ hplmem k hk
        refine ⟨n, ?_, hs, hp⟩
        rw [lookupKey_setKey_ne _ _ _ _ hki]
        exact hn
    · have hkne : k ≠ idx := fun hh => knotin_otherasks pl h hne (hh ▸ hk)
      obtain ⟨n, hn, hs, hp⟩ := hwf.agreeAsks pl h k hk
      refine ⟨n, ?_, hs, hp⟩
      rw [lookupKey_setKey_ne _ _ _ _ hkne]
      exact hn
  · intro kn hkn
    rcases mem_setKey_elim_nodup hwf.arenaKeysNodup hkn with h | ⟨h, hne⟩
    · subst h
      refine ⟨⟨l.queue, l.total_qty - trade⟩, ?_, hmem⟩
      simp only [lookupLevel, hside]
      rw [lookupKey_setKey_self, if_pos (by simp [hllb])]
    · obtain ⟨l', hl', hk'⟩ := hwf.nodeInLevel kn h
      by_cases hsame : kn.2.side = Side.Sell ∧ kn.2.price_ticks = maker.price_ticks
      · have hleq : l' = l := by
          have hthis : lookupLevel b kn.2.side kn.2.price_ticks = some l := by
            simp only [lookupLevel, hsame.1, hsame.2, hllb]
          rw [hthis] at hl'
          cases hl'
          rfl
        subst hleq
        refine ⟨⟨l'.queue, l'.total_qty - trade⟩, ?_, hk'⟩
        simp only [lookupLevel, hsame.1]
        rw [hsame.2, lookupKey_setKey_self, if_pos (by simp [hllb])]
      · refine ⟨l', ?_, hk'⟩
        cases hsd : kn.2.side with
        | Buy =>
          simp only [lookupLevel, hsd] at hl' ⊢
          exact hl'
        | Sell =>
          have hpne : kn.2.price_ticks ≠ maker.price_ticks := by
            intro hh
            exact hsame ⟨hsd, hh⟩
          simp only [lookupLevel, hsd] at hl' ⊢
          rw [lookupKey_setKey_ne _ _ _ _ hpne]
          exact hl'
  · intro kn hkn
    rcases mem_setKey_elim_nodup hwf.arenaKeysNodup hkn with h | ⟨h, hne⟩
    · rw [h]
      show 0 < maker.remaining - trade
      omega
    · exact hwf.nodePos kn h
  · intro kn hkn
    rcases mem_setKey_elim_nodup hwf.arenaKeysNodup hkn with h | ⟨h, hne⟩
    · rw [h]
      exact hwf.arenaLtCap (idx, maker) (mem_of_lookupKey_eq_some hnode)
    · exact hwf.arenaLtCap kn h
  · exact hwf.freeLtCap
  · intro k hk
    have hkne : k ≠ idx := by
      intro hh
      have h2 := hwf.freeNotInArena k hk
      rw [hh, hnode] at h2
      exact Option.noConfusion h2
    rw [lookupKey_setKey_ne _ _ _ _ hkne]
    exact hwf.freeNotInArena k hk
  · exact hwf.freeNodup
  · intro pl hpl
    have hcongr : sumQueue (setKey b.orders idx
        ({ maker with remaining := maker.remaining - trade } : OrderNode)) pl.2.queue =
        sumQueue b.orders pl.2.queue :=
      sumQueue_congr (fun k hk => lookupKey_setKey_ne _ _ _ _
        (fun hh => knotin_bids pl hpl (hh ▸ hk)))
    rw [hcongr]
    exact hwf.levelsBids pl hpl
  · intro pl hpl
    rcases mem_setKey_elim_nodup hwf.asksKeysNodup hpl with h | ⟨h, hne⟩
    · subst h
      have htot : l.total_qty = sumQueue b.orders l.queue := hwf.levelsAsks _ hplmem
      have hdec := sumQueue_setKey hnode
        ({ maker with remaining := maker.remaining - trade } : OrderNode) hqnd hmem
      have hm2r : ({ maker with remaining := maker.remaining - trade } : OrderNode).remaining =
          maker.remaining - trade := rfl
      rw [hm2r] at hdec
      have hle := le_sumQueue_of_mem hmem hnode
      show l.total_qty - trade = sumQueue (setKey b.orders idx
        ({ maker with remaining := maker.remaining - trade } : OrderNode)) l.queue
      omega
    · have hcongr : sumQueue (setKey b.orders idx
          ({ maker with remaining := maker.remaining - trade } : OrderNode)) pl.2.queue =
          sumQueue b.orders pl.2.queue :=
        sumQueue_congr (fun k hk => lookupKey_setKey_ne _ _ _ _
          (fun hh => knotin_otherasks pl h hne (hh ▸ hk)))
      rw [hcongr]
      exact hwf.levelsAsks pl h

theorem dec_surgery_bids (b : OrderBook) (hwf : WF b) (idx : Nat) (maker : OrderNode)
    (trade : Nat)
    (hnode : lookupKey b.orders idx = some maker) (hside : maker.side = Side.Buy)
    (l : Level) (hllb : lookupKey b.bids maker.price_ticks = some l)
    (hmem : idx ∈ l.queue)
    (htlt : trade < maker.remaining) :
    WF { b with
         bids := setKey b.bids maker.price_ticks ⟨l.queue, l.total_qty - trade⟩,
         orders := setKey b.orders idx { maker with remaining := maker.remaining - trade } } := by
  have hplmem : (maker.price_ticks, l) ∈ b.bids := mem_of_lookupKey_eq_some hllb
  have hqnd : l.queue.Nodup := hwf.queueNodupBids (maker.price_ticks, l) hplmem
  have knotin_asks : ∀ pl ∈ b.asks, idx ∉ pl.2.queue := by
    intro pl hpl hk
    obtain ⟨hs, hp⟩ := node_of_queue_asks hwf hpl hk hnode
    rw [hside] at hs
    exact Side.noConfusion hs
  have knotin_otherbids : ∀ pl ∈ b.bids, pl.1 ≠ maker.price_ticks → idx ∉ pl.2.queue := by
    intro pl hpl hne hk
    obtain ⟨hs, hp⟩ := node_of_queue_bids hwf hpl hk hnode
    exact hne hp.symm
  have hsksome : lookupKey (setKey b.orders idx
      ({ maker with remaining := maker.remaining - trade } : OrderNode)) idx =
      some { maker with remaining := maker.remaining - trade } := by
    rw [lookupKey_setKey_self, if_pos (by simp [hnode])]
  constructor
  · rw [map_fst_setKey]
    exact hwf.bidsKeysNodup
  · exact hwf.asksKeysNodup
  · rw [map_fst_setKey]
    exact hwf.arenaKeysNodup
  · intro pl hpl
    rcases mem_setKey_elim_nodup hwf.bidsKeysNodup hpl with h | ⟨h, hne⟩
    · rw [h]
      exact hqnd
    · exact hwf.queueNodupBids pl h
  · intro pl hpl
    exact hwf.queueNodupAsks pl hpl
  · intro pl hpl k hk
    rcases mem_setKey_elim_nodup hwf.bidsKeysNodup hpl with h | ⟨h, hne⟩
    · subst h
      by_cases hki : k = idx
      · subst hki
        exact ⟨{ maker with remaining := maker.remaining - trade }, hsksome, hside, rfl⟩
      · obtain ⟨n, hn, hs, hp⟩ := hwf.agreeBids _ hplmem k hk
        refine ⟨n, ?_, hs, hp⟩
        rw [lookupKey_setKey_ne _ _ _ _ hki]
        exact hn
    · have hkne : k ≠ idx := fun hh => knotin_otherbids pl h hne (hh ▸ hk)
      obtain ⟨n, hn, hs, hp⟩ := hwf.agreeBids pl h k hk
      refine ⟨n, ?_, hs, hp⟩
      rw [lookupKey_setKey_ne _ _ _ _ hkne]
      exact hn
  · intro pl hpl k hk
    have hkne : k ≠ idx := fun hh => knotin_asks pl hpl (hh ▸ hk)
    obtain ⟨n, hn, hs, hp⟩ := hwf.agreeAsks pl hpl k hk
    refine ⟨n, ?_, hs, hp⟩
    rw [lookupKey_setKey_ne _ _ _ _ hkne]
    exact hn
  · intro kn hkn
    rcases mem_setKey_elim_nodup hwf.arenaKeysNodup hkn with h | ⟨h, hne⟩
    · subst h
      refine ⟨⟨l.queue, l.total_qty - trade⟩, ?_, hmem⟩
      simp only [lookupLevel, hside]
      rw [lookupKey_setKey_self, if_pos (by simp [hllb])]
    · obtain ⟨l', hl', hk'⟩ := hwf.nodeInLevel kn h
      by_cases hsame : kn.2.side = Side.Buy ∧ kn.2.price_ticks = maker.price_ticks
      · have hleq : l' = l := by
          have hthis : lookupLevel b kn.2.side kn.2.price_ticks = some l := by
            simp only [lookupLevel, hsame.1, hsame.2, hllb]
          rw [hthis] at hl'
          cases hl'
          rfl
        subst hleq
        refine ⟨⟨l'.queue, l'.total_qty - trade⟩, ?_, hk'⟩
        simp only [lookupLevel, hsame.1]
        rw [hsame.2, lookupKey_setKey_self, if_pos (by simp [hllb])]
      · refine ⟨l', ?_, hk'⟩
        cases hsd : kn.2.side with
        | Buy =>
          have hpne : kn.2.price_ticks ≠ maker.price_ticks := by
            intro hh
            exact hsame ⟨hsd, hh⟩
          simp only [lookupLevel, hsd] at hl' ⊢
          rw [lookupKey_setKey_ne _ _ _ _ hpne]
          exact hl'
        | Sell =>
          simp only [lookupLevel, hsd] at hl' ⊢
          exact hl'
  · intro kn hkn
    rcases mem_setKey_elim_nodup hwf.arenaKeysNodup hkn with h | ⟨h, hne⟩
    · rw [h]
      show 0 < maker.remaining - trade
      omega
    · exact hwf.nodePos kn h
  · intro kn hkn
    rcases mem_setKey_elim_nodup hwf.arenaKeysNodup hkn with h | ⟨h, hne⟩
    · rw [h]
      exact hwf.arenaLtCap (idx, maker) (mem_of_lookupKey_eq_some hnode)
    · exact hwf.arenaLtCap kn h
  · exact hwf.freeLtCap
  · intro k hk
    have hkne : k ≠ idx := by
      intro hh
      have h2 := hwf.freeNotInArena k hk
      rw [hh, hnode] at h2
      exact Option.noConfusion h2
    rw [lookupKey_setKey_ne _ _ _ _ hkne]
    exact hwf.freeNotInArena k hk
  · exact hwf.freeNodup
  · intro pl hpl
    rcases mem_setKey_elim_nodup hwf.bidsKeysNodup hpl with h | ⟨h, hne⟩
    · subst h
      have htot : l.total_qty = sumQueue b.orders l.queue := hwf.levelsBids _ hplmem
      have hdec := sumQueue_setKey hnode
        ({ maker with remaining := maker.remaining - trade } : OrderNode) hqnd hmem
      have hm2r : ({ maker with remaining := maker.remaining - trade } : OrderNode).remaining =
          maker.remaining - trade := rfl
      rw [hm2r] at hdec
      have hle := le_sumQueue_of_mem hmem hnode
      show l.total_qty - trade = sumQueue (setKey b.orders idx
        ({ maker with remaining := maker.remaining - trade } : OrderNode)) l.queue
      omega
    · have hcongr : sumQueue (setKey b.orders idx
          ({ maker with remaining := maker.remaining - trade } : OrderNode)) pl.2.queue =
          sumQueue b.orders pl.2.queue :=
        sumQueue_congr (fun k hk => lookupKey_setKey_ne _ _ _ _
          (fun hh => knotin_otherbids pl h hne (hh ▸ hk)))
      rw [hcongr]
      exact hwf.levelsBids pl h
  · intro pl hpl
    have hcongr : sumQueue (setKey b.orders idx
        ({ maker with remaining := maker.remaining - trade } : OrderNode)) pl.2.queue =
        sumQueue b.orders pl.2.queue :=
      sumQueue_congr (fun k hk => lookupKey_setKey_ne _ _ _ _
        (fun hh => knotin_asks pl hpl (hh ▸ hk)))
    rw [hcongr]
    exact hwf.levelsAsks pl hpl

theorem match_step_buy_wf (b : OrderBook) (hwf : WF b)
    (bp : Nat) (level : Level) (head : Nat) (qrest : List Nat) (maker : OrderNode)
    (strem : Nat)
    (hbo : b.asks.head? = some (bp, level))
    (hq : level.queue = head :: qrest)
    (hmaker : lookupKey b.orders head = some maker)
    (hb : arenaSum b < U64MOD) :
    WF (if usub64 level.total_qty (strem ⊓ maker.remaining) = 0 then
          remove_level_if_empty
            (if maker.remaining - strem ⊓ maker.remaining = 0 then
              { bids := b.bids,
                asks := setKey b.asks bp ⟨qrest, usub64 level.total_qty (strem ⊓ maker.remaining)⟩,
                orders := eraseKey b.orders head,
                free := head :: b.free,
                cap := b.cap,
                order_index := eraseKey b.order_index maker.order_id }
            else
              { bids := b.bids,
                asks := setKey b.asks bp ⟨head :: qrest, usub64 level.total_qty (strem ⊓ maker.remaining)⟩,
                orders := setKey b.orders head { maker with remaining := maker.remaining - strem ⊓ maker.remaining },
                free := b.free,
                cap := b.cap,
                order_index := b.order_index })
            Side.Buy bp
        else
          (if maker.remaining - strem ⊓ maker.remaining = 0 then
              { bids := b.bids,
                asks := setKey b.asks bp ⟨qrest, usub64 level.total_qty (strem ⊓ maker.remaining)⟩,
                orders := eraseKey b.orders head,
                free := head :: b.free,
                cap := b.cap,
                order_index := eraseKey b.order_index maker.order_id }
            else
              { bids := b.bids,
                asks := setKey b.asks bp ⟨head :: qrest, usub64 level.total_qty (strem ⊓ maker.remaining)⟩,
                orders := setKey b.orders head { maker with remaining := maker.remaining - strem ⊓ maker.remaining },
                free := b.free,
                cap := b.cap,
                order_index := b.order_index })) ∧
    arenaSum (if usub64 level.total_qty (strem ⊓ maker.remaining) = 0 then
          remove_level_if_empty
            (if maker.remaining - strem ⊓ maker.remaining = 0 then
              { bids := b.bids,
                asks := setKey b.asks bp ⟨qrest, usub64 level.total_qty (strem ⊓ maker.remaining)⟩,
                orders := eraseKey b.orders head,
                free := head :: b.free,
                cap := b.cap,
                order_index := eraseKey b.order_index maker.order_id }
            else
              { bids := b.bids,
                asks := setKey b.asks bp ⟨head :: qrest, usub64 level.total_qty (strem ⊓ maker.remaining)⟩,
                orders := setKey b.orders head { maker with remaining := maker.remaining - strem ⊓ maker.remaining },
                free := b.free,
                cap := b.cap,
                order_index := b.order_index })
            Side.Buy bp
        else
          (if maker.remaining - strem ⊓ maker.remaining = 0 then
              { bids := b.bids,
                asks := setKey b.asks bp ⟨qrest, usub64 level.total_qty (strem ⊓ maker.remaining)⟩,
                orders := eraseKey b.orders head,
                free := head :: b.free,
                cap := b.cap,
                order_index := eraseKey b.order_index maker.order_id }
            else
              { bids := b.bids,
                asks := setKey b.asks bp ⟨head :: qrest, usub64 level.total_qty (strem ⊓ maker.remaining)⟩,
                orders := setKey b.orders head { maker with remaining := maker.remaining - strem ⊓ maker.remaining },
                free := b.free,
                cap := b.cap,
                order_index := b.order_index })) ≤ arenaSum b := by
  have hmem : (bp, level) ∈ b.asks := by
    cases hasks : b.asks with
    | nil =>
      rw [hasks] at hbo
      exact Option.noConfusion hbo
    | cons hd tl =>
      rw [hasks] at hbo
      simp only [List.head?_cons] at hbo
      rw [← Option.some.inj hbo]
      exact List.mem_cons_self _ _
  have hlvl : lookupKey b.asks bp = some level :=
    lookupKey_of_mem_nodup hwf.asksKeysNodup hmem
  have hmemq : head ∈ level.queue := by
    rw [hq]
    exact List.mem_cons_self _ _

  obtain ⟨n0, hn0, hs0, hp0⟩ := hwf.agreeAsks (bp, level) hmem head hmemq
  rw [hmaker] at hn0
  cases hn0
  have hqnd : level.queue.Nodup := hwf.queueNodupAsks (bp, level) hmem
  have hlive : ∀ k ∈ level.queue, (lookupKey b.orders k).isSome := by
    intro k hk
    obtain ⟨n, hn, _, _⟩ := hwf.agreeAsks (bp, level) hmem k hk
    simp [hn]
  have htot : level.total_qty = sumQueue b.orders level.queue := hwf.levelsAsks (bp, level) hmem
  have hsqle := sumQueue_le_arena hwf.arenaKeysNodup hqnd hlive
  have harf : arenaSum b = (b.orders.map (fun kn => kn.2.remaining)).sum := rfl
  have hmle := le_sumQueue_of_mem hmemq hmaker
  have htle : strem ⊓ maker.remaining ≤ maker.remaining := min_le_right _ _
  have husub : usub64 level.total_qty (strem ⊓ maker.remaining) =
      level.total_qty - (strem ⊓ maker.remaining) := usub64_of_le (by omega) (by omega)
  have hfullwf : maker.remaining - strem ⊓ maker.remaining = 0 →
      WF { bids := b.bids,
                asks := setKey b.asks bp ⟨qrest, usub64 level.total_qty (strem ⊓ maker.remaining)⟩,
                orders := eraseKey b.orders head,
                free := head :: b.free,
                cap := b.cap,
                order_index := eraseKey b.order_index maker.order_id } := by
    intro hfull
    have htr : strem ⊓ maker.remaining = maker.remaining := by omega
    have hlvl2 : lookupKey b.asks maker.price_ticks = some level := by
      rw [hp0]
      exact hlvl
    have hsurg := cancel_surgery_asks b hwf head maker.order_id maker hmaker hs0 level hlvl2 hmemq
    have h1 : level.queue.erase head = qrest := by
      rw [hq]
      exact List.erase_cons_head _ _
    have h2 : usub64 level.total_qty (strem ⊓ maker.remaining) =
        level.total_qty - maker.remaining := by
      rw [husub, htr]
    have hrec : ({ b with
        asks := setKey b.asks maker.price_ticks ⟨level.queue.erase head, level.total_qty - maker.remaining⟩,
        orders := eraseKey b.orders head,
        free := head :: b.free,
        order_index := eraseKey b.order_index maker.order_id } : OrderBook) =
        { bids := b.bids,
                asks := setKey b.asks bp ⟨qrest, usub64 level.total_qty (strem ⊓ maker.remaining)⟩,
                orders := eraseKey b.orders head,
                free := head :: b.free,
                cap := b.cap,
                order_index := eraseKey b.order_index maker.order_id } := by
      rw [hp0, h1, h2]
    rw [← hrec]
    exact hsurg
  have hpartwf : ¬ (maker.remaining - strem ⊓ maker.remaining = 0) →
      WF { bids := b.bids,
                asks := setKey b.asks bp ⟨head :: qrest, usub64 level.total_qty (strem ⊓ maker.remaining)⟩,
                orders := setKey b.orders head { maker with remaining := maker.remaining - strem ⊓ maker.remaining },
                free := b.free,
                cap := b.cap,
                order_index := b.order_index } := by
    intro hpart
    have htlt : strem ⊓ maker.remaining < maker.remaining := by omega
    have hlvl2 : lookupKey b.asks maker.price_ticks = some level := by
      rw [hp0]
      exact hlvl
    have hsurg := dec_surgery_asks b hwf head maker (strem ⊓ maker.remaining) hmaker hs0
      level hlvl2 hmemq htlt
    have hrec : ({ b with
        asks := setKey b.asks maker.price_ticks ⟨level.queue, level.total_qty - strem ⊓ maker.remaining⟩,
        orders := setKey b.orders head { maker with remaining := maker.remaining - strem ⊓ maker.remaining } } : OrderBook) =
        { bids := b.bids,
                asks := setKey b.asks bp ⟨head :: qrest, usub64 level.total_qty (strem ⊓ maker.remaining)⟩,
                orders := setKey b.orders head { maker with remaining := maker.remaining - strem ⊓ maker.remaining },
                free := b.free,
                cap := b.cap,
                order_index := b.order_index } := by
      rw [hp0, hq, husub]
    rw [← hrec]
    exact hsurg
  have hfullar : ((eraseKey b.orders head).map (fun kn => kn.2.remaining)).sum ≤ arenaSum b := by
    have h5 := arenaSum_eraseKey hwf.arenaKeysNodup hmaker
    omega
  have hpartar : ((setKey b.orders head ({ maker with
      remaining := maker.remaining - strem ⊓ maker.remaining } : OrderNode)).map
      (fun kn => kn.2.remaining)).sum ≤ arenaSum b := by
    have h3 := arenaSum_setKey hwf.arenaKeysNodup hmaker
      ({ maker with remaining := maker.remaining - strem ⊓ maker.remaining } : OrderNode)
    have h4 : ({ maker with remaining := maker.remaining - strem ⊓ maker.remaining } :
        OrderNode).remaining = maker.remaining - strem ⊓ maker.remaining := rfl
    rw [h4] at h3
    omega
  by_cases hnt : usub64 level.total_qty (strem ⊓ maker.remaining) = 0
  · rw [if_pos hnt]
    by_cases hfull : maker.remaining - strem ⊓ maker.remaining = 0
    · rw [if_pos hfull]
      obtain ⟨hwR, hoR⟩ := remove_level_if_empty_wf _ (hfullwf hfull) Side.Buy bp
      refine ⟨hwR, ?_⟩
      have ha2 := congrArg
        (fun o : List (Nat × OrderNode) => (o.map (fun kn => kn.2.remaining)).sum) hoR
      exact le_trans (le_of_eq ha2) hfullar
    · rw [if_neg hfull]
      obtain ⟨hwR, hoR⟩ := remove_level_if_empty_wf _ (hpartwf hfull) Side.Buy bp
      refine ⟨hwR, ?_⟩
      have ha2 := congrArg
        (fun o : List (Nat × OrderNode) => (o.map (fun kn => kn.2.remaining)).sum) hoR
      exact le_trans (le_of_eq ha2) hpartar
  · rw [if_neg hnt]
    by_cases hfull : maker.remaining - strem ⊓ maker.remaining = 0
    · rw [if_pos hfull]
      exact ⟨hfullwf hfull, hfullar⟩
    · rw [if_neg hfull]
      exact ⟨hpartwf hfull, hpartar⟩

theorem match_step_sell_wf (b : OrderBook) (hwf : WF b)
    (bp : Nat) (level : Level) (head : Nat) (qrest : List Nat) (maker : OrderNode)
    (strem : Nat)
    (hbo : b.bids.getLast? = some (bp, level))
    (hq : level.queue = head :: qrest)
    (hmaker : lookupKey b.orders head = some maker)
    (hb : arenaSum b < U64MOD) :
    WF (if usub64 level.total_qty (strem ⊓ maker.remaining) = 0 then
          remove_level_if_empty
            (if maker.remaining - strem ⊓ maker.remaining = 0 then
              { asks := b.asks,
                bids := setKey b.bids bp ⟨qrest, usub64 level.total_qty (strem ⊓ maker.remaining)⟩,
                orders := eraseKey b.orders head,
                free := head :: b.free,
                cap := b.cap,
                order_index := eraseKey b.order_index maker.order_id }
            else
              { asks := b.asks,
                bids := setKey b.bids bp ⟨head :: qrest, usub64 level.total_qty (strem ⊓ maker.remaining)⟩,
                orders := setKey b.orders head { maker with remaining := maker.remaining - strem ⊓ maker.remaining },
                free := b.free,
                cap := b.cap,
                order_index := b.order_index })
            Side.Sell bp
        else
          (if maker.remaining - strem ⊓ maker.remaining = 0 then
              { asks := b.asks,
                bids := setKey b.bids bp ⟨qrest, usub64 level.total_qty (strem ⊓ maker.remaining)⟩,
                orders := eraseKey b.orders head,
                free := head :: b.free,
                cap := b.cap,
                order_index := eraseKey b.order_index maker.order_id }
            else
              { asks := b.asks,
                bids := setKey b.bids bp ⟨head :: qrest, usub64 level.total_qty (strem ⊓ maker.remaining)⟩,
                orders := setKey b.orders head { maker with remaining := maker.remaining - strem ⊓ maker.remaining },
                free := b.free,
                cap := b.cap,
                order_index := b.order_index })) ∧
    arenaSum (if usub64 level.total_qty (strem ⊓ maker.remaining) = 0 then
          remove_level_if_empty
            (if maker.remaining - strem ⊓ maker.remaining = 0 then
              { asks := b.asks,
                bids := setKey b.bids bp ⟨qrest, usub64 level.total_qty (strem ⊓ maker.remaining)⟩,
                orders := eraseKey b.orders head,
                free := head :: b.free,
                cap := b.cap,
                order_index := eraseKey b.order_index maker.order_id }
            else
              { asks := b.asks,
                bids := setKey b.bids bp ⟨head :: qrest, usub64 level.total_qty (strem ⊓ maker.remaining)⟩,
                orders := setKey b.orders head { maker with remaining := maker.remaining - strem ⊓ maker.remaining },
                free := b.free,
                cap := b.cap,
                order_index := b.order_index })
            Side.Sell bp
        else
          (if maker.remaining - strem ⊓ maker.remaining = 0 then
              { asks := b.asks,
                bids := setKey b.bids bp ⟨qrest, usub64 level.total_qty (strem ⊓ maker.remaining)⟩,
                orders := eraseKey b.orders head,
                free := head :: b.free,
                cap := b.cap,
                order_index := eraseKey b.order_index maker.order_id }
            else
              { asks := b.asks,
                bids := setKey b.bids bp ⟨head :: qrest, usub64 level.total_qty (strem ⊓ maker.remaining)⟩,
                orders := setKey b.orders head { maker with remaining := maker.remaining - strem ⊓ maker.remaining },
                free := b.free,
                cap := b.cap,
                order_index := b.order_index })) ≤ arenaSum b := by
  have hmem : (bp, level) ∈ b.bids := by
    have hx : (bp, level) ∈ b.bids.getLast? := by
      rw [Option.mem_def]
      exact hbo
    obtain ⟨hne, hx2⟩ := List.mem_getLast?_eq_getLast hx
    rw [hx2]
    exact List.getLast_mem hne
  have hlvl : lookupKey b.bids bp = some level :=
    lookupKey_of_mem_nodup hwf.bidsKeysNodup hmem
  have hmemq : head ∈ level.queue := by
    rw [hq]
    exact List.mem_cons_self _ _

  obtain ⟨n0, hn0, hs0, hp0⟩ := hwf.agreeBids (bp, level) hmem head hmemq
  rw [hmaker] at hn0
  cases hn0
  have hqnd : level.queue.Nodup := hwf.queueNodupBids (bp, level) hmem
  have hlive : ∀ k ∈ level.queue, (lookupKey b.orders k).isSome := by
    intro k hk
    obtain ⟨n, hn, _, _⟩ := hwf.agreeBids (bp, level) hmem k hk
    simp [hn]
  have htot : level.total_qty = sumQueue b.orders level.queue := hwf.levelsBids (bp, level) hmem
  have hsqle := sumQueue_le_arena hwf.arenaKeysNodup hqnd hlive
  have harf : arenaSum b = (b.orders.map (fun kn => kn.2.remaining)).sum := rfl
  have hmle := le_sumQueue_of_mem hmemq hmaker
  have htle : strem ⊓ maker.remaining ≤ maker.remaining := min_le_right _ _
  have husub : usub64 level.total_qty (strem ⊓ maker.remaining) =
      level.total_qty - (strem ⊓ maker.remaining) := usub64_of_le (by omega) (by omega)
  have hfullwf : maker.remaining - strem ⊓ maker.remaining = 0 →
      WF { asks := b.asks,
                bids := setKey b.bids bp ⟨qrest, usub64 level.total_qty (strem ⊓ maker.remaining)⟩,
                orders := eraseKey b.orders head,
                free := head :: b.free,
                cap := b.cap,
                order_index := eraseKey b.order_index maker.order_id } := by
    intro hfull
    have htr : strem ⊓ maker.remaining = maker.remaining := by omega
    have hlvl2 : lookupKey b.bids maker.price_ticks = some level := by
      rw [hp0]
      exact hlvl
    have hsurg := cancel_surgery_bids b hwf head maker.order_id maker hmaker hs0 level hlvl2 hmemq
    have h1 : level.queue.erase head = qrest := by
      rw [hq]
      exact List.erase_cons_head _ _
    have h2 : usub64 level.total_qty (strem ⊓ maker.remaining) =
        level.total_qty - maker.remaining := by
      rw [husub, htr]
    have hrec : ({ b with
        bids := setKey b.bids maker.price_ticks ⟨level.queue.erase head, level.total_qty - maker.remaining⟩,
        orders := eraseKey b.orders head,
        free := head :: b.free,
        order_index := eraseKey b.order_index maker.order_id } : OrderBook) =
        { asks := b.asks,
                bids := setKey b.bids bp ⟨qrest, usub64 level.total_qty (strem ⊓ maker.remaining)⟩,
                orders := eraseKey b.orders head,
                free := head :: b.free,
                cap := b.cap,
                order_index := eraseKey b.order_index maker.order_id } := by
      rw [hp0, h1, h2]
    rw [← hrec]
    exact hsurg
  have hpartwf : ¬ (maker.remaining - strem ⊓ maker.remaining = 0) →
      WF { asks := b.asks,
                bids := setKey b.bids bp ⟨head :: qrest, usub64 level.total_qty (strem ⊓ maker.remaining)⟩,
                orders := setKey b.orders head { maker with remaining := maker.remaining - strem ⊓ maker.remaining },
                free := b.free,
                cap := b.cap,
                order_index := b.order_index } := by
    intro hpart
    have htlt : strem ⊓ maker.remaining < maker.remaining := by omega
    have hlvl2 : lookupKey b.bids maker.price_ticks = some level := by
      rw [hp0]
      exact hlvl
    have hsurg := dec_surgery_bids b hwf head maker (strem ⊓ maker.remaining) hmaker hs0
      level hlvl2 hmemq htlt
    have hrec : ({ b with
        bids := setKey b.bids maker.price_ticks ⟨level.queue, level.total_qty - strem ⊓ maker.remaining⟩,
        orders := setKey b.orders head { maker with remaining := maker.remaining - strem ⊓ maker.remaining } } : OrderBook) =
        { asks := b.asks,
                bids := setKey b.bids bp ⟨head :: qrest, usub64 level.total_qty (strem ⊓ maker.remaining)⟩,
                orders := setKey b.orders head { maker with remaining := maker.remaining - strem ⊓ maker.remaining },
                free := b.free,
                cap := b.cap,
                order_index := b.order_index } := by
      rw [hp0, hq, husub]
    rw [← hrec]
    exact hsurg
  have hfullar : ((eraseKey b.orders head).map (fun kn => kn.2.remaining)).sum ≤ arenaSum b := by
    have h5 := arenaSum_eraseKey hwf.arenaKeysNodup hmaker
    omega
  have hpartar : ((setKey b.orders head ({ maker with
      remaining := maker.remaining - strem ⊓ maker.remaining } : OrderNode)).map
      (fun kn => kn.2.remaining)).sum ≤ arenaSum b := by
    have h3 := arenaSum_setKey hwf.arenaKeysNodup hmaker
      ({ maker with remaining := maker.remaining - strem ⊓ maker.remaining } : OrderNode)
    have h4 : ({ maker with remaining := maker.remaining - strem ⊓ maker.remaining } :
        OrderNode).remaining = maker.remaining - strem ⊓ maker.remaining := rfl
    rw [h4] at h3
    omega
  by_cases hnt : usub64 level.total_qty (strem ⊓ maker.remaining) = 0
  · rw [if_pos hnt]
    by_cases hfull : maker.remaining - strem ⊓ maker.remaining = 0
    · rw [if_pos hfull]
      obtain ⟨hwR, hoR⟩ := remove_level_if_empty_wf _ (hfullwf hfull) Side.Sell bp
      refine ⟨hwR, ?_⟩
      have ha2 := congrArg
        (fun o : List (Nat × OrderNode) => (o.map (fun kn => kn.2.remaining)).sum) hoR
      exact le_trans (le_of_eq ha2) hfullar
    · rw [if_neg hfull]
      obtain ⟨hwR, hoR⟩ := remove_level_if_empty_wf _ (hpartwf hfull) Side.Sell bp
      refine ⟨hwR, ?_⟩
      have ha2 := congrArg
        (fun o : List (Nat × OrderNode) => (o.map (fun kn => kn.2.remaining)).sum) hoR
      exact le_trans (le_of_eq ha2) hpartar
  · rw [if_neg hnt]
    by_cases hfull : maker.remaining - strem ⊓ maker.remaining = 0
    · rw [if_pos hfull]
      exact ⟨hfullwf hfull, hfullar⟩
    · rw [if_neg hfull]
      exact ⟨hpartwf hfull, hpartar⟩

theorem matchLoop_wf (incoming : IncomingOrder) (max_matches : Nat) :
    ∀ (fuel : Nat) (st st' : MatchSt),
      WF st.book → arenaSum st.book < U64MOD →
      matchLoop incoming max_matches fuel st = some st' →
      WF st'.book ∧ arenaSum st'.book ≤ arenaSum st.book ∧
        st'.remaining ≤ st.remaining := by
  intro fuel
  induction fuel with
  | zero =>
    intro st st' _ _ h
    exact absurd h (by simp [matchLoop])
  | succ fuel ih =>
    intro st st' hwf hb h
    simp only [matchLoop] at h
    split at h
    · cases Option.some.inj h
      exact ⟨hwf, le_refl _, le_refl _⟩
    · split at h
      · cases Option.some.inj h
        exact ⟨hwf, le_refl _, le_refl _⟩
      · split at h
        · cases Option.some.inj h
          exact ⟨hwf, le_refl _, le_refl _⟩
        · rename_i pair best_price level heqbo
          split at h
          · split at h
            · -- empty queue: remove_level_if_empty on the taker side, recurse
              rename_i hqnil
              obtain ⟨hw2, ho2⟩ := remove_level_if_empty_wf st.book hwf incoming.side best_price
              have harena2 : arenaSum (remove_level_if_empty st.book incoming.side best_price) =
                  arenaSum st.book := by
                show ((remove_level_if_empty st.book incoming.side best_price).orders.map
                  (fun kn => kn.2.remaining)).sum = _
                rw [ho2]
                rfl
              obtain ⟨w, a, r⟩ := ih _ st' hw2 (by rw [harena2]; exact hb) h
              exact ⟨w, le_trans a (le_of_eq harena2), r⟩
            · rename_i head_idx queue_rest hqcons
              split at h
              · cases Option.some.inj h
                exact ⟨hwf, le_refl _, le_refl _⟩
              · rename_i x maker hmaker
                cases hics : incoming.side with
                | Buy =>
                  rw [hics] at h heqbo
                  simp only [bestOpposite] at heqbo
                  obtain ⟨hstep1, hstep2⟩ := match_step_buy_wf st.book hwf best_price level
                    head_idx queue_rest maker st.remaining heqbo hqcons hmaker hb
                  obtain ⟨w, a, r⟩ := ih _ st' hstep1 (lt_of_le_of_lt hstep2 hb) h
                  refine ⟨w, le_trans a hstep2, ?_⟩
                  have r2 : st'.remaining ≤ st.remaining - st.remaining ⊓ maker.remaining := r
                  omega
                | Sell =>
                  rw [hics] at h heqbo
                  simp only [bestOpposite] at heqbo
                  obtain ⟨hstep1, hstep2⟩ := match_step_sell_wf st.book hwf best_price level
                    head_idx queue_rest maker st.remaining heqbo hqcons hmaker hb
                  obtain ⟨w, a, r⟩ := ih _ st' hstep1 (lt_of_le_of_lt hstep2 hb) h
                  refine ⟨w, le_trans a hstep2, ?_⟩
                  have r2 : st'.remaining ≤ st.remaining - st.remaining ⊓ maker.remaining := r
                  omega
          · cases Option.some.inj h
            exact ⟨hwf, le_refl _, le_refl _⟩

theorem place_order_wf (b : OrderBook) (incoming : IncomingOrder) (mm fuel : Nat)
    (r : List Fill × Option Nat × OrderBook) (hwf : WF b)
    (hbound : arenaSum b + incoming.qty < U64MOD)
    (h : place_order b incoming mm fuel = some r) :
    WF r.2.2 ∧ arenaSum r.2.2 ≤ arenaSum b + incoming.qty := by
  simp only [place_order] at h
  split at h
  · cases Option.some.inj h
    refine ⟨hwf, ?_⟩
    show arenaSum b ≤ arenaSum b + incoming.qty
    omega
  · split at h
    · exact Option.noConfusion h
    · rename_i x st heqml
      obtain ⟨w, a, r2⟩ := matchLoop_wf incoming mm fuel ⟨b, incoming.qty, 0, []⟩ st hwf
        (show arenaSum b < U64MOD by omega) heqml
      have a2 : arenaSum st.book ≤ arenaSum b := a
      have r3 : st.remaining ≤ incoming.qty := r2
      split at h
      · cases Option.some.inj h
        refine ⟨w, ?_⟩
        show arenaSum st.book ≤ arenaSum b + incoming.qty
        omega
      · split at h
        · cases Option.some.inj h
          refine ⟨w, ?_⟩
          show arenaSum st.book ≤ arenaSum b + incoming.qty
          omega
        · cases Option.some.inj h
          refine ⟨w, ?_⟩
          show arenaSum st.book ≤ arenaSum b + incoming.qty
          omega
        · split at h
          · cases Option.some.inj h
            refine ⟨w, ?_⟩
            show arenaSum st.book ≤ arenaSum b + incoming.qty
            omega
          · rename_i hrm0 x2 hpo
            cases Option.some.inj h
            obtain ⟨w2, s2⟩ := add_resting_wf st.book incoming st.remaining w
              (by omega) (by omega)
            refine ⟨w2, ?_⟩
            show arenaSum (add_resting st.book incoming st.remaining) ≤
              arenaSum b + incoming.qty
            omega

theorem runOps_wf : ∀ (ops : List BookOp) (fuel : Nat) (b b' : OrderBook),
    WF b → arenaSum b + opsBudget ops < U64MOD →
    runOps fuel ops b = some b' → WF b' := by
  intro ops
  induction ops with
  | nil =>
    intro fuel b b' hwf _ h
    simp only [runOps] at h
    cases Option.some.inj h
    exact hwf
  | cons op rest ih =>
    intro fuel b b' hwf hbud h
    simp only [runOps] at h
    split at h
    · rename_i b2 heq
      cases op with
      | place incoming mmx =>
        have hbud1 : opsBudget (BookOp.place incoming mmx :: rest) =
            incoming.qty + opsBudget rest := rfl
        simp only [applyOp] at heq
        split at heq
        · rename_i rr hpo
          cases Option.some.inj heq
          obtain ⟨w2, a2⟩ := place_order_wf b incoming mmx fuel rr hwf (by omega) hpo
          exact ih fuel rr.2.2 b' w2 (by omega) h
        · exact Option.noConfusion heq
      | cancelOp oid =>
        have hbud1 : opsBudget (BookOp.cancelOp oid :: rest) = opsBudget rest := rfl
        simp only [applyOp] at heq
        cases Option.some.inj heq
        obtain ⟨w2, a2⟩ := cancel_wf b hwf oid
        exact ih fuel (cancel b oid).2 b' w2 (by omega) h
    · exact Option.noConfusion h

/-- Claim C1 (amended): for every sequence of `place_order` and `cancel`
operations run from the empty book, as long as the total quantity placed stays
below `2^64`, every price level present in bids or asks has `total_qty` equal to
the sum of the `remaining` quantities of the order nodes in its queue. (At u64
scale the wrapping `+=` in `add_resting` and the saturating subtraction in
`detach_from_level` break the unconditional claim; see the counterexample.) -/
theorem c1_amended (ops : List BookOp) (fuel : Nat) (b' : OrderBook)
    (h : runOps fuel ops OrderBook.empty = some b')
    (hbudget : opsBudget ops < U64MOD) :
    BookInv b' := by
  have hzero : arenaSum OrderBook.empty = 0 := rfl
  have hwf := runOps_wf ops fuel OrderBook.empty b' WF_empty (by omega) h
  exact ⟨hwf.levelsBids, hwf.levelsAsks⟩

theorem c1_amended_witness :
    runOps 5 c1WitnessOps OrderBook.empty = some c1WitnessBook ∧
    opsBudget c1WitnessOps < U64MOD ∧ BookInv c1WitnessBook :=
  ⟨rfl, by decide, c1_amended c1WitnessOps 5 c1WitnessBook rfl (by decide)⟩

end HypermarketClob
